import Mathlib

/-!
# iSL1: a block-cipher toolkit (Feistel network, DES tables, chaining modes, padding)

Shallow embedding of the Go sources `customlib/second.go`, `customlib/third.go`
and `des/fourth.go`.

Conventions of the embedding

* a Go `[]byte` is a `List Nat`; every byte the code itself produces is reduced
  `% 256` where Go truncates, and statements that depend on the range of an input
  byte carry the hypothesis that the input bytes are below 256;
* a Go `int` that can be negative (bit indices, table entries, shift counts,
  constructor arguments) is an `Int`, with Go's truncated division `Int.tdiv` and
  remainder `Int.tmod`; lengths and loop counters that are never negative are `Nat`;
* a function returning `(T, error)` returns `Except Err T`; a run-time panic
  (index out of range, integer division by zero) is the distinguished value
  `Err.panic`, and a loop that does not terminate is `Err.diverges`;
* interfaces (`KeyExpander`, `CipherTransformation`) are structures of pure functions;
* `crypto/rand.Read` is an explicit random source taken as a parameter.
-/

namespace ISL1

/-! ## Errors and results -/

/-- The errors of the three packages, one constructor per `errors.New` call site, plus
run-time panics, non-termination and errors coming from an interface implementation. -/
inductive Err where
  /-- Message "keyExpander и cipherFunc не могут быть nil". -/
  | nilArgument
  /-- Message "число раундов должно быть положительным". -/
  | badRoundCount
  /-- Message "размер блока должен быть положительным и чётным". -/
  | badBlockSizeConfig
  /-- Message "число раундовых ключей не соответствует числу раундов". -/
  | roundKeyCountMismatch
  /-- Message "неверный размер блока" (FeistelCipher). -/
  | wrongBlockSize
  /-- Message "ключ должен быть длиной 8 байт". -/
  | desKeyLength
  /-- Message "блок должен быть длиной 8 байт". -/
  | desBlockLength
  /-- Message "KeyExpander не инициализирован". -/
  | noKeyExpander
  /-- Message "неподдерживаемый режим набивки". -/
  | unsupportedPadding
  /-- Message "неподдерживаемый режим шифрования". -/
  | unsupportedMode
  /-- Message "данные пусты". -/
  | emptyData
  /-- Message "неверная длина набивки". -/
  | badPaddingLength
  /-- Message "неверные данные набивки". -/
  | badPaddingData
  /-- Message "данные не кратны размеру блока". -/
  | notBlockMultiple
  /-- Message "неверный вектор инициализации (IV)". -/
  | invalidIV
  /-- Message "режим Random Delta не поддерживает дешифрование без дополнительных данных". -/
  | randomDeltaDecrypt
  /-- an error returned by an interface implementation or by the random source -/
  | external (code : Nat)
  /-- a Go run-time panic -/
  | panic
  /-- the Go loop does not terminate -/
  | diverges
  deriving DecidableEq, Repr

instance instDecidableEqExcept {ε α : Type} [DecidableEq ε] [DecidableEq α] :
    DecidableEq (Except ε α) :=
  fun a b => match a, b with
  | .ok x, .ok y =>
      if h : x = y then isTrue (by rw [h]) else isFalse (by intro h2; cases h2; exact h rfl)
  | .error x, .error y =>
      if h : x = y then isTrue (by rw [h]) else isFalse (by intro h2; cases h2; exact h rfl)
  | .ok _, .error _ => isFalse (by intro h; cases h)
  | .error _, .ok _ => isFalse (by intro h; cases h)

/-- Go `s[i]` on a byte slice or a table: a panic when `i` is out of range. -/
def index {α : Type} (s : List α) (i : Nat) : Except Err α :=
  match s[i]? with
  | some x => .ok x
  | none => .error Err.panic

/-- Go `copy(dst, src)`: the first `min (len dst) (len src)` elements of `dst` are
overwritten with those of `src`; the value returned is the new content of `dst`. -/
def copyBytes (dst src : List Nat) : List Nat :=
  src.take dst.length ++ dst.drop src.length

/-- Go `make([]byte, n)`. -/
def makeBytes (n : Nat) : List Nat := List.replicate n 0

/-! ## `des/fourth.go`: tables -/

def initialPermutation : List Int := [
  58, 50, 42, 34, 26, 18, 10, 2,
  60, 52, 44, 36, 28, 20, 12, 4,
  62, 54, 46, 38, 30, 22, 14, 6,
  64, 56, 48, 40, 32, 24, 16, 8,
  57, 49, 41, 33, 25, 17, 9, 1,
  59, 51, 43, 35, 27, 19, 11, 3,
  61, 53, 45, 37, 29, 21, 13, 5,
  63, 55, 47, 39, 31, 23, 15, 7]

def finalPermutation : List Int := [
  40, 8, 48, 16, 56, 24, 64, 32,
  39, 7, 47, 15, 55, 23, 63, 31,
  38, 6, 46, 14, 54, 22, 62, 30,
  37, 5, 45, 13, 53, 21, 61, 29,
  36, 4, 44, 12, 52, 20, 60, 28,
  35, 3, 43, 11, 51, 19, 59, 27,
  34, 2, 42, 10, 50, 18, 58, 26,
  33, 1, 41, 9, 49, 17, 57, 25]

def expansionPermutation : List Int := [
  32, 1, 2, 3, 4, 5,
  4, 5, 6, 7, 8, 9,
  8, 9, 10, 11, 12, 13,
  12, 13, 14, 15, 16, 17,
  16, 17, 18, 19, 20, 21,
  20, 21, 22, 23, 24, 25,
  24, 25, 26, 27, 28, 29,
  28, 29, 30, 31, 32, 1]

def permutationP : List Int := [
  16, 7, 20, 21,
  29, 12, 28, 17,
  1, 15, 23, 26,
  5, 18, 31, 10,
  2, 8, 24, 14,
  32, 27, 3, 9,
  19, 13, 30, 6,
  22, 11, 4, 25]

def sBoxes : List (List (List Nat)) := [
  [[14, 4, 13, 1, 2, 15, 11, 8, 3, 10, 6, 12, 5, 9, 0, 7],
   [0, 15, 7, 4, 14, 2, 13, 1, 10, 6, 12, 11, 9, 5, 3, 8],
   [4, 1, 14, 8, 13, 6, 2, 11, 15, 12, 9, 7, 3, 10, 5, 0],
   [15, 12, 8, 2, 4, 9, 1, 7, 5, 11, 3, 14, 10, 0, 6, 13]],
  [[15, 1, 8, 14, 6, 11, 3, 4, 9, 7, 2, 13, 12, 0, 5, 10],
   [3, 13, 4, 7, 15, 2, 8, 14, 12, 0, 1, 10, 6, 9, 11, 5],
   [0, 14, 7, 11, 10, 4, 13, 1, 5, 8, 12, 6, 9, 3, 2, 15],
   [13, 8, 10, 1, 3, 15, 4, 2, 11, 6, 7, 12, 0, 5, 14, 9]],
  [[10, 0, 9, 14, 6, 3, 15, 5, 1, 13, 12, 7, 11, 4, 2, 8],
   [13, 7, 0, 9, 3, 4, 6, 10, 2, 8, 5, 14, 12, 11, 15, 1],
   [13, 6, 4, 9, 8, 15, 3, 0, 11, 1, 2, 12, 5, 10, 14, 7],
   [1, 10, 13, 0, 6, 9, 8, 7, 4, 15, 14, 3, 11, 5, 2, 12]],
  [[7, 13, 14, 3, 0, 6, 9, 10, 1, 2, 8, 5, 11, 12, 4, 15],
   [13, 8, 11, 5, 6, 15, 0, 3, 4, 7, 2, 12, 1, 10, 14, 9],
   [10, 6, 9, 0, 12, 11, 7, 13, 15, 1, 3, 14, 5, 2, 8, 4],
   [3, 15, 0, 6, 10, 1, 13, 8, 9, 4, 5, 11, 12, 7, 2, 14]],
  [[2, 12, 4, 1, 7, 10, 11, 6, 8, 5, 3, 15, 13, 0, 14, 9],
   [14, 11, 2, 12, 4, 7, 13, 1, 5, 0, 15, 10, 3, 9, 8, 6],
   [4, 2, 1, 11, 10, 13, 7, 8, 15, 9, 12, 5, 6, 3, 0, 14],
   [11, 8, 12, 7, 1, 14, 2, 13, 6, 15, 0, 9, 10, 4, 5, 3]],
  [[12, 1, 10, 15, 9, 2, 6, 8, 0, 13, 3, 4, 14, 7, 5, 11],
   [10, 15, 4, 2, 7, 12, 9, 5, 6, 1, 13, 14, 0, 11, 3, 8],
   [9, 14, 15, 5, 2, 8, 12, 3, 7, 0, 4, 10, 1, 13, 11, 6],
   [4, 3, 2, 12, 9, 5, 15, 10, 11, 14, 1, 7, 6, 0, 8, 13]],
  [[4, 11, 2, 14, 15, 0, 8, 13, 3, 12, 9, 7, 5, 10, 6, 1],
   [13, 0, 11, 7, 4, 9, 1, 10, 14, 3, 5, 12, 2, 15, 8, 6],
   [1, 4, 11, 13, 12, 3, 7, 14, 10, 15, 6, 8, 0, 5, 9, 2],
   [6, 11, 13, 8, 1, 4, 10, 7, 9, 5, 0, 15, 14, 2, 3, 12]],
  [[13, 2, 8, 4, 6, 15, 11, 1, 10, 9, 3, 14, 5, 0, 12, 7],
   [1, 15, 13, 8, 10, 3, 7, 4, 12, 5, 6, 11, 0, 14, 9, 2],
   [7, 11, 4, 1, 9, 12, 14, 2, 0, 6, 10, 13, 15, 3, 5, 8],
   [2, 1, 14, 7, 4, 10, 8, 13, 15, 12, 9, 0, 3, 5, 6, 11]]]

def pc1 : List Int := [
  57, 49, 41, 33, 25, 17, 9,
  1, 58, 50, 42, 34, 26, 18,
  10, 2, 59, 51, 43, 35, 27,
  19, 11, 3, 60, 52, 44, 36,
  63, 55, 47, 39, 31, 23, 15,
  7, 62, 54, 46, 38, 30, 22,
  14, 6, 61, 53, 45, 37, 29,
  21, 13, 5, 28, 20, 12, 4]

def pc2 : List Int := [
  14, 17, 11, 24, 1, 5,
  3, 28, 15, 6, 21, 10,
  23, 19, 12, 4, 26, 8,
  16, 7, 27, 20, 13, 2,
  41, 52, 31, 37, 47, 55,
  30, 40, 51, 45, 33, 48,
  44, 49, 39, 56, 34, 53,
  46, 42, 50, 36, 29, 32]

def keyShifts : List Int := [
  1, 1, 2, 2, 2, 2, 2, 2,
  1, 2, 2, 2, 2, 2, 2, 1]

/-! ## `des/fourth.go`: bit operations -/

/-- Go `getBit(data, index)`: `(data[index/8] >> (7 - index%8)) & 1`, with Go's
truncated `/` and `%` on `int`; a negative or too large byte index panics. -/
def getBit (data : List Nat) (idx : Int) : Except Err Nat :=
  let byteIndex := Int.tdiv idx 8
  let bitOffset := 7 - Int.tmod idx 8
  if byteIndex < 0 then .error Err.panic
  else
    match data[byteIndex.toNat]? with
    | none => .error Err.panic
    | some b => .ok ((b >>> bitOffset.toNat) &&& 1)

/-- Go `setBit(data, index, value)`: sets (when `value == 1`) or clears the bit; the
mask `1 << bitOffset` has type `byte`. The value returned is the mutated slice. -/
def setBit (data : List Nat) (idx : Int) (value : Nat) : Except Err (List Nat) :=
  let byteIndex := Int.tdiv idx 8
  let bitOffset := 7 - Int.tmod idx 8
  if byteIndex < 0 then .error Err.panic
  else
    match data[byteIndex.toNat]? with
    | none => .error Err.panic
    | some b =>
        let mask := (1 <<< bitOffset.toNat) % 256
        if value = 1 then .ok (data.set byteIndex.toNat (b ||| mask))
        else .ok (data.set byteIndex.toNat (b &&& (255 ^^^ mask)))

/-- The loop `for i, p := range pBlock` of `permuteBits`, from position `i` on. -/
def permuteLoop (value : List Nat) : List Int → Nat → List Nat → Except Err (List Nat)
  | [], _, output => .ok output
  | p :: ps, i, output => do
      let inputBitIndex := p - 1
      let bit ← getBit value inputBitIndex
      let output ← setBit output (i : Int) bit
      permuteLoop value ps (i + 1) output

/-- Go `permuteBits(value, pBlock)`. -/
def permuteBits (value : List Nat) (pBlock : List Int) : Except Err (List Nat) :=
  let outputBitsLen := pBlock.length
  let outputBytesLen := (outputBitsLen + 7) / 8
  let output := makeBytes outputBytesLen
  permuteLoop value pBlock 0 output

/-- The loop `for i := 0; i < bitLen; i++` of `leftShift`; `n` iterations remain. -/
def leftShiftLoop (bits : List Nat) (bitLen : Nat) (totalShifts : Int) :
    Nat → Nat → List Nat → Except Err (List Nat)
  | 0, _, result => .ok result
  | n + 1, i, result => do
      let fromIndex := Int.tmod ((i : Int) + totalShifts) (bitLen : Int)
      let bit ← getBit bits fromIndex
      let result ← setBit result (i : Int) bit
      leftShiftLoop bits bitLen totalShifts n (i + 1) result

/-- Go `leftShift(bits, shift)`; `shift % bitLen` panics when `bits` is empty. -/
def leftShift (bits : List Nat) (shift : Int) : Except Err (List Nat) :=
  let bitLen := bits.length * 8
  if bitLen = 0 then .error Err.panic
  else
    let totalShifts := Int.tmod shift (bitLen : Int)
    let result := makeBytes bits.length
    leftShiftLoop bits bitLen totalShifts bitLen 0 result

/-- The loop of `setBits`: `n` iterations remain, `i` is the loop counter. -/
def setBitsLoop (offset : Int) (length : Nat) (value : Nat) :
    Nat → Nat → List Nat → Except Err (List Nat)
  | 0, _, data => .ok data
  | n + 1, i, data => do
      let bit := (value >>> (length - i - 1)) &&& 1
      let data ← setBit data (offset + (i : Int)) bit
      setBitsLoop offset length value n (i + 1) data

/-- Go `setBits(data, offset, length, value)`. -/
def setBits (data : List Nat) (offset : Int) (length : Nat) (value : Nat) :
    Except Err (List Nat) :=
  setBitsLoop offset length value length 0 data

/-! ## `des/fourth.go`: key schedule -/

/-- The loop `for i := 0; i < 16; i++` of `ExpandKey`; `n` iterations remain and the
round keys computed so far are `acc` (the slots `0 .. i-1` of `roundKeys`). -/
def expandKeyLoop : Nat → Nat → List Nat → List Nat → List (List Nat) →
    Except Err (List (List Nat))
  | 0, _, _, _, acc => .ok acc
  | n + 1, i, c, d, acc => do
      let s ← index keyShifts i
      let c ← leftShift c s
      let d ← leftShift d s
      let cd := c ++ d
      let roundKey ← permuteBits cd pc2
      expandKeyLoop n (i + 1) c d (acc ++ [roundKey])

/-- Go `(*DESKeyExpander).ExpandKey`. The 7-byte PC-1 output is split at
`len(key56)/2 = 3` bytes. -/
def DESKeyExpander.ExpandKey (key : List Nat) : Except Err (List (List Nat)) :=
  if key.length ≠ 8 then .error Err.desKeyLength
  else do
    let key56 ← permuteBits key pc1
    let c := key56.take (key56.length / 2)
    let d := key56.drop (key56.length / 2)
    expandKeyLoop 16 0 c d []

/-! ## `des/fourth.go`: round function -/

/-- The loop `expandedBlock[i] ^= roundKey[i]` of the round function. -/
def xorRoundKeyLoop (roundKey : List Nat) : Nat → Nat → List Nat → Except Err (List Nat)
  | 0, _, expandedBlock => .ok expandedBlock
  | n + 1, i, expandedBlock => do
      let e ← index expandedBlock i
      let k ← index roundKey i
      xorRoundKeyLoop roundKey n (i + 1) (expandedBlock.set i (e ^^^ k))

/-- The S-box loop `for i := 0; i < 8; i++` of the round function. -/
def sBoxLoop (expandedBlock : List Nat) : Nat → Nat → List Nat → Except Err (List Nat)
  | 0, _, sBoxOutput => .ok sBoxOutput
  | n + 1, i, sBoxOutput => do
      let offset : Int := (i : Int) * 6
      let b1 ← getBit expandedBlock offset
      let b2 ← getBit expandedBlock (offset + 1)
      let b3 ← getBit expandedBlock (offset + 2)
      let b4 ← getBit expandedBlock (offset + 3)
      let b5 ← getBit expandedBlock (offset + 4)
      let b6 ← getBit expandedBlock (offset + 5)
      let row := ((b1 <<< 1) % 256) ||| b6
      let column := ((b2 <<< 3) % 256) ||| ((b3 <<< 2) % 256) ||| ((b4 <<< 1) % 256) ||| b5
      let box ← index sBoxes i
      let line ← index box row
      let entry ← index line column
      let value := entry % 256
      let sBoxOutput ← setBits sBoxOutput ((i : Int) * 4) 4 value
      sBoxLoop expandedBlock n (i + 1) sBoxOutput

/-- Go `(*DESCipherTransformation).EncryptBlock`. -/
def DESCipherTransformation.EncryptBlock (inputBlock roundKey : List Nat) :
    Except Err (List Nat) := do
  let expandedBlock ← permuteBits inputBlock expansionPermutation
  let expandedBlock ← xorRoundKeyLoop roundKey expandedBlock.length 0 expandedBlock
  let sBoxOutput := makeBytes 4
  let sBoxOutput ← sBoxLoop expandedBlock 8 0 sBoxOutput
  let pBlock ← permuteBits sBoxOutput permutationP
  pure pBlock

/-- Go `(*DESCipherTransformation).DecryptBlock`. -/
def DESCipherTransformation.DecryptBlock (inputBlock roundKey : List Nat) :
    Except Err (List Nat) :=
  DESCipherTransformation.EncryptBlock inputBlock roundKey

/-! ## `customlib`: interfaces -/

/-- Go interface `KeyExpander`. -/
structure KeyExpander where
  ExpandKey : List Nat → Except Err (List (List Nat))

/-- Go interface `CipherTransformation`. -/
structure CipherTransformation where
  EncryptBlock : List Nat → List Nat → Except Err (List Nat)
  DecryptBlock : List Nat → List Nat → Except Err (List Nat)

/-- The value `&DESKeyExpander{}` as a `KeyExpander`. -/
def desKeyExpander : KeyExpander :=
  { ExpandKey := DESKeyExpander.ExpandKey }

/-- The value `&DESCipherTransformation{}` as a `CipherTransformation`. -/
def desCipherTransformation : CipherTransformation :=
  { EncryptBlock := DESCipherTransformation.EncryptBlock
    DecryptBlock := DESCipherTransformation.DecryptBlock }

/-! ## `customlib/third.go`: the Feistel network -/

/-- Go struct `FeistelCipher`; `numRounds` and `blockSize` are Go `int`s. -/
structure FeistelCipher where
  keyExpander : KeyExpander
  cipherFunc : CipherTransformation
  roundKeys : List (List Nat)
  numRounds : Int
  blockSize : Int

/-- Go `NewFeistelCipher`; a `nil` interface value is `none`. The new cipher has no
round keys (`roundKeys` is `nil`). -/
def NewFeistelCipher (keyExpander : Option KeyExpander) (cipherFunc : Option CipherTransformation)
    (numRounds : Int) (blockSize : Int) : Except Err FeistelCipher :=
  match keyExpander, cipherFunc with
  | some ke, some cf =>
      if numRounds ≤ 0 then .error Err.badRoundCount
      else if blockSize ≤ 0 ∨ Int.tmod blockSize 2 ≠ 0 then .error Err.badBlockSizeConfig
      else .ok { keyExpander := ke, cipherFunc := cf, roundKeys := [],
                 numRounds := numRounds, blockSize := blockSize }
  | _, _ => .error Err.nilArgument

/-- Go `xorBytes(a, b)`: byte-wise XOR over the shorter length. -/
def xorBytes (a b : List Nat) : List Nat :=
  List.zipWith (fun x y => x ^^^ y) a b

namespace FeistelCipher

/-- Go `(*FeistelCipher).SetKey`; the value returned on success is the cipher with its
round keys stored. -/
def SetKey (fc : FeistelCipher) (key : List Nat) : Except Err FeistelCipher := do
  let roundKeys ← fc.keyExpander.ExpandKey key
  if (roundKeys.length : Int) ≠ fc.numRounds then .error Err.roundKeyCountMismatch
  else .ok { fc with roundKeys := roundKeys }

/-- The loop `for i := 0; i < fc.numRounds; i++` of `EncryptBlock`; `n` rounds remain and
`i` is the loop counter. -/
def encryptRounds (fc : FeistelCipher) : Nat → Nat → List Nat → List Nat →
    Except Err (List Nat × List Nat)
  | 0, _, left, right => .ok (left, right)
  | n + 1, i, left, right => do
      let roundKey ← index fc.roundKeys i
      let fResult ← fc.cipherFunc.EncryptBlock right roundKey
      let newRight := xorBytes left fResult
      encryptRounds fc n (i + 1) right newRight

/-- The loop `for i := fc.numRounds - 1; i >= 0; i--` of `DecryptBlock`; the rounds
`n-1, ..., 0` remain. -/
def decryptRounds (fc : FeistelCipher) : Nat → List Nat → List Nat →
    Except Err (List Nat × List Nat)
  | 0, left, right => .ok (left, right)
  | n + 1, left, right => do
      let roundKey ← index fc.roundKeys n
      let fResult ← fc.cipherFunc.EncryptBlock left roundKey
      let newLeft := xorBytes right fResult
      decryptRounds fc n newLeft left

/-- Go `(*FeistelCipher).EncryptBlock`. -/
def EncryptBlock (fc : FeistelCipher) (block : List Nat) : Except Err (List Nat) :=
  if (block.length : Int) ≠ fc.blockSize then .error Err.wrongBlockSize
  else do
    let half := (Int.tdiv fc.blockSize 2).toNat
    let left := copyBytes (makeBytes half) (block.take half)
    let right := copyBytes (makeBytes half) (block.drop half)
    let (left, right) ← encryptRounds fc fc.numRounds.toNat 0 left right
    pure (left ++ right)

/-- Go `(*FeistelCipher).DecryptBlock`. -/
def DecryptBlock (fc : FeistelCipher) (block : List Nat) : Except Err (List Nat) :=
  if (block.length : Int) ≠ fc.blockSize then .error Err.wrongBlockSize
  else do
    let half := (Int.tdiv fc.blockSize 2).toNat
    let left := copyBytes (makeBytes half) (block.take half)
    let right := copyBytes (makeBytes half) (block.drop half)
    let (left, right) ← decryptRounds fc fc.numRounds.toNat left right
    pure (left ++ right)

end FeistelCipher

/-! ## `des/fourth.go`: the block cipher -/

/-- Go struct `DES`. -/
structure DES where
  feistelCipher : FeistelCipher

/-- Go `NewDES`. -/
def NewDES : Except Err DES := do
  let keyExpander := desKeyExpander
  let cipherFunc := desCipherTransformation
  let blockSize : Int := 8
  let numRounds : Int := 16
  let feistelCipher ← NewFeistelCipher (some keyExpander) (some cipherFunc) numRounds blockSize
  pure { feistelCipher := feistelCipher }

namespace DES

/-- Go `(*DES).SetKey`; the value returned on success is the keyed cipher. -/
def SetKey (des : DES) (key : List Nat) : Except Err DES := do
  let fc ← des.feistelCipher.SetKey key
  pure { feistelCipher := fc }

/-- Go `(*DES).EncryptBlock`. -/
def EncryptBlock (des : DES) (block : List Nat) : Except Err (List Nat) :=
  if block.length ≠ 8 then .error Err.desBlockLength
  else do
    let block ← permuteBits block initialPermutation
    let block ← des.feistelCipher.EncryptBlock block
    let block ← permuteBits block finalPermutation
    pure block

/-- Go `(*DES).DecryptBlock`. -/
def DecryptBlock (des : DES) (block : List Nat) : Except Err (List Nat) :=
  if block.length ≠ 8 then .error Err.desBlockLength
  else do
    let block ← permuteBits block initialPermutation
    let block ← des.feistelCipher.DecryptBlock block
    let block ← permuteBits block finalPermutation
    pure block

end DES

/-! ## `customlib/second.go`: the engine -/

/-- Go `CipherMode` (an `int`); a value outside the seven constants is `invalid`. -/
inductive CipherMode where
  | ECB | CBC | PCBC | CFB | OFB | CTR | RandomDelta | invalid
  deriving DecidableEq, Repr

/-- Go `PaddingMode` (an `int`); a value outside the four constants is `invalid`. -/
inductive PaddingMode where
  | Zeros | ANSIX923 | PKCS7 | ISO10126 | invalid
  deriving DecidableEq, Repr

/-- The random source behind `crypto/rand.Read`: the `call`-th read either fails or
yields a byte for every position of the buffer it is given. -/
abbrev RandSource := Nat → Except Err (Nat → Nat)

/-- Go `rand.Read(buf)` for a buffer of `n` bytes, as the `call`-th read: the new content
of the buffer. -/
def randRead (rnd : RandSource) (call n : Nat) : Except Err (List Nat) := do
  let f ← rnd call
  pure ((List.range n).map (fun j => f j % 256))

/-- Go struct `CryptoContext` (without the unused `extraParams` map); a `nil` slice or
interface is `none`. -/
structure CryptoContext where
  key : List Nat
  roundKeys : List (List Nat)
  mode : CipherMode
  padding : PaddingMode
  iv : Option (List Nat)
  transform : CipherTransformation
  expander : Option KeyExpander

/-- Go `s[:n]` on a slice whose capacity is its length: a panic when `n > len(s)`. -/
def slicePrefix (s : List Nat) (n : Nat) : Except Err (List Nat) :=
  if n ≤ s.length then .ok (s.take n) else .error Err.panic

/-- Go `s[n:]`: a panic when `n > len(s)`. -/
def sliceSuffix (s : List Nat) (n : Nat) : Except Err (List Nat) :=
  if n ≤ s.length then .ok (s.drop n) else .error Err.panic

/-- Go `xorBlocks(a, b)`: byte-wise XOR over the shorter length. -/
def xorBlocks (a b : List Nat) : List Nat :=
  List.zipWith (fun x y => x ^^^ y) a b

/-- The loop of `incrementCounter`, at index `i - 1` and going down. -/
def incrementCounterLoop : Nat → List Nat → List Nat
  | 0, counter => counter
  | i + 1, counter =>
      let v := (counter.getD i 0 + 1) % 256
      let counter := counter.set i v
      if v ≠ 0 then counter else incrementCounterLoop i counter

/-- Go `incrementCounter(counter)`; the value returned is the mutated counter. -/
def incrementCounter (counter : List Nat) : List Nat :=
  incrementCounterLoop counter.length counter

/-- Go `applyZerosPadding`. -/
def applyZerosPadding (data : List Nat) (paddingNeeded : Nat) : List Nat :=
  data ++ List.replicate paddingNeeded 0

/-- Go `removeZerosPadding`: `bytes.TrimRight(data, "\x00")`. -/
def removeZerosPadding (data : List Nat) : List Nat :=
  data.rdropWhile (fun b => b == 0)

/-- Go `applyANSIX923Padding`; `padding[paddingNeeded-1]` panics for an empty padding. -/
def applyANSIX923Padding (data : List Nat) (paddingNeeded : Nat) (_blockSize : Nat) :
    Except Err (List Nat) :=
  let padding := makeBytes paddingNeeded
  if paddingNeeded = 0 then .error Err.panic
  else
    let padding := padding.set (paddingNeeded - 1) (paddingNeeded % 256)
    .ok (data ++ padding)

/-- Go `removeANSIX923Padding`. -/
def removeANSIX923Padding (data : List Nat) : Except Err (List Nat) :=
  if data.length = 0 then .error Err.emptyData
  else do
    let paddingLength ← index data (data.length - 1)
    if paddingLength > data.length then .error Err.badPaddingLength
    else .ok (data.take (data.length - paddingLength))

/-- Go `applyPKCS7Padding`. -/
def applyPKCS7Padding (data : List Nat) (paddingNeeded : Nat) : List Nat :=
  let padding := List.replicate paddingNeeded (paddingNeeded % 256)
  data ++ padding

/-- The loop `for i := 1; i <= paddingLength; i++` of `removePKCS7Padding`; `n`
iterations remain. -/
def pkcs7CheckLoop (data : List Nat) (paddingLength : Nat) : Nat → Nat → Except Err Unit
  | 0, _ => .ok ()
  | n + 1, i =>
      if data.length < i then .error Err.panic
      else do
        let b ← index data (data.length - i)
        if b ≠ paddingLength % 256 then .error Err.badPaddingData
        else pkcs7CheckLoop data paddingLength n (i + 1)

/-- Go `removePKCS7Padding`. -/
def removePKCS7Padding (data : List Nat) : Except Err (List Nat) :=
  if data.length = 0 then .error Err.emptyData
  else do
    let paddingLength ← index data (data.length - 1)
    if paddingLength > data.length ∨ paddingLength = 0 then .error Err.badPaddingLength
    else do
      pkcs7CheckLoop data paddingLength paddingLength 1
      .ok (data.take (data.length - paddingLength))

/-- Go `applyISO10126Padding(data, blockSize)`; `len(data) % blockSize` panics for
`blockSize = 0`. The random bytes come from read number `0` of the source. -/
def applyISO10126Padding (rnd : RandSource) (data : List Nat) (blockSize : Nat) :
    Except Err (List Nat) :=
  if blockSize = 0 then .error Err.panic
  else do
    let paddingNeeded := blockSize - data.length % blockSize
    let paddingNeeded := if paddingNeeded = 0 then blockSize else paddingNeeded
    let padding := makeBytes paddingNeeded
    let random ← randRead rnd 0 (paddingNeeded - 1)
    let padding := copyBytes padding random
    let padding := padding.set (paddingNeeded - 1) (paddingNeeded % 256)
    .ok (data ++ padding)

/-- The common shape of the mode loops
`for i := 0; i < len(data); i += blockSize { chunk := data[i:i+w]; ...; copy(result[i:i+w], out) }`
with `w = min(blockSize, len(data)-i)`: `rest` is `data[i:]`, `step` is the loop body (from
the chunk and the chaining state to the bytes it copies and the new state), and the value
returned is `result[i:]`. `result` is a fresh zero buffer and each slot is written once,
so slot `i` ends as `copy` leaves a zero buffer of the chunk's length. With
`blockSize = 0` and data left the Go loop never ends: the fuel `len(data)` runs out. -/
def chainLoop {σ : Type} (blockSize : Nat)
    (step : List Nat → σ → Except Err (List Nat × σ)) :
    Nat → List Nat → σ → Except Err (List Nat)
  | _, [], _ => .ok []
  | 0, _ :: _, _ => .error Err.diverges
  | fuel + 1, b :: rest, state => do
      let chunk := (b :: rest).take blockSize
      let (out, state) ← step chunk state
      let tail ← chainLoop blockSize step fuel ((b :: rest).drop blockSize) state
      pure (copyBytes (makeBytes chunk.length) out ++ tail)

/-- The loop `for _, roundKey := range ctx.roundKeys` applying `EncryptBlock`. -/
def encryptChain (transform : CipherTransformation) :
    List (List Nat) → List Nat → Except Err (List Nat)
  | [], block => .ok block
  | roundKey :: rest, block => do
      let block ← transform.EncryptBlock block roundKey
      encryptChain transform rest block

/-- The loop `for i := len(ctx.roundKeys) - 1; i >= 0; i--` applying `DecryptBlock`; the
round keys `n-1, ..., 0` remain. -/
def decryptChain (transform : CipherTransformation) (roundKeys : List (List Nat)) :
    Nat → List Nat → Except Err (List Nat)
  | 0, block => .ok block
  | n + 1, block => do
      let roundKey ← index roundKeys n
      let block ← transform.DecryptBlock block roundKey
      decryptChain transform roundKeys n block

namespace CryptoContext

/-- Go `(*CryptoContext).SetKey`; the value returned on success is the re-keyed context. -/
def SetKey (ctx : CryptoContext) (key : List Nat) : Except Err CryptoContext :=
  match ctx.expander with
  | none => .error Err.noKeyExpander
  | some expander => do
      let roundKeys ← expander.ExpandKey key
      .ok { ctx with roundKeys := roundKeys }

/-- The expression `len(ctx.roundKeys[0])`, a panic without round keys. -/
def blockSize (ctx : CryptoContext) : Except Err Nat := do
  let k ← index ctx.roundKeys 0
  pure k.length

/-- Go `(*CryptoContext).applyPadding`; `len(data) % blockSize` panics for
`blockSize = 0`. -/
def applyPadding (rnd : RandSource) (ctx : CryptoContext) (data : List Nat) :
    Except Err (List Nat) := do
  let blockSize ← ctx.blockSize
  if blockSize = 0 then .error Err.panic
  else
    let paddingNeeded := blockSize - data.length % blockSize
    let paddingNeeded := if paddingNeeded = 0 then blockSize else paddingNeeded
    match ctx.padding with
    | .Zeros => .ok (applyZerosPadding data paddingNeeded)
    | .ANSIX923 => applyANSIX923Padding data paddingNeeded blockSize
    | .PKCS7 => .ok (applyPKCS7Padding data paddingNeeded)
    | .ISO10126 => applyISO10126Padding rnd data paddingNeeded
    | .invalid => .error Err.unsupportedPadding

/-- Go `(*CryptoContext).removePadding`. -/
def removePadding (ctx : CryptoContext) (data : List Nat) : Except Err (List Nat) :=
  match ctx.padding with
  | .Zeros => .ok (removeZerosPadding data)
  | .ANSIX923 => removeANSIX923Padding data
  | .PKCS7 => removePKCS7Padding data
  | .ISO10126 => removeANSIX923Padding data
  | .invalid => .error Err.unsupportedPadding

/-- Go `(*CryptoContext).encryptBlock`. -/
def encryptBlock (ctx : CryptoContext) (block : List Nat) : Except Err (List Nat) :=
  let encryptedBlock := copyBytes (makeBytes block.length) block
  encryptChain ctx.transform ctx.roundKeys encryptedBlock

/-- Go `(*CryptoContext).decryptBlock`. -/
def decryptBlock (ctx : CryptoContext) (block : List Nat) : Except Err (List Nat) :=
  let decryptedBlock := copyBytes (makeBytes block.length) block
  decryptChain ctx.transform ctx.roundKeys ctx.roundKeys.length decryptedBlock

/-- The check `ctx.iv == nil || len(ctx.iv) != blockSize`; the IV on success. -/
def checkedIV (ctx : CryptoContext) (blockSize : Nat) : Except Err (List Nat) :=
  match ctx.iv with
  | none => .error Err.invalidIV
  | some iv => if iv.length ≠ blockSize then .error Err.invalidIV else .ok iv

/-- The check `len(data) % blockSize != 0` of the block modes, a panic for
`blockSize = 0`. -/
def checkAligned (data : List Nat) (blockSize : Nat) : Except Err Unit :=
  if blockSize = 0 then .error Err.panic
  else if data.length % blockSize ≠ 0 then .error Err.notBlockMultiple
  else .ok ()

/-- Go `data[i : i+blockSize]` for the chunk `data[i : min(i+blockSize, len(data))]`:
a panic when fewer than `blockSize` bytes are left. -/
def fullBlock (chunk : List Nat) (blockSize : Nat) : Except Err (List Nat) :=
  if chunk.length < blockSize then .error Err.panic else .ok chunk

/-- The body of a goroutine of `encryptECB`, for the block `chunk`. -/
def ecbEncryptStep (ctx : CryptoContext) (blockSize : Nat) (chunk : List Nat) (_ : Unit) :
    Except Err (List Nat × Unit) := do
  let block ← fullBlock chunk blockSize
  let encryptedBlock ← encryptChain ctx.transform ctx.roundKeys block
  pure (encryptedBlock, ())

/-- Go `(*CryptoContext).encryptECB`. The goroutines, one per block, are run in block
order; each writes its own slot of `result`. -/
def encryptECB (ctx : CryptoContext) (data : List Nat) : Except Err (List Nat) := do
  let blockSize ← ctx.blockSize
  checkAligned data blockSize
  chainLoop blockSize (ctx.ecbEncryptStep blockSize) data.length data ()

/-- The body of a goroutine of `decryptECB`, for the block `chunk`. -/
def ecbDecryptStep (ctx : CryptoContext) (blockSize : Nat) (chunk : List Nat) (_ : Unit) :
    Except Err (List Nat × Unit) := do
  let block ← fullBlock chunk blockSize
  let decryptedBlock ← decryptChain ctx.transform ctx.roundKeys ctx.roundKeys.length block
  pure (decryptedBlock, ())

/-- Go `(*CryptoContext).decryptECB`, the goroutines run in block order. -/
def decryptECB (ctx : CryptoContext) (data : List Nat) : Except Err (List Nat) := do
  let blockSize ← ctx.blockSize
  checkAligned data blockSize
  chainLoop blockSize (ctx.ecbDecryptStep blockSize) data.length data ()

/-- The loop body of `encryptCBC`; the state is `prevBlock`. -/
def cbcEncryptStep (ctx : CryptoContext) (blockSize : Nat) (chunk prevBlock : List Nat) :
    Except Err (List Nat × List Nat) := do
  let plain ← fullBlock chunk blockSize
  let block := xorBlocks plain prevBlock
  let encryptedBlock ← ctx.encryptBlock block
  pure (encryptedBlock, encryptedBlock)

/-- Go `(*CryptoContext).encryptCBC`. -/
def encryptCBC (ctx : CryptoContext) (data : List Nat) : Except Err (List Nat) := do
  let blockSize ← ctx.blockSize
  checkAligned data blockSize
  let iv ← ctx.checkedIV blockSize
  chainLoop blockSize (ctx.cbcEncryptStep blockSize) data.length data iv

/-- The loop body of `decryptCBC`; the state is `prevBlock`. -/
def cbcDecryptStep (ctx : CryptoContext) (blockSize : Nat) (chunk prevBlock : List Nat) :
    Except Err (List Nat × List Nat) := do
  let encryptedBlock ← fullBlock chunk blockSize
  let decryptedBlock ← ctx.decryptBlock encryptedBlock
  let block := xorBlocks decryptedBlock prevBlock
  pure (block, encryptedBlock)

/-- Go `(*CryptoContext).decryptCBC`. -/
def decryptCBC (ctx : CryptoContext) (data : List Nat) : Except Err (List Nat) := do
  let blockSize ← ctx.blockSize
  checkAligned data blockSize
  let iv ← ctx.checkedIV blockSize
  chainLoop blockSize (ctx.cbcDecryptStep blockSize) data.length data iv

/-- The loop body of `encryptPCBC`; the state is `(prevPlainBlock, prevCipherBlock)`. -/
def pcbcEncryptStep (ctx : CryptoContext) (blockSize : Nat) (chunk : List Nat)
    (prev : List Nat × List Nat) : Except Err (List Nat × (List Nat × List Nat)) := do
  let plainBlock ← fullBlock chunk blockSize
  let block := xorBlocks plainBlock (xorBlocks prev.1 prev.2)
  let encryptedBlock ← ctx.encryptBlock block
  pure (encryptedBlock, (plainBlock, encryptedBlock))

/-- Go `(*CryptoContext).encryptPCBC`. -/
def encryptPCBC (ctx : CryptoContext) (data : List Nat) : Except Err (List Nat) := do
  let blockSize ← ctx.blockSize
  checkAligned data blockSize
  let iv ← ctx.checkedIV blockSize
  chainLoop blockSize (ctx.pcbcEncryptStep blockSize) data.length data (iv, iv)

/-- The loop body of `decryptPCBC`; the state is `(prevPlainBlock, prevCipherBlock)`. -/
def pcbcDecryptStep (ctx : CryptoContext) (blockSize : Nat) (chunk : List Nat)
    (prev : List Nat × List Nat) : Except Err (List Nat × (List Nat × List Nat)) := do
  let cipherBlock ← fullBlock chunk blockSize
  let decryptedBlock ← ctx.decryptBlock cipherBlock
  let plainBlock := xorBlocks decryptedBlock (xorBlocks prev.1 prev.2)
  pure (plainBlock, (plainBlock, cipherBlock))

/-- Go `(*CryptoContext).decryptPCBC`. -/
def decryptPCBC (ctx : CryptoContext) (data : List Nat) : Except Err (List Nat) := do
  let blockSize ← ctx.blockSize
  checkAligned data blockSize
  let iv ← ctx.checkedIV blockSize
  chainLoop blockSize (ctx.pcbcDecryptStep blockSize) data.length data (iv, iv)

/-- The statement `stream = append(stream[blockSizeToUse:], block...)` of the CFB loops,
followed by the truncation to `blockSize`. -/
def shiftStream (stream block : List Nat) (blockSizeToUse blockSize : Nat) :
    Except Err (List Nat) := do
  let kept ← sliceSuffix stream blockSizeToUse
  let stream := kept ++ block
  if stream.length > blockSize then slicePrefix stream blockSize else .ok stream

/-- The loop body of `encryptCFB`; the state is `stream`, and the chunk has
`blockSizeToUse = min(blockSize, len(data)-i)` bytes. -/
def cfbEncryptStep (ctx : CryptoContext) (blockSize : Nat) (chunk stream : List Nat) :
    Except Err (List Nat × List Nat) := do
  let encryptedStream ← ctx.encryptBlock stream
  let blockSizeToUse := chunk.length
  let keystream ← slicePrefix encryptedStream blockSizeToUse
  let cipherBlock := xorBlocks chunk keystream
  let stream ← shiftStream stream cipherBlock blockSizeToUse blockSize
  pure (cipherBlock, stream)

/-- Go `(*CryptoContext).encryptCFB`. -/
def encryptCFB (ctx : CryptoContext) (data : List Nat) : Except Err (List Nat) := do
  let blockSize ← ctx.blockSize
  let iv ← ctx.checkedIV blockSize
  chainLoop blockSize (ctx.cfbEncryptStep blockSize) data.length data iv

/-- The loop body of `decryptCFB`; the state is `stream`. -/
def cfbDecryptStep (ctx : CryptoContext) (blockSize : Nat) (chunk stream : List Nat) :
    Except Err (List Nat × List Nat) := do
  let encryptedStream ← ctx.encryptBlock stream
  let blockSizeToUse := chunk.length
  let keystream ← slicePrefix encryptedStream blockSizeToUse
  let plainBlock := xorBlocks chunk keystream
  let stream ← shiftStream stream chunk blockSizeToUse blockSize
  pure (plainBlock, stream)

/-- Go `(*CryptoContext).decryptCFB`. -/
def decryptCFB (ctx : CryptoContext) (data : List Nat) : Except Err (List Nat) := do
  let blockSize ← ctx.blockSize
  let iv ← ctx.checkedIV blockSize
  chainLoop blockSize (ctx.cfbDecryptStep blockSize) data.length data iv

/-- The loop body of `processOFB`; the state is `stream`. -/
def ofbStep (ctx : CryptoContext) (chunk stream : List Nat) :
    Except Err (List Nat × List Nat) := do
  let encryptedStream ← ctx.encryptBlock stream
  let blockSizeToUse := chunk.length
  let keystream ← slicePrefix encryptedStream blockSizeToUse
  let outputBlock := xorBlocks chunk keystream
  pure (outputBlock, encryptedStream)

/-- Go `(*CryptoContext).processOFB`. -/
def processOFB (ctx : CryptoContext) (data : List Nat) : Except Err (List Nat) := do
  let blockSize ← ctx.blockSize
  let iv ← ctx.checkedIV blockSize
  chainLoop blockSize ctx.ofbStep data.length data iv

/-- Go `(*CryptoContext).encryptOFB`. -/
def encryptOFB (ctx : CryptoContext) (data : List Nat) : Except Err (List Nat) :=
  ctx.processOFB data

/-- Go `(*CryptoContext).decryptOFB`. -/
def decryptOFB (ctx : CryptoContext) (data : List Nat) : Except Err (List Nat) :=
  ctx.processOFB data

/-- The loop body of `processCTR`; the state is `counter`. -/
def ctrStep (ctx : CryptoContext) (chunk counter : List Nat) :
    Except Err (List Nat × List Nat) := do
  let encryptedCounter ← ctx.encryptBlock counter
  let blockSizeToUse := chunk.length
  let keystream ← slicePrefix encryptedCounter blockSizeToUse
  let outputBlock := xorBlocks chunk keystream
  pure (outputBlock, incrementCounter counter)

/-- Go `(*CryptoContext).processCTR`; the counter starts as a copy of the IV. -/
def processCTR (ctx : CryptoContext) (data : List Nat) : Except Err (List Nat) := do
  let blockSize ← ctx.blockSize
  let iv ← ctx.checkedIV blockSize
  let counter := copyBytes (makeBytes blockSize) iv
  chainLoop blockSize ctx.ctrStep data.length data counter

/-- Go `(*CryptoContext).encryptCTR`. -/
def encryptCTR (ctx : CryptoContext) (data : List Nat) : Except Err (List Nat) :=
  ctx.processCTR data

/-- Go `(*CryptoContext).decryptCTR`. -/
def decryptCTR (ctx : CryptoContext) (data : List Nat) : Except Err (List Nat) :=
  ctx.processCTR data

/-- The loop body of `encryptRandomDelta`; the state is the number of the next read of
the random source (read `0` belongs to the padding). -/
def randomDeltaStep (rnd : RandSource) (ctx : CryptoContext) (blockSize : Nat)
    (chunk : List Nat) (call : Nat) : Except Err (List Nat × Nat) := do
  let delta ← randRead rnd call blockSize
  let blockSizeToUse := chunk.length
  let deltaPrefix ← slicePrefix delta blockSizeToUse
  let intermediateBlock := xorBlocks chunk deltaPrefix
  let encryptedBlock ← ctx.encryptBlock intermediateBlock
  pure (encryptedBlock, call + 1)

/-- Go `(*CryptoContext).encryptRandomDelta`. -/
def encryptRandomDelta (rnd : RandSource) (ctx : CryptoContext) (data : List Nat) :
    Except Err (List Nat) := do
  let blockSize ← ctx.blockSize
  chainLoop blockSize (randomDeltaStep rnd ctx blockSize) data.length data 1

/-- Go `(*CryptoContext).decryptRandomDelta`. -/
def decryptRandomDelta (_ctx : CryptoContext) (_data : List Nat) : Except Err (List Nat) :=
  .error Err.randomDeltaDecrypt

/-- Go `(*CryptoContext).Encrypt`. -/
def Encrypt (rnd : RandSource) (ctx : CryptoContext) (data : List Nat) :
    Except Err (List Nat) := do
  let dataWithPadding ← ctx.applyPadding rnd data
  match ctx.mode with
  | .ECB => ctx.encryptECB dataWithPadding
  | .CBC => ctx.encryptCBC dataWithPadding
  | .PCBC => ctx.encryptPCBC dataWithPadding
  | .CFB => ctx.encryptCFB dataWithPadding
  | .OFB => ctx.encryptOFB dataWithPadding
  | .CTR => ctx.encryptCTR dataWithPadding
  | .RandomDelta => ctx.encryptRandomDelta rnd dataWithPadding
  | .invalid => .error Err.unsupportedMode

/-- Go `(*CryptoContext).Decrypt`. -/
def Decrypt (ctx : CryptoContext) (data : List Nat) : Except Err (List Nat) := do
  let decryptedData ←
    match ctx.mode with
    | .ECB => ctx.decryptECB data
    | .CBC => ctx.decryptCBC data
    | .PCBC => ctx.decryptPCBC data
    | .CFB => ctx.decryptCFB data
    | .OFB => ctx.decryptOFB data
    | .CTR => ctx.decryptCTR data
    | .RandomDelta => ctx.decryptRandomDelta data
    | .invalid => .error Err.unsupportedMode
  let decryptedData ← ctx.removePadding decryptedData
  pure decryptedData

end CryptoContext

/-- Go `NewCryptoContext`. -/
def NewCryptoContext (key : List Nat) (mode : CipherMode) (padding : PaddingMode)
    (iv : Option (List Nat)) (transform : CipherTransformation)
    (expander : Option KeyExpander) : Except Err CryptoContext :=
  let ctx : CryptoContext :=
    { key := key, roundKeys := [], mode := mode, padding := padding, iv := iv,
      transform := transform, expander := expander }
  ctx.SetKey key

/-! ## `main.go`: the test vector of the demonstration program -/

/-- The `key` of `main`. -/
def mainKey : List Nat := [0x13, 0x34, 0x57, 0x79, 0x9B, 0xBC, 0xDF, 0xF1]

/-- The `plaintext` of `main`. -/
def mainPlaintext : List Nat := [0x01, 0x23, 0x45, 0x67, 0x89, 0xAB, 0xCD, 0xEF]

/-- The round keys `ExpandKey` computes for `mainKey` (see `expandKey_mainKey`). -/
def mainRoundKeys : List (List Nat) := [
  [26, 2, 239, 252, 113, 114], [121, 174, 209, 223, 201, 229],
  [85, 252, 130, 70, 207, 217], [99, 165, 214, 219, 181, 93],
  [109, 196, 135, 235, 215, 168], [115, 137, 178, 88, 127, 47],
  [172, 160, 187, 250, 89, 188], [183, 14, 22, 193, 123, 187],
  [33, 95, 75, 173, 239, 209], [112, 113, 229, 187, 198, 87],
  [145, 197, 89, 223, 199, 134], [85, 67, 191, 152, 102, 205],
  [182, 145, 133, 254, 243, 133], [27, 2, 103, 182, 103, 235],
  [185, 88, 188, 250, 186, 67], [85, 252, 138, 107, 128, 255]]

/-- The Feistel cipher `NewDES` builds, before `SetKey`. -/
def desFeistel : FeistelCipher :=
  { keyExpander := desKeyExpander, cipherFunc := desCipherTransformation, roundKeys := [],
    numRounds := 16, blockSize := 8 }

/-- The Feistel cipher of `main` after `SetKey(key)`. -/
def mainFeistel : FeistelCipher := { desFeistel with roundKeys := mainRoundKeys }

/-- The engine `NewCryptoContext` returns for the key of `main`, ECB, PKCS7, no IV, and
the repository's `DESCipherTransformation` and `DESKeyExpander` (see
`NewCryptoContext_desEngine`). -/
def desEngine : CryptoContext :=
  { key := mainKey, roundKeys := mainRoundKeys, mode := .ECB, padding := .PKCS7, iv := none,
    transform := desCipherTransformation, expander := some desKeyExpander }

/-! ## Specification predicates -/

/-- The round function succeeds and returns `half` bytes in every round of the Feistel
encryption loop started on the halves `left`, `right` with the round keys `keys`
(the calls the loop of `EncryptBlock` makes, in order). -/
def roundsSucceed (cf : CipherTransformation) (half : Nat) :
    List (List Nat) → List Nat → List Nat → Bool
  | [], _, _ => true
  | k :: ks, left, right =>
      match cf.EncryptBlock right k with
      | .ok fResult =>
          fResult.length == half && roundsSucceed cf half ks right (xorBytes left fResult)
      | .error _ => false

/-- Bit `i` of a byte list, counted MSB-first within each byte as `getBit` does, and `0`
past the end of the list: the value `getBit` returns at an index in range. -/
def bitAt (data : List Nat) (i : Nat) : Nat :=
  ((data.getD (i / 8) 0) >>> (7 - i % 8)) &&& 1

/-- The value `int(data[len(data)-1])` the padding removers read (`0` for an empty
buffer, which they reject before reading). -/
def lastByte (data : List Nat) : Nat := data.getD (data.length - 1) 0

/-- A context for tests: `reverseTransformation` reverses the block in both directions,
whatever the round key, so `DecryptBlock` is a length-preserving inverse of
`EncryptBlock` on every input. -/
def reverseTransformation : CipherTransformation :=
  { EncryptBlock := fun block _ => .ok block.reverse
    DecryptBlock := fun block _ => .ok block.reverse }

/-- A context for tests with three round keys of `blockSize` zero bytes, the IV
`0, 1, ..., blockSize-1`, and the reversing transformation. -/
def testContext (blockSize : Nat) (mode : CipherMode) (padding : PaddingMode) :
    CryptoContext :=
  { key := [],
    roundKeys :=
      [List.replicate blockSize 0, List.replicate blockSize 0, List.replicate blockSize 0],
    mode := mode, padding := padding, iv := some (List.range blockSize),
    transform := reverseTransformation, expander := none }

/-- A random source for tests: every read succeeds with the bytes `0xA0, 0xA1, ...`. -/
def testRand : RandSource := fun _ => .ok (fun j => 0xA0 + j)

/-- Block `i` of a buffer cut into blocks of `blockSize` bytes: Go
`data[i*blockSize : (i+1)*blockSize]`. -/
def blockAt (data : List Nat) (blockSize i : Nat) : List Nat :=
  (data.drop (i * blockSize)).take blockSize

/-- The round transformation encrypts block-sized inputs to block-sized outputs, for
each of the round keys. -/
def EncryptsOn (transform : CipherTransformation) (roundKeys : List (List Nat))
    (blockSize : Nat) : Prop :=
  ∀ key ∈ roundKeys, ∀ x : List Nat, x.length = blockSize →
    ∃ y, transform.EncryptBlock x key = .ok y ∧ y.length = blockSize

/-- For each of the round keys `k`, `DecryptBlock(., k)` is a length-preserving inverse
of `EncryptBlock(., k)` on block-sized inputs. -/
def InverseOn (transform : CipherTransformation) (roundKeys : List (List Nat))
    (blockSize : Nat) : Prop :=
  ∀ key ∈ roundKeys, ∀ x : List Nat, x.length = blockSize →
    ∃ y, transform.EncryptBlock x key = .ok y ∧ y.length = blockSize ∧
      transform.DecryptBlock y key = .ok x

/-- The value of a byte string read as a big-endian unsigned integer. -/
def beValue (c : List Nat) : Nat :=
  c.foldl (fun acc b => acc * 256 + b) 0

/-- The chaining state a mode loop holds after it has processed `rest` (same loop as
`chainLoop`, returning the state instead of the bytes). -/
def chainState {σ : Type} (blockSize : Nat)
    (step : List Nat → σ → Except Err (List Nat × σ)) :
    Nat → List Nat → σ → Except Err σ
  | _, [], state => .ok state
  | 0, _ :: _, _ => .error Err.diverges
  | fuel + 1, b :: rest, state => do
      let chunk := (b :: rest).take blockSize
      let (_, state) ← step chunk state
      chainState blockSize step fuel ((b :: rest).drop blockSize) state

/-- A streaming mode handles a partial final block: `mode` succeeds on every input with
an output of the input's length, and on full blocks `full` followed by a chunk `last` of
`L < blockSize` bytes its output is its output on `full` followed by `last` XORed with
the first `L` bytes of the keystream block `encBlock s`, where `s = state full` is the
chaining state reached after `full`. -/
def StreamsPartialBlock (mode : List Nat → Except Err (List Nat))
    (encBlock : List Nat → Except Err (List Nat))
    (state : List Nat → Except Err (List Nat)) (blockSize : Nat) : Prop :=
  (∀ data : List Nat, ∃ out, mode data = .ok out ∧ out.length = data.length) ∧
  (∀ full last : List Nat, full.length % blockSize = 0 → 0 < last.length →
    last.length < blockSize →
    ∃ outFull s ks, mode full = .ok outFull ∧ state full = .ok s ∧
      encBlock s = .ok ks ∧ ks.length = blockSize ∧
      mode (full ++ last) = .ok (outFull ++ xorBlocks last (ks.take last.length)))

/-! ## The key schedule as the specification words it

The definitions of this section follow the text of the specification, not the code:
the key is a string of bits, the 56 selected bits are split into two 28-bit halves,
each half is rotated as a 28-bit value, and a round key is the 48-bit selection of
the concatenated halves. They are compared with `DESKeyExpander.ExpandKey`. -/

/-- The bits of a byte string, most significant bit of each byte first. -/
def bitsOfBytes (bytes : List Nat) : List Nat :=
  (bytes.map fun b => (List.range 8).map fun j => (b / 2 ^ (7 - j)) % 2).flatten

/-- The bytes of a bit string, eight bits per byte, most significant bit first; a
last incomplete byte is filled with zero bits. -/
def bytesOfBits (bits : List Nat) : List Nat :=
  (List.range ((bits.length + 7) / 8)).map fun i =>
    (List.range 8).foldl (fun acc j => acc * 2 + bits.getD (8 * i + j) 0) 0

/-- The selection of the bits of `bits` at the 1-based positions of `table`. -/
def selectBits (table : List Int) (bits : List Nat) : List Nat :=
  table.map fun p => bits.getD (p - 1).toNat 0

/-- The round keys of the specification for the remaining entries of the rotation
schedule: `c` and `d` are the 28-bit halves `C_(i-1)`, `D_(i-1)`. -/
def specScheduleLoop : List Int → List Nat → List Nat → List (List Nat)
  | [], _, _ => []
  | s :: rest, c, d =>
      let c := c.rotate s.toNat
      let d := d.rotate s.toNat
      bytesOfBits (selectBits pc2 (c ++ d)) :: specScheduleLoop rest c d

/-- The key schedule of the specification: `C_0` and `D_0` are the first and the last
28 bits of the PC-1 selection of the key. -/
def specKeySchedule (key : List Nat) : List (List Nat) :=
  let key56 := selectBits pc1 (bitsOfBytes key)
  specScheduleLoop keyShifts (key56.take 28) (key56.drop 28)

/-! ## File processing -/

/-- The reading goroutine of `processFile`: the input cut into buffers of `chunkSize`
bytes, the last one shorter when the input length is not a multiple (each `Read`
of the regular file fills the buffer, or returns what is left). -/
def readChunks (chunkSize : Nat) : Nat → List Nat → List (List Nat)
  | _, [] => []
  | 0, _ :: _ => []
  | fuel + 1, b :: rest =>
      (b :: rest).take chunkSize :: readChunks chunkSize fuel ((b :: rest).drop chunkSize)

/-- The worker goroutines of `processFile`. Each worker calls `processFunc` on its
chunk and then `writer.Write` on the result; nothing orders the workers (the mutex is
created inside each worker, so no two workers ever lock the same one), and the
writes reach the writer in the order in which the workers get there. `order` lists
the chunk numbers in that order, `written` is what the writer holds so far. A worker
whose `processFunc` fails sends the error, which `processFile` returns. Two writes
are taken not to overlap in time. -/
def writeCompleted (processFunc : List Nat → Except Err (List Nat))
    (chunks : List (List Nat)) : List Nat → List Nat → Except Err (List Nat)
  | [], written => .ok written
  | i :: order, written => do
      let processedData ← processFunc (chunks.getD i [])
      writeCompleted processFunc chunks order (written ++ processedData)

namespace CryptoContext

/-- Go `(*CryptoContext).processFile` on an input file holding `input`, for the
completion order `order` of the workers (a permutation of the chunk numbers); the
result is the content of the output file, or the error returned. The errors of the
file system are not modelled. -/
def processFile (ctx : CryptoContext) (processFunc : List Nat → Except Err (List Nat))
    (input : List Nat) (order : List Nat) : Except Err (List Nat) := do
  let k ← ctx.blockSize
  let blockSize := k * 1024
  let chunks := readChunks blockSize input.length input
  writeCompleted processFunc chunks order []

/-- Go `(*CryptoContext).EncryptFile`. -/
def EncryptFile (rnd : RandSource) (ctx : CryptoContext) (input : List Nat)
    (order : List Nat) : Except Err (List Nat) :=
  ctx.processFile (CryptoContext.Encrypt rnd ctx) input order

/-- Go `(*CryptoContext).DecryptFile`. -/
def DecryptFile (ctx : CryptoContext) (input : List Nat) (order : List Nat) :
    Except Err (List Nat) :=
  ctx.processFile ctx.Decrypt input order

end CryptoContext

/-- What the specification requires of file processing: the processed chunks in the
order of the input chunks. -/
def inOrderOutput (processFunc : List Nat → Except Err (List Nat))
    (chunks : List (List Nat)) : Except Err (List Nat) :=
  writeCompleted processFunc chunks (List.range chunks.length) []

/-! ## A transformation without an inverse -/

/-- A transformation for tests whose `EncryptBlock` is not injective (every byte of the
block becomes `0x5A`) and whose `DecryptBlock` always fails. -/
def oneWayTransformation : CipherTransformation :=
  { EncryptBlock := fun block _ => .ok (block.map fun _ => 0x5A)
    DecryptBlock := fun _ _ => .error (Err.external 0) }

/-- A context for tests with two round keys of `blockSize` zero bytes, the IV
`0, 1, ..., blockSize-1`, and the transformation without an inverse. -/
def oneWayContext (blockSize : Nat) (mode : CipherMode) (padding : PaddingMode) :
    CryptoContext :=
  { key := [],
    roundKeys := [List.replicate blockSize 0, List.replicate blockSize 0],
    mode := mode, padding := padding, iv := some (List.range blockSize),
    transform := oneWayTransformation, expander := none }

/-! ## Results -/

section Basics

theorem bind_ok_eq {α β : Type} (a : α) (f : α → Except Err β) :
    (Except.ok a >>= f) = f a := rfl

theorem bind_error_eq {α β : Type} (e : Err) (f : α → Except Err β) :
    ((Except.error e : Except Err α) >>= f) = Except.error e := rfl

theorem pure_eq_ok {α : Type} (a : α) : (pure a : Except Err α) = Except.ok a := rfl

theorem index_eq_ok {α : Type} (s : List α) (i : Nat) (h : i < s.length) :
    index s i = .ok (s.get ⟨i, h⟩) := by
  simp [index, List.getElem?_eq_getElem h]

theorem index_of_getElem? {α : Type} (s : List α) (i : Nat) (x : α) (h : s[i]? = some x) :
    index s i = .ok x := by
  simp [index, h]

theorem copyBytes_same_length (dst src : List Nat) (h : dst.length = src.length) :
    copyBytes dst src = src := by
  simp [copyBytes, h]

theorem makeBytes_length (n : Nat) : (makeBytes n).length = n := by
  simp [makeBytes]

theorem xorBytes_length (a b : List Nat) : (xorBytes a b).length = min a.length b.length := by
  simp [xorBytes]

theorem xorBytes_cancel : ∀ (a b : List Nat), a.length ≤ b.length →
    xorBytes (xorBytes a b) b = a
  | [], _, _ => by simp [xorBytes]
  | _ :: _, [], h => by simp at h
  | x :: a, y :: b, h => by
      have ih := xorBytes_cancel a b (by simpa using h)
      simp only [xorBytes, List.zipWith_cons_cons] at ih ⊢
      rw [ih, Nat.xor_cancel_right]

end Basics

section Feistel

open FeistelCipher

theorem drop_take_succ {α : Type} (l : List α) (i n : Nat) (h : i < l.length) :
    (l.drop i).take (n + 1) = l.get ⟨i, h⟩ :: (l.drop (i + 1)).take n := by
  rw [List.drop_eq_getElem_cons h, List.take_succ_cons]
  rfl

/-- Running `n` encryption rounds from round `i` succeeds when the round function does,
and the decryption rounds `i+n-1, ..., i` take the result back to where it started. -/
theorem encryptRounds_decryptRounds (fc : FeistelCipher) (half : Nat) :
    ∀ (n i : Nat) (left right : List Nat),
      left.length = half → right.length = half → i + n ≤ fc.roundKeys.length →
      roundsSucceed fc.cipherFunc half ((fc.roundKeys.drop i).take n) left right = true →
      ∃ l r, encryptRounds fc n i left right = .ok (l, r) ∧ l.length = half ∧
        r.length = half ∧ decryptRounds fc (i + n) l r = decryptRounds fc i left right := by
  intro n
  induction n with
  | zero =>
      intro i left right hl hr _ _
      exact ⟨left, right, rfl, hl, hr, rfl⟩
  | succ n ih =>
      intro i left right hl hr hin hok
      have hi : i < fc.roundKeys.length := by omega
      rw [drop_take_succ _ _ _ hi] at hok
      simp only [roundsSucceed] at hok
      cases hF : fc.cipherFunc.EncryptBlock right (fc.roundKeys.get ⟨i, hi⟩) with
      | error e => rw [hF] at hok; simp at hok
      | ok y =>
          rw [hF] at hok
          simp only [Bool.and_eq_true, beq_iff_eq] at hok
          obtain ⟨hy, hrest⟩ := hok
          have hx : (xorBytes left y).length = half := by
            rw [xorBytes_length, hl, hy]; simp
          obtain ⟨l, r, henc, hll, hrl, hdec⟩ :=
            ih (i + 1) right (xorBytes left y) hr hx (by omega) hrest
          refine ⟨l, r, ?_, hll, hrl, ?_⟩
          · simp only [encryptRounds, index_eq_ok _ _ hi, bind_ok_eq, hF]
            exact henc
          · have e1 : i + (n + 1) = i + 1 + n := by omega
            rw [e1, hdec]
            simp only [decryptRounds, index_eq_ok _ _ hi, bind_ok_eq, hF]
            rw [xorBytes_cancel left y (by omega)]

theorem NewFeistelCipher_ok (ke : KeyExpander) (cf : CipherTransformation) (R B : Int)
    (fc : FeistelCipher) (h : NewFeistelCipher (some ke) (some cf) R B = .ok fc) :
    0 < R ∧ 0 < B ∧ Int.tmod B 2 = 0 ∧
      fc = { keyExpander := ke, cipherFunc := cf, roundKeys := [], numRounds := R,
             blockSize := B } := by
  simp only [NewFeistelCipher] at h
  split_ifs at h with h1 h2
  · simp only [Except.ok.injEq] at h
    refine ⟨by omega, by omega, ?_, h.symm⟩
    by_contra hne
    exact h2 (Or.inr hne)

theorem SetKey_ok (fc fc2 : FeistelCipher) (key : List Nat) (h : fc.SetKey key = .ok fc2) :
    ∃ rks, fc.keyExpander.ExpandKey key = .ok rks ∧ (rks.length : Int) = fc.numRounds ∧
      fc2 = { fc with roundKeys := rks } := by
  simp only [FeistelCipher.SetKey] at h
  cases hk : fc.keyExpander.ExpandKey key with
  | error e => rw [hk] at h; simp [bind_error_eq] at h
  | ok rks =>
      rw [hk, bind_ok_eq] at h
      split_ifs at h with h1
      simp only [Except.ok.injEq] at h
      exact ⟨rks, rfl, by simpa using h1, h.symm⟩

/-- The Feistel network on a keyed cipher: if the round function succeeds with
half-block results in every round of the encryption of `b`, encryption succeeds with a
block of the same length and decryption returns `b`. -/
theorem feistel_roundtrip_core (fc : FeistelCipher) (b : List Nat)
    (hR : (fc.roundKeys.length : Int) = fc.numRounds)
    (hB : (b.length : Int) = fc.blockSize) (heven : Int.tmod fc.blockSize 2 = 0)
    (hF : roundsSucceed fc.cipherFunc (b.length / 2) fc.roundKeys
      (b.take (b.length / 2)) (b.drop (b.length / 2)) = true) :
    ∃ c, fc.EncryptBlock b = .ok c ∧ c.length = b.length ∧ fc.DecryptBlock c = .ok b := by
  have hhalf : (Int.tdiv fc.blockSize 2).toNat = b.length / 2 := by
    rw [← hB]; simp [Int.tdiv]
    omega
  have hev : b.length % 2 = 0 := by
    rw [← hB] at heven
    have : Int.tmod (b.length : Int) 2 = ((b.length % 2 : Nat) : Int) := by
      simp [Int.tmod]
    rw [this] at heven
    exact_mod_cast heven
  have hnr : fc.numRounds.toNat = fc.roundKeys.length := by
    rw [← hR]; simp
  set half := b.length / 2 with hh
  have htl : (b.take half).length = half := by simp [List.length_take]; omega
  have hdl : (b.drop half).length = half := by simp [List.length_drop]; omega
  have hk : (fc.roundKeys.drop 0).take fc.roundKeys.length = fc.roundKeys := by simp
  obtain ⟨l, r, henc, hll, hrl, hdec⟩ :=
    encryptRounds_decryptRounds fc half fc.roundKeys.length 0 (b.take half) (b.drop half)
      htl hdl (by omega) (by rw [hk]; exact hF)
  have hlr : (l ++ r).length = b.length := by simp [hll, hrl]; omega
  refine ⟨l ++ r, ?_, hlr, ?_⟩
  · simp only [FeistelCipher.EncryptBlock, hB, ne_eq, not_true_eq_false, if_false, hhalf, hnr]
    rw [copyBytes_same_length _ _ (by rw [makeBytes_length, htl]),
      copyBytes_same_length _ _ (by rw [makeBytes_length, hdl]), henc]
    rfl
  · have hB2 : ((l ++ r).length : Int) = fc.blockSize := by rw [hlr, hB]
    simp only [FeistelCipher.DecryptBlock, hB2, ne_eq, not_true_eq_false, if_false, hhalf, hnr]
    have e1 : (l ++ r).take half = l := by simp [← hll]
    have e2 : (l ++ r).drop half = r := by simp [← hll]
    rw [e1, e2, copyBytes_same_length _ _ (by rw [makeBytes_length, hll]),
      copyBytes_same_length _ _ (by rw [makeBytes_length, hrl])]
    have := hdec
    simp only [Nat.zero_add] at this
    rw [this]
    simp only [decryptRounds, bind_ok_eq, pure_eq_ok]
    rw [List.take_append_drop]

/-- Claim C1. For every FeistelCipher built by `NewFeistelCipher` (even block size `B`,
`R` rounds) whose `SetKey` has succeeded, and every block `b` of length `B` such that the
round function succeeds and returns `B/2` bytes in every round: `EncryptBlock b` succeeds
with some `c` of length `B`, and `DecryptBlock c` returns exactly `b`. -/
theorem C1_feistel_decrypt_inverts_encrypt (ke : KeyExpander) (cf : CipherTransformation)
    (R B : Int) (fc fc2 : FeistelCipher) (key b : List Nat)
    (hnew : NewFeistelCipher (some ke) (some cf) R B = .ok fc)
    (hkey : fc.SetKey key = .ok fc2)
    (hlen : (b.length : Int) = B)
    (hF : roundsSucceed cf (b.length / 2) fc2.roundKeys
      (b.take (b.length / 2)) (b.drop (b.length / 2)) = true) :
    ∃ c, fc2.EncryptBlock b = .ok c ∧ (c.length : Int) = B ∧ fc2.DecryptBlock c = .ok b := by
  obtain ⟨_, _, hev, hfc⟩ := NewFeistelCipher_ok ke cf R B fc hnew
  obtain ⟨rks, _, hlenR, hfc2⟩ := SetKey_ok fc fc2 key hkey
  subst hfc
  subst hfc2
  obtain ⟨c, h1, h2, h3⟩ := feistel_roundtrip_core
    { keyExpander := ke, cipherFunc := cf, roundKeys := rks, numRounds := R, blockSize := B }
    b hlenR hlen hev hF
  exact ⟨c, h1, by rw [h2, hlen], h3⟩

end Feistel

section Bits

theorem bitAt_le_one (data : List Nat) (i : Nat) : bitAt data i ≤ 1 :=
  Nat.and_le_right

theorem shiftRight_and_one (b k : Nat) : (b >>> k) &&& 1 = (b.testBit k).toNat := by
  rw [Nat.and_one_is_mod, Nat.testBit, Nat.and_comm, Nat.and_one_is_mod]
  rcases Nat.mod_two_eq_zero_or_one (b >>> k) with h | h <;> simp [h]

theorem getBit_natCast (data : List Nat) (i : Nat) (h : i / 8 < data.length) :
    getBit data (i : Int) = .ok (bitAt data i) := by
  have h1 : Int.tdiv (i : Int) 8 = ((i / 8 : Nat) : Int) := rfl
  have h2 : Int.tmod (i : Int) 8 = ((i % 8 : Nat) : Int) := rfl
  have h3 : ¬ (((i / 8 : Nat) : Int) < 0) := by omega
  have h4 : (7 - ((i % 8 : Nat) : Int)).toNat = 7 - i % 8 := by omega
  simp only [getBit, h1, h2, h3, if_false, Int.toNat_ofNat, h4, List.getElem?_eq_getElem h,
    bitAt, List.getD_eq_getElem?_getD, Option.getD_some]

theorem setBit_natCast (data : List Nat) (i : Nat) (v : Nat) (h : i / 8 < data.length) :
    setBit data (i : Int) v = .ok (data.set (i / 8)
      (if v = 1 then data.get ⟨i / 8, h⟩ ||| 2 ^ (7 - i % 8)
       else data.get ⟨i / 8, h⟩ &&& (255 ^^^ 2 ^ (7 - i % 8)))) := by
  have h1 : Int.tdiv (i : Int) 8 = ((i / 8 : Nat) : Int) := rfl
  have h2 : Int.tmod (i : Int) 8 = ((i % 8 : Nat) : Int) := rfl
  have h3 : ¬ (((i / 8 : Nat) : Int) < 0) := by omega
  have h4 : (7 - ((i % 8 : Nat) : Int)).toNat = 7 - i % 8 := by omega
  have h5 : (1 <<< (7 - i % 8)) % 256 = 2 ^ (7 - i % 8) := by
    rw [Nat.one_shiftLeft]
    apply Nat.mod_eq_of_lt
    calc 2 ^ (7 - i % 8) ≤ 2 ^ 7 := Nat.pow_le_pow_right (by decide) (by omega)
      _ < 256 := by decide
  simp only [setBit, h1, h2, h3, if_false, Int.toNat_ofNat, h4, List.getElem?_eq_getElem h, h5,
    List.get_eq_getElem]
  split_ifs <;> rfl

theorem byte_or_bit (b k m : Nat) :
    ((b ||| 2 ^ k) >>> m) &&& 1 = if k = m then 1 else (b >>> m) &&& 1 := by
  rw [shiftRight_and_one, shiftRight_and_one, Nat.testBit_or, Nat.testBit_two_pow]
  by_cases h : k = m <;> simp [h]

theorem byte_clear_bit (b k m : Nat) (hm : m < 8) :
    ((b &&& (255 ^^^ 2 ^ k)) >>> m) &&& 1 = if k = m then 0 else (b >>> m) &&& 1 := by
  have h255 : Nat.testBit 255 m = true := by
    have : (255 : Nat) = 2 ^ 8 - 1 := by norm_num
    rw [this, Nat.testBit_two_pow_sub_one]
    simpa using hm
  rw [shiftRight_and_one, shiftRight_and_one, Nat.testBit_and, Nat.testBit_xor,
    Nat.testBit_two_pow, h255]
  by_cases h : k = m <;> simp [h]

/-- What `setBit` does at an index in range: it succeeds, keeps the length, sets bit `i`
and leaves every other bit alone. -/
theorem setBit_spec (data : List Nat) (i v : Nat) (h : i / 8 < data.length) :
    ∃ out, setBit data (i : Int) v = .ok out ∧ out.length = data.length ∧
      (∀ j, bitAt out j = if j = i then (if v = 1 then 1 else 0) else bitAt data j) ∧
      ((∀ x ∈ data, x < 256) → ∀ x ∈ out, x < 256) := by
  refine ⟨_, setBit_natCast data i v h, by simp, ?_, ?_⟩
  · intro j
    simp only [bitAt, List.getD_eq_getElem?_getD, List.getElem?_set, List.get_eq_getElem]
    by_cases hb : i / 8 = j / 8
    · have hj : j / 8 < data.length := by omega
      simp only [hb, if_true, hj, Option.getD_some, List.getElem?_eq_getElem hj]
      have hm : 7 - j % 8 < 8 := by omega
      by_cases hv : v = 1
      · simp only [hv, if_true, byte_or_bit]
        by_cases hji : j = i
        · simp [hji]
        · have : ¬ (7 - i % 8 = 7 - j % 8) := by omega
          simp [hji, this]
      · simp only [hv, if_false, byte_clear_bit _ _ _ hm]
        by_cases hji : j = i
        · simp [hji]
        · have : ¬ (7 - i % 8 = 7 - j % 8) := by omega
          simp [hji, this]
    · have hji : ¬ (j = i) := by intro e; rw [e] at hb; exact hb rfl
      simp [hb, hji]
  · intro hd x hx
    rcases List.mem_or_eq_of_mem_set hx with hx | hx
    · exact hd x hx
    · have hb : data.get ⟨i / 8, h⟩ < 256 := hd _ (List.get_mem _ _ _)
      rw [hx]
      split_ifs
      · have h2 : 2 ^ (7 - i % 8) < 2 ^ 8 := Nat.pow_lt_pow_right (by decide) (by omega)
        exact Nat.or_lt_two_pow hb h2
      · exact lt_of_le_of_lt Nat.and_le_left hb

/-- The loop of `permuteBits` on a table whose entries are valid 1-based bit positions. -/
theorem permuteLoop_spec (value : List Nat) :
    ∀ (ps : List Int) (i : Nat) (out : List Nat),
      (∀ p ∈ ps, 1 ≤ p ∧ p ≤ 8 * (value.length : Int)) → i + ps.length ≤ 8 * out.length →
      ∃ res, permuteLoop value ps i out = .ok res ∧ res.length = out.length ∧
        (∀ j, bitAt res j =
          if i ≤ j ∧ j < i + ps.length then bitAt value ((ps.getD (j - i) 0).toNat - 1)
          else bitAt out j) ∧
        ((∀ x ∈ out, x < 256) → ∀ x ∈ res, x < 256) := by
  intro ps
  induction ps with
  | nil =>
      intro i out _ _
      refine ⟨out, rfl, rfl, ?_, fun h => h⟩
      intro j
      have : ¬ (i ≤ j ∧ j < i + ([] : List Int).length) := by
        simp only [List.length_nil]; omega
      rw [if_neg this]
  | cons p ps ih =>
      intro i out hp hlen
      have hp1 := hp p (List.mem_cons_self _ _)
      have hcast : p - 1 = ((p.toNat - 1 : Nat) : Int) := by omega
      have hin : (p.toNat - 1) / 8 < value.length := by omega
      simp only [List.length_cons] at hlen
      obtain ⟨out1, hset, hl1, hb1, hr1⟩ :=
        setBit_spec out i (bitAt value (p.toNat - 1)) (by omega)
      obtain ⟨res, hres, hl, hb, hr⟩ := ih (i + 1) out1
        (fun q hq => hp q (List.mem_cons_of_mem _ hq)) (by rw [hl1]; omega)
      refine ⟨res, ?_, by rw [hl, hl1], ?_, fun h => hr (hr1 h)⟩
      · simp only [permuteLoop, hcast, getBit_natCast value _ hin, bind_ok_eq, hset]
        exact hres
      · intro j
        rw [hb j, hb1 j]
        have hv : (if bitAt value (p.toNat - 1) = 1 then 1 else 0) = bitAt value (p.toNat - 1) := by
          have := bitAt_le_one value (p.toNat - 1)
          split_ifs with h1
          · exact h1.symm
          · omega
        simp only [List.length_cons]
        by_cases h1 : i + 1 ≤ j ∧ j < i + 1 + ps.length
        · have h2 : i ≤ j ∧ j < i + (ps.length + 1) := by omega
          have h3 : j - i = (j - (i + 1)) + 1 := by omega
          simp only [h1, h2, and_self, if_true]
          rw [h3, List.getD_cons_succ]
        · by_cases h2 : j = i
          · have h4 : i ≤ j ∧ j < i + (ps.length + 1) := by omega
            simp only [h1, if_false, h2, if_true, hv]
            simp
          · have h4 : ¬ (i ≤ j ∧ j < i + (ps.length + 1)) := by omega
            simp only [h1, if_false, h2, h4]

theorem bitAt_makeBytes (n j : Nat) : bitAt (makeBytes n) j = 0 := by
  simp only [bitAt, makeBytes, List.getD_eq_getElem?_getD]
  by_cases h : j / 8 < n
  · simp [List.getElem?_replicate, h]
  · simp [List.getElem?_replicate, h]

/-- `permuteBits` on a table of valid 1-based positions: it succeeds with
`ceil(len(table)/8)` bytes, output bit `j` is input bit `table[j] - 1`, the remaining
bits are `0`, and every output byte is below 256. -/
theorem permuteBits_spec (value : List Nat) (table : List Int)
    (h : ∀ p ∈ table, 1 ≤ p ∧ p ≤ 8 * (value.length : Int)) :
    ∃ res, permuteBits value table = .ok res ∧ res.length = (table.length + 7) / 8 ∧
      (∀ j, bitAt res j =
        if j < table.length then bitAt value ((table.getD j 0).toNat - 1) else 0) ∧
      (∀ x ∈ res, x < 256) := by
  obtain ⟨res, hres, hl, hb, hr⟩ := permuteLoop_spec value table 0
    (makeBytes ((table.length + 7) / 8)) h (by rw [makeBytes_length]; omega)
  refine ⟨res, hres, by rw [hl, makeBytes_length], ?_, ?_⟩
  · intro j
    rw [hb j, bitAt_makeBytes]
    simp
  · apply hr
    intro x hx
    simp only [makeBytes, List.mem_replicate] at hx
    omega

/-- Two byte lists of the same length, with bytes below 256, that agree on every bit
are equal. -/
theorem bytes_ext (a b : List Nat) (hlen : a.length = b.length)
    (ha : ∀ x ∈ a, x < 256) (hb : ∀ x ∈ b, x < 256)
    (h : ∀ j, j < 8 * a.length → bitAt a j = bitAt b j) : a = b := by
  apply List.ext_getElem hlen
  intro n h1 h2
  apply Nat.eq_of_testBit_eq
  intro k
  by_cases hk : k < 8
  · have hj := h (8 * n + (7 - k)) (by omega)
    have e1 : (8 * n + (7 - k)) / 8 = n := by omega
    have e2 : 7 - (8 * n + (7 - k)) % 8 = k := by omega
    simp only [bitAt, e1, e2, List.getD_eq_getElem?_getD, List.getElem?_eq_getElem h1,
      List.getElem?_eq_getElem h2, Option.getD_some, shiftRight_and_one] at hj
    cases h3 : a[n].testBit k <;> cases h4 : b[n].testBit k <;> simp_all
  · have h8 : (2 : Nat) ^ 8 ≤ 2 ^ k := Nat.pow_le_pow_right (by decide) (by omega)
    rw [Nat.testBit_lt_two_pow (lt_of_lt_of_le (ha _ (List.getElem_mem _)) h8),
      Nat.testBit_lt_two_pow (lt_of_lt_of_le (hb _ (List.getElem_mem _)) h8)]

end Bits

section KeySchedule

theorem setBit_bound (data : List Nat) (idx : Int) (v : Nat) (out : List Nat)
    (h : setBit data idx v = .ok out) (hd : ∀ x ∈ data, x < 256) : ∀ x ∈ out, x < 256 := by
  simp only [setBit] at h
  by_cases h1 : Int.tdiv idx 8 < 0
  · simp [h1] at h
  · simp only [h1, if_false] at h
    cases hg : data[(Int.tdiv idx 8).toNat]? with
    | none => simp [hg] at h
    | some b =>
        simp only [hg] at h
        have hb : b < 256 := hd b (List.getElem?_mem hg)
        have hm : (1 <<< (7 - Int.tmod idx 8).toNat) % 256 < 2 ^ 8 := Nat.mod_lt _ (by decide)
        intro x hx
        by_cases hv : v = 1
        · simp only [hv, if_true, Except.ok.injEq] at h
          rw [← h] at hx
          rcases List.mem_or_eq_of_mem_set hx with hx | hx
          · exact hd x hx
          · rw [hx]; exact Nat.or_lt_two_pow hb hm
        · simp only [hv, if_false, Except.ok.injEq] at h
          rw [← h] at hx
          rcases List.mem_or_eq_of_mem_set hx with hx | hx
          · exact hd x hx
          · rw [hx]; exact lt_of_le_of_lt Nat.and_le_left hb

theorem permuteLoop_bound (value : List Nat) :
    ∀ (ps : List Int) (i : Nat) (out res : List Nat),
      permuteLoop value ps i out = .ok res → (∀ x ∈ out, x < 256) → ∀ x ∈ res, x < 256 := by
  intro ps
  induction ps with
  | nil =>
      intro i out res h hd
      simp only [permuteLoop, Except.ok.injEq] at h
      rw [← h]; exact hd
  | cons p ps ih =>
      intro i out res h hd
      simp only [permuteLoop] at h
      cases hg : getBit value (p - 1) with
      | error e => rw [hg] at h; simp [bind_error_eq] at h
      | ok bit =>
          rw [hg, bind_ok_eq] at h
          cases hs : setBit out (i : Int) bit with
          | error e => rw [hs] at h; simp [bind_error_eq] at h
          | ok out1 =>
              rw [hs, bind_ok_eq] at h
              exact ih (i + 1) out1 res h (setBit_bound out _ bit out1 hs hd)

theorem makeBytes_bound (n : Nat) : ∀ x ∈ makeBytes n, x < 256 := by
  intro x hx
  simp only [makeBytes, List.mem_replicate] at hx
  omega

/-- Every byte `permuteBits` returns is below 256. -/
theorem permuteBits_bound (value : List Nat) (table : List Int) (res : List Nat)
    (h : permuteBits value table = .ok res) : ∀ x ∈ res, x < 256 :=
  permuteLoop_bound value table 0 _ res h (makeBytes_bound _)

/-- The loop of `leftShift` for a non-negative shift count. -/
theorem leftShiftLoop_spec (bits : List Nat) (bitLen : Nat) (ts : Nat)
    (hbl : bitLen = 8 * bits.length) (hpos : 0 < bitLen) :
    ∀ (n i : Nat) (res : List Nat), i + n ≤ 8 * res.length →
      ∃ out, leftShiftLoop bits bitLen (ts : Int) n i res = .ok out ∧
        out.length = res.length ∧
        (∀ j, bitAt out j =
          if i ≤ j ∧ j < i + n then bitAt bits ((j + ts) % bitLen) else bitAt res j) ∧
        ((∀ x ∈ res, x < 256) → ∀ x ∈ out, x < 256) := by
  intro n
  induction n with
  | zero =>
      intro i res _
      refine ⟨res, rfl, rfl, ?_, fun h => h⟩
      intro j
      have : ¬ (i ≤ j ∧ j < i + 0) := by omega
      rw [if_neg this]
  | succ n ih =>
      intro i res hlen
      have hcast : Int.tmod ((i : Int) + (ts : Int)) (bitLen : Int)
          = (((i + ts) % bitLen : Nat) : Int) := rfl
      have hlt : (i + ts) % bitLen < bitLen := Nat.mod_lt _ hpos
      have hin : ((i + ts) % bitLen) / 8 < bits.length := by omega
      obtain ⟨out1, hset, hl1, hb1, hr1⟩ :=
        setBit_spec res i (bitAt bits ((i + ts) % bitLen)) (by omega)
      obtain ⟨out, hout, hl, hb, hr⟩ := ih (i + 1) out1 (by rw [hl1]; omega)
      refine ⟨out, ?_, by rw [hl, hl1], ?_, fun h => hr (hr1 h)⟩
      · simp only [leftShiftLoop, hcast, getBit_natCast bits _ hin, bind_ok_eq, hset]
        exact hout
      · intro j
        rw [hb j, hb1 j]
        have hv : (if bitAt bits ((i + ts) % bitLen) = 1 then 1 else 0)
            = bitAt bits ((i + ts) % bitLen) := by
          have := bitAt_le_one bits ((i + ts) % bitLen)
          split_ifs with h1
          · exact h1.symm
          · omega
        by_cases h1 : i + 1 ≤ j ∧ j < i + 1 + n
        · have h2 : i ≤ j ∧ j < i + (n + 1) := by omega
          rw [if_pos h1, if_pos h2]
        · by_cases h2 : j = i
          · have h4 : i ≤ j ∧ j < i + (n + 1) := by omega
            rw [if_neg h1, if_pos h2, if_pos h4, hv, h2]
          · have h4 : ¬ (i ≤ j ∧ j < i + (n + 1)) := by omega
            rw [if_neg h1, if_neg h2, if_neg h4]

/-- `leftShift` by a non-negative count on a non-empty buffer: it succeeds, keeps the
length, and output bit `j` is input bit `(j + shift) mod bitLen`. -/
theorem leftShift_spec (bits : List Nat) (shift : Nat) (hne : 0 < bits.length) :
    ∃ out, leftShift bits (shift : Int) = .ok out ∧ out.length = bits.length ∧
      (∀ j, j < 8 * bits.length →
        bitAt out j = bitAt bits ((j + shift) % (8 * bits.length))) ∧
      (∀ x ∈ out, x < 256) := by
  have hbl : bits.length * 8 = 8 * bits.length := Nat.mul_comm _ _
  have hpos : 0 < 8 * bits.length := by omega
  have hts : Int.tmod (shift : Int) ((bits.length * 8 : Nat) : Int)
      = ((shift % (8 * bits.length) : Nat) : Int) := by rw [hbl]; rfl
  obtain ⟨out, hout, hl, hb, hr⟩ := leftShiftLoop_spec bits (8 * bits.length)
    (shift % (8 * bits.length)) rfl hpos (8 * bits.length) 0 (makeBytes bits.length)
    (by rw [makeBytes_length]; omega)
  refine ⟨out, ?_, by rw [hl, makeBytes_length], ?_, hr (makeBytes_bound _)⟩
  · have hnz : ¬ (bits.length * 8 = 0) := by omega
    simp only [leftShift, hnz, if_false, hts]
    rw [hbl]
    exact hout
  · intro j hj
    have h1 : 0 ≤ j ∧ j < 0 + 8 * bits.length := by omega
    rw [hb j, if_pos h1, Nat.add_mod_mod]

theorem keyShifts_get (i : Nat) (h : i < 16) :
    ∃ s : Nat, index keyShifts i = .ok (s : Int) := by
  interval_cases i <;> first | exact ⟨1, rfl⟩ | exact ⟨2, rfl⟩

theorem pc2_range : ∀ p ∈ pc2, 1 ≤ p ∧ p ≤ 8 * ((7 : Nat) : Int) := by decide
theorem pc1_range : ∀ p ∈ pc1, 1 ≤ p ∧ p ≤ 8 * ((8 : Nat) : Int) := by decide

theorem expandKeyLoop_spec : ∀ (n i : Nat) (c d : List Nat) (acc : List (List Nat)),
    i + n ≤ 16 → c.length = 3 → d.length = 4 →
    ∃ rks, expandKeyLoop n i c d acc = .ok (acc ++ rks) ∧ rks.length = n ∧
      ∀ k ∈ rks, k.length = 6 ∧ ∀ x ∈ k, x < 256 := by
  intro n
  induction n with
  | zero =>
      intro i c d acc _ _ _
      exact ⟨[], by simp [expandKeyLoop], rfl, by simp⟩
  | succ n ih =>
      intro i c d acc hi hc hd
      obtain ⟨s, hs⟩ := keyShifts_get i (by omega)
      obtain ⟨c1, hc1, hcl, _, _⟩ := leftShift_spec c s (by omega)
      obtain ⟨d1, hd1, hdl, _, _⟩ := leftShift_spec d s (by omega)
      have hcd : (c1 ++ d1).length = 7 := by simp [hcl, hdl, hc, hd]
      obtain ⟨rk, hrk, hrkl, _, hrkb⟩ := permuteBits_spec (c1 ++ d1) pc2
        (by rw [hcd]; exact pc2_range)
      obtain ⟨rks, hrks, hl, hall⟩ := ih (i + 1) c1 d1 (acc ++ [rk]) (by omega)
        (by rw [hcl, hc]) (by rw [hdl, hd])
      refine ⟨rk :: rks, ?_, by simp [hl], ?_⟩
      · simp only [expandKeyLoop, hs, bind_ok_eq, hc1, hd1, hrk, hrks]
        simp
      · intro k hk
        rcases List.mem_cons.mp hk with hk | hk
        · rw [hk]; exact ⟨by rw [hrkl]; rfl, hrkb⟩
        · exact hall k hk

/-- `ExpandKey` on an 8-byte key: 16 round keys of 6 bytes. -/
theorem ExpandKey_spec (key : List Nat) (h : key.length = 8) :
    ∃ rks, DESKeyExpander.ExpandKey key = .ok rks ∧ rks.length = 16 ∧
      ∀ k ∈ rks, k.length = 6 ∧ ∀ x ∈ k, x < 256 := by
  obtain ⟨k56, hk56, hl, _, _⟩ := permuteBits_spec key pc1 (by rw [h]; exact pc1_range)
  have hl7 : k56.length = 7 := by rw [hl]; rfl
  obtain ⟨rks, hrks, hlen, hall⟩ := expandKeyLoop_spec 16 0 (k56.take (k56.length / 2))
    (k56.drop (k56.length / 2)) [] (by omega) (by simp [hl7]) (by simp [hl7])
  refine ⟨rks, ?_, hlen, hall⟩
  have hne : ¬ (key.length ≠ 8) := by simp [h]
  simp only [DESKeyExpander.ExpandKey, hne, if_false, hk56, bind_ok_eq, hrks]
  simp

end KeySchedule

section RoundFunction

theorem xorRoundKeyLoop_spec (roundKey : List Nat) :
    ∀ (n i : Nat) (e : List Nat), i + n ≤ e.length → i + n ≤ roundKey.length →
      ∃ out, xorRoundKeyLoop roundKey n i e = .ok out ∧ out.length = e.length := by
  intro n
  induction n with
  | zero => intro i e _ _; exact ⟨e, rfl, rfl⟩
  | succ n ih =>
      intro i e he hk
      have h1 : i < e.length := by omega
      have h2 : i < roundKey.length := by omega
      obtain ⟨out, hout, hl⟩ := ih (i + 1) (e.set i (e.get ⟨i, h1⟩ ^^^ roundKey.get ⟨i, h2⟩))
        (by simp; omega) (by omega)
      refine ⟨out, ?_, by rw [hl]; simp⟩
      simp only [xorRoundKeyLoop, index_eq_ok _ _ h1, index_eq_ok _ _ h2, bind_ok_eq]
      exact hout

theorem setBitsLoop_spec (offset length value : Nat) :
    ∀ (n i : Nat) (data : List Nat), offset + i + n ≤ 8 * data.length →
      ∃ out, setBitsLoop (offset : Int) length value n i data = .ok out ∧
        out.length = data.length := by
  intro n
  induction n with
  | zero => intro i data _; exact ⟨data, rfl, rfl⟩
  | succ n ih =>
      intro i data h
      have hcast : (offset : Int) + (i : Int) = ((offset + i : Nat) : Int) := by push_cast; rfl
      obtain ⟨out1, hset, hl1, _, _⟩ :=
        setBit_spec data (offset + i) ((value >>> (length - i - 1)) &&& 1) (by omega)
      obtain ⟨out, hout, hl⟩ := ih (i + 1) out1 (by rw [hl1]; omega)
      refine ⟨out, ?_, by rw [hl, hl1]⟩
      simp only [setBitsLoop, hcast, hset, bind_ok_eq]
      exact hout

theorem sBoxes_shape :
    sBoxes.length = 8 ∧ ∀ box ∈ sBoxes, box.length = 4 ∧ ∀ line ∈ box, line.length = 16 := by
  decide

theorem sBox_row_lt (b1 b6 : Nat) (h1 : b1 ≤ 1) (h6 : b6 ≤ 1) :
    ((b1 <<< 1) % 256) ||| b6 < 4 := by
  interval_cases b1 <;> interval_cases b6 <;> decide

theorem sBox_column_lt (b2 b3 b4 b5 : Nat) (h2 : b2 ≤ 1) (h3 : b3 ≤ 1) (h4 : b4 ≤ 1)
    (h5 : b5 ≤ 1) :
    ((b2 <<< 3) % 256) ||| ((b3 <<< 2) % 256) ||| ((b4 <<< 1) % 256) ||| b5 < 16 := by
  interval_cases b2 <;> interval_cases b3 <;> interval_cases b4 <;> interval_cases b5 <;> decide

theorem sBoxLoop_spec (e : List Nat) (he : e.length = 6) :
    ∀ (n i : Nat) (out : List Nat), i + n ≤ 8 → out.length = 4 →
      ∃ res, sBoxLoop e n i out = .ok res ∧ res.length = 4 := by
  intro n
  induction n with
  | zero => intro i out _ h; exact ⟨out, rfl, h⟩
  | succ n ih =>
      intro i out hi hout
      have c0 : (i : Int) * 6 = ((i * 6 : Nat) : Int) := by push_cast; rfl
      have c1 : ((i * 6 : Nat) : Int) + 1 = ((i * 6 + 1 : Nat) : Int) := by push_cast; rfl
      have c2 : ((i * 6 : Nat) : Int) + 2 = ((i * 6 + 2 : Nat) : Int) := by push_cast; rfl
      have c3 : ((i * 6 : Nat) : Int) + 3 = ((i * 6 + 3 : Nat) : Int) := by push_cast; rfl
      have c4 : ((i * 6 : Nat) : Int) + 4 = ((i * 6 + 4 : Nat) : Int) := by push_cast; rfl
      have c5 : ((i * 6 : Nat) : Int) + 5 = ((i * 6 + 5 : Nat) : Int) := by push_cast; rfl
      have c6 : (i : Int) * 4 = ((i * 4 : Nat) : Int) := by push_cast; rfl
      have hrow := sBox_row_lt _ _ (bitAt_le_one e (i * 6)) (bitAt_le_one e (i * 6 + 5))
      have hcol := sBox_column_lt _ _ _ _ (bitAt_le_one e (i * 6 + 1))
        (bitAt_le_one e (i * 6 + 2)) (bitAt_le_one e (i * 6 + 3)) (bitAt_le_one e (i * 6 + 4))
      obtain ⟨hs8, hshape⟩ := sBoxes_shape
      have hi8 : i < sBoxes.length := by omega
      have hbox := hshape _ (List.get_mem sBoxes i hi8)
      have hr4 : ((bitAt e (i * 6) <<< 1) % 256 ||| bitAt e (i * 6 + 5))
          < (sBoxes.get ⟨i, hi8⟩).length := by rw [hbox.1]; exact hrow
      have hline := hbox.2 _ (List.get_mem _ _ hr4)
      have hc16 : ((bitAt e (i * 6 + 1) <<< 3) % 256 ||| (bitAt e (i * 6 + 2) <<< 2) % 256 |||
          (bitAt e (i * 6 + 3) <<< 1) % 256 ||| bitAt e (i * 6 + 4))
          < ((sBoxes.get ⟨i, hi8⟩).get ⟨_, hr4⟩).length := by rw [hline]; exact hcol
      obtain ⟨out1, hset, hl1⟩ := setBitsLoop_spec (i * 4) 4
        ((((sBoxes.get ⟨i, hi8⟩).get ⟨_, hr4⟩).get ⟨_, hc16⟩) % 256) 4 0 out (by omega)
      obtain ⟨res, hres, hl⟩ := ih (i + 1) out1 (by omega) (by rw [hl1, hout])
      refine ⟨res, ?_, hl⟩
      simp only [sBoxLoop, c0, c1, c2, c3, c4, c5, c6,
        getBit_natCast e (i * 6) (by omega), getBit_natCast e (i * 6 + 1) (by omega),
        getBit_natCast e (i * 6 + 2) (by omega), getBit_natCast e (i * 6 + 3) (by omega),
        getBit_natCast e (i * 6 + 4) (by omega), getBit_natCast e (i * 6 + 5) (by omega),
        bind_ok_eq, index_eq_ok _ _ hi8, index_eq_ok _ _ hr4, index_eq_ok _ _ hc16, setBits]
      rw [hset]
      exact hres

theorem expansionPermutation_range :
    ∀ p ∈ expansionPermutation, 1 ≤ p ∧ p ≤ 8 * ((4 : Nat) : Int) := by decide

theorem permutationP_range : ∀ p ∈ permutationP, 1 ≤ p ∧ p ≤ 8 * ((4 : Nat) : Int) := by decide

/-- The DES round function on a 4-byte half block and a round key of at least 6 bytes:
it succeeds and returns 4 bytes. -/
theorem desRound_spec (x k : List Nat) (hx : x.length = 4) (hk : 6 ≤ k.length) :
    ∃ y, DESCipherTransformation.EncryptBlock x k = .ok y ∧ y.length = 4 := by
  obtain ⟨e, he, hel, _, _⟩ := permuteBits_spec x expansionPermutation
    (by rw [hx]; exact expansionPermutation_range)
  have hel6 : e.length = 6 := by rw [hel]; rfl
  obtain ⟨e1, he1, he1l⟩ := xorRoundKeyLoop_spec k e.length 0 e (by omega) (by omega)
  obtain ⟨s, hs, hsl⟩ := sBoxLoop_spec e1 (by rw [he1l, hel6]) 8 0 (makeBytes 4) (by omega)
    (makeBytes_length 4)
  obtain ⟨y, hy, hyl, _, _⟩ := permuteBits_spec s permutationP
    (by rw [hsl]; exact permutationP_range)
  refine ⟨y, ?_, by rw [hyl]; rfl⟩
  simp only [DESCipherTransformation.EncryptBlock, he, bind_ok_eq, he1, hs, hy, pure_eq_ok]

/-- Every byte the DES round function returns is below 256. -/
theorem desRound_bound (x k y : List Nat)
    (h : DESCipherTransformation.EncryptBlock x k = .ok y) : ∀ b ∈ y, b < 256 := by
  simp only [DESCipherTransformation.EncryptBlock] at h
  cases h1 : permuteBits x expansionPermutation with
  | error e => rw [h1] at h; simp [bind_error_eq] at h
  | ok e =>
      rw [h1, bind_ok_eq] at h
      cases h2 : xorRoundKeyLoop k e.length 0 e with
      | error e => rw [h2] at h; simp [bind_error_eq] at h
      | ok e1 =>
          rw [h2, bind_ok_eq] at h
          cases h3 : sBoxLoop e1 8 0 (makeBytes 4) with
          | error e => rw [h3] at h; simp [bind_error_eq] at h
          | ok s =>
              rw [h3, bind_ok_eq] at h
              cases h4 : permuteBits s permutationP with
              | error e => rw [h4] at h; simp [bind_error_eq] at h
              | ok p =>
                  rw [h4, bind_ok_eq, pure_eq_ok] at h
                  simp only [Except.ok.injEq] at h
                  rw [← h]
                  exact permuteBits_bound _ _ _ h4

end RoundFunction

section DESBlock

open FeistelCipher

/-- Two tables of `8 n` valid positions that compose to the identity: permuting an
`n`-byte buffer with the first and then with the second gives the buffer back. -/
theorem permuteBits_inverse (t1 t2 : List Int) (n : Nat)
    (h1 : ∀ p ∈ t1, 1 ≤ p ∧ p ≤ 8 * (n : Int)) (h2 : ∀ p ∈ t2, 1 ≤ p ∧ p ≤ 8 * (n : Int))
    (hl1 : t1.length = 8 * n) (hl2 : t2.length = 8 * n)
    (hcomp : ∀ j, j < 8 * n → (t1.getD ((t2.getD j 0).toNat - 1) 0).toNat - 1 = j)
    (b : List Nat) (hb : b.length = n) (hbytes : ∀ x ∈ b, x < 256) :
    ∃ y, permuteBits b t1 = .ok y ∧ y.length = n ∧ (∀ x ∈ y, x < 256) ∧
      permuteBits y t2 = .ok b := by
  obtain ⟨y, hy, hyl, hyb, hybd⟩ := permuteBits_spec b t1 (by rw [hb]; exact h1)
  have hyn : y.length = n := by rw [hyl, hl1]; omega
  obtain ⟨z, hz, hzl, hzb, hzbd⟩ := permuteBits_spec y t2 (by rw [hyn]; exact h2)
  have hzn : z.length = n := by rw [hzl, hl2]; omega
  refine ⟨y, hy, hyn, hybd, ?_⟩
  rw [hz]
  congr 1
  apply bytes_ext z b (by rw [hzn, hb]) hzbd hbytes
  intro j hj
  rw [hzn] at hj
  have hj2 : j < t2.length := by rw [hl2]; exact hj
  have hmem : t2.getD j 0 ∈ t2 := by
    rw [List.getD_eq_getElem _ _ hj2]; exact List.getElem_mem _
  have hr := h2 _ hmem
  have hj1 : (t2.getD j 0).toNat - 1 < t1.length := by rw [hl1]; omega
  rw [hzb j, if_pos hj2, hyb _, if_pos hj1, hcomp j hj]

theorem initialPermutation_range :
    ∀ p ∈ initialPermutation, 1 ≤ p ∧ p ≤ 8 * ((8 : Nat) : Int) := by decide

theorem finalPermutation_range :
    ∀ p ∈ finalPermutation, 1 ≤ p ∧ p ≤ 8 * ((8 : Nat) : Int) := by decide

theorem final_after_initial : ∀ j, j < 8 * 8 →
    (initialPermutation.getD ((finalPermutation.getD j 0).toNat - 1) 0).toNat - 1 = j := by
  decide

theorem initial_after_final : ∀ j, j < 8 * 8 →
    (finalPermutation.getD ((initialPermutation.getD j 0).toNat - 1) 0).toNat - 1 = j := by
  decide

theorem xorBytes_bound : ∀ (a b : List Nat), (∀ x ∈ a, x < 256) → (∀ x ∈ b, x < 256) →
    ∀ x ∈ xorBytes a b, x < 256
  | [], _, _, _ => by simp [xorBytes]
  | _ :: _, [], _, _ => by simp [xorBytes]
  | x :: a, y :: b, ha, hb => by
      intro z hz
      simp only [xorBytes, List.zipWith_cons_cons, List.mem_cons] at hz
      rcases hz with hz | hz
      · rw [hz]
        exact Nat.xor_lt_two_pow (n := 8) (ha x (List.mem_cons_self _ _))
          (hb y (List.mem_cons_self _ _))
      · exact xorBytes_bound a b (fun w hw => ha w (List.mem_cons_of_mem _ hw))
          (fun w hw => hb w (List.mem_cons_of_mem _ hw)) z hz

theorem copyBytes_bound (dst src : List Nat) (hd : ∀ x ∈ dst, x < 256)
    (hs : ∀ x ∈ src, x < 256) : ∀ x ∈ copyBytes dst src, x < 256 := by
  intro x hx
  simp only [copyBytes, List.mem_append] at hx
  rcases hx with hx | hx
  · exact hs x (List.mem_of_mem_take hx)
  · exact hd x (List.mem_of_mem_drop hx)

/-- The encryption rounds keep every byte below 256 when the round function does. -/
theorem encryptRounds_bound (fc : FeistelCipher)
    (hF : ∀ x k y, fc.cipherFunc.EncryptBlock x k = .ok y → ∀ b ∈ y, b < 256) :
    ∀ (n i : Nat) (left right l r : List Nat),
      (∀ b ∈ left, b < 256) → (∀ b ∈ right, b < 256) →
      encryptRounds fc n i left right = .ok (l, r) →
      (∀ b ∈ l, b < 256) ∧ (∀ b ∈ r, b < 256) := by
  intro n
  induction n with
  | zero =>
      intro i left right l r hl hr h
      simp only [encryptRounds, Except.ok.injEq, Prod.mk.injEq] at h
      rw [← h.1, ← h.2]; exact ⟨hl, hr⟩
  | succ n ih =>
      intro i left right l r hl hr h
      simp only [encryptRounds] at h
      cases hk : index fc.roundKeys i with
      | error e => rw [hk] at h; simp [bind_error_eq] at h
      | ok k =>
          rw [hk, bind_ok_eq] at h
          cases hy : fc.cipherFunc.EncryptBlock right k with
          | error e => rw [hy] at h; simp [bind_error_eq] at h
          | ok y =>
              rw [hy, bind_ok_eq] at h
              exact ih (i + 1) right (xorBytes left y) l r hr
                (xorBytes_bound _ _ hl (hF _ _ _ hy)) h

theorem EncryptBlock_bound (fc : FeistelCipher)
    (hF : ∀ x k y, fc.cipherFunc.EncryptBlock x k = .ok y → ∀ b ∈ y, b < 256)
    (b c : List Nat) (hb : ∀ x ∈ b, x < 256) (h : fc.EncryptBlock b = .ok c) :
    ∀ x ∈ c, x < 256 := by
  simp only [FeistelCipher.EncryptBlock] at h
  split_ifs at h with h1
  cases hr : encryptRounds fc fc.numRounds.toNat 0
      (copyBytes (makeBytes (Int.tdiv fc.blockSize 2).toNat)
        (b.take (Int.tdiv fc.blockSize 2).toNat))
      (copyBytes (makeBytes (Int.tdiv fc.blockSize 2).toNat)
        (b.drop (Int.tdiv fc.blockSize 2).toNat)) with
  | error e => rw [hr] at h; simp [bind_error_eq] at h
  | ok lr =>
      obtain ⟨l, r⟩ := lr
      rw [hr, bind_ok_eq] at h
      simp only [pure_eq_ok, Except.ok.injEq] at h
      have hbd := encryptRounds_bound fc hF _ _ _ _ l r
        (copyBytes_bound _ _ (makeBytes_bound _) (fun x hx => hb x (List.mem_of_mem_take hx)))
        (copyBytes_bound _ _ (makeBytes_bound _) (fun x hx => hb x (List.mem_of_mem_drop hx)))
        hr
      intro x hx
      rw [← h, List.mem_append] at hx
      rcases hx with hx | hx
      · exact hbd.1 x hx
      · exact hbd.2 x hx

/-- With round keys of at least 6 bytes the DES round function succeeds with 4 bytes in
every round started on 4-byte halves. -/
theorem roundsSucceed_des : ∀ (keys : List (List Nat)) (left right : List Nat),
    (∀ k ∈ keys, 6 ≤ k.length) → left.length = 4 → right.length = 4 →
    roundsSucceed desCipherTransformation 4 keys left right = true
  | [], _, _, _, _, _ => rfl
  | k :: ks, left, right, hk, hl, hr => by
      obtain ⟨y, hy, hyl⟩ := desRound_spec right k hr (hk k (List.mem_cons_self _ _))
      have hy2 : desCipherTransformation.EncryptBlock right k = .ok y := hy
      simp only [roundsSucceed, hy2, hyl, beq_self_eq_true, Bool.true_and]
      exact roundsSucceed_des ks right (xorBytes left y)
        (fun q hq => hk q (List.mem_cons_of_mem _ hq)) hr
        (by rw [xorBytes_length, hl, hyl]; rfl)

/-- The DES block cipher after `SetKey` on an 8-byte key: encryption of an 8-byte block
succeeds with 8 bytes and decryption takes the result back to the block. -/
theorem des_roundtrip (key b : List Nat) (hk : key.length = 8) (hb : b.length = 8)
    (hbytes : ∀ x ∈ b, x < 256) :
    ∃ d0 d c, NewDES = .ok d0 ∧ d0.SetKey key = .ok d ∧ d.EncryptBlock b = .ok c ∧
      c.length = 8 ∧ d.DecryptBlock c = .ok b := by
  obtain ⟨rks, hrks, hlen, hall⟩ := ExpandKey_spec key hk
  let fc0 : FeistelCipher :=
    { keyExpander := desKeyExpander, cipherFunc := desCipherTransformation, roundKeys := [],
      numRounds := 16, blockSize := 8 }
  let fc : FeistelCipher := { fc0 with roundKeys := rks }
  have hset : (DES.mk fc0).SetKey key = .ok (DES.mk fc) := by
    have hne : ¬ ((rks.length : Int) ≠ 16) := by rw [hlen]; simp
    have hke : desKeyExpander.ExpandKey key = .ok rks := hrks
    simp only [DES.SetKey, FeistelCipher.SetKey, hke, bind_ok_eq, if_neg hne]
    rfl
  obtain ⟨b1, hb1, hb1l, hb1b, hb1inv⟩ := permuteBits_inverse initialPermutation
    finalPermutation 8 initialPermutation_range finalPermutation_range rfl rfl
    final_after_initial b hb hbytes
  have hF : roundsSucceed fc.cipherFunc (b1.length / 2) fc.roundKeys
      (b1.take (b1.length / 2)) (b1.drop (b1.length / 2)) = true := by
    rw [hb1l]
    exact roundsSucceed_des rks _ _ (fun k hk => by rw [(hall k hk).1])
      (by simp [hb1l]) (by simp [hb1l])
  obtain ⟨z, hz, hzl, hzdec⟩ := feistel_roundtrip_core fc b1
    (by show (rks.length : Int) = 16; rw [hlen]; rfl)
    (by show (b1.length : Int) = 8; rw [hb1l]; rfl) rfl hF
  have hzb : ∀ x ∈ z, x < 256 :=
    EncryptBlock_bound fc (fun x k y h => desRound_bound x k y h) b1 z hb1b hz
  obtain ⟨c, hc, hcl, _, hcinv⟩ := permuteBits_inverse finalPermutation
    initialPermutation 8 finalPermutation_range initialPermutation_range rfl rfl
    initial_after_final z (by rw [hzl, hb1l]) hzb
  refine ⟨DES.mk fc0, DES.mk fc, c, rfl, hset, ?_, hcl, ?_⟩
  · have hne : ¬ (b.length ≠ 8) := by simp [hb]
    simp only [DES.EncryptBlock, hne, if_false, hb1, bind_ok_eq, hz, hc, pure_eq_ok]
  · have hne : ¬ (c.length ≠ 8) := by simp [hcl]
    simp only [DES.DecryptBlock, hne, if_false, hcinv, bind_ok_eq, hzdec, hb1inv, pure_eq_ok]

end DESBlock

section KnownAnswer

set_option maxRecDepth 100000 in
theorem expandKey_mainKey : DESKeyExpander.ExpandKey mainKey = .ok mainRoundKeys := by
  decide!

theorem desFeistel_SetKey_mainKey : desFeistel.SetKey mainKey = .ok mainFeistel := by
  have hke : desFeistel.keyExpander.ExpandKey mainKey = .ok mainRoundKeys := expandKey_mainKey
  simp only [FeistelCipher.SetKey, hke, bind_ok_eq]
  rfl

theorem NewDES_eq : NewDES = .ok { feistelCipher := desFeistel } := rfl

theorem DES_SetKey_mainKey :
    (DES.mk desFeistel).SetKey mainKey = .ok { feistelCipher := mainFeistel } := by
  simp only [DES.SetKey, desFeistel_SetKey_mainKey, bind_ok_eq]
  rfl

theorem roundsSucceed_main :
    roundsSucceed desCipherTransformation (mainPlaintext.length / 2) mainFeistel.roundKeys
      (mainPlaintext.take (mainPlaintext.length / 2))
      (mainPlaintext.drop (mainPlaintext.length / 2)) = true :=
  roundsSucceed_des mainRoundKeys _ _ (by decide) rfl rfl

set_option maxRecDepth 100000 in
theorem main_ciphertext :
    (DES.mk mainFeistel).EncryptBlock mainPlaintext
      = .ok [0x67, 0xAE, 0xAA, 0x46, 0x2C, 0x3C, 0xE3, 0x4B] := by
  decide!

end KnownAnswer

/-- Witness for C1: the Feistel network of `NewDES`, keyed with the key of `main`, on the
plaintext of `main`. -/
theorem C1_feistel_decrypt_inverts_encrypt_witness :
    NewFeistelCipher (some desKeyExpander) (some desCipherTransformation) 16 8
        = .ok desFeistel ∧
      desFeistel.SetKey mainKey = .ok mainFeistel ∧
      ((mainPlaintext.length : Nat) : Int) = 8 ∧
      ∃ c, mainFeistel.EncryptBlock mainPlaintext = .ok c ∧ (c.length : Int) = 8 ∧
        mainFeistel.DecryptBlock c = .ok mainPlaintext :=
  ⟨rfl, desFeistel_SetKey_mainKey, rfl,
    C1_feistel_decrypt_inverts_encrypt desKeyExpander desCipherTransformation 16 8
      desFeistel mainFeistel mainKey mainPlaintext rfl desFeistel_SetKey_mainKey rfl
      roundsSucceed_main⟩

/-- Claim C2. For every 8-byte key `k` and every 8-byte block `b`: `NewDES` and
`SetKey k` succeed, `EncryptBlock b` succeeds with an 8-byte ciphertext `c`, and
`DecryptBlock c` returns `b`. -/
theorem C2_des_decrypt_inverts_encrypt (k b : List Nat) (hk : k.length = 8)
    (hb : b.length = 8) (hbytes : ∀ x ∈ b, x < 256) :
    ∃ d0 d c, NewDES = .ok d0 ∧ d0.SetKey k = .ok d ∧ d.EncryptBlock b = .ok c ∧
      c.length = 8 ∧ d.DecryptBlock c = .ok b :=
  des_roundtrip k b hk hb hbytes

/-- Witness for C2: the key and the plaintext of `main`. -/
theorem C2_des_decrypt_inverts_encrypt_witness :
    (mainKey.length = 8 ∧ mainPlaintext.length = 8 ∧ ∀ x ∈ mainPlaintext, x < 256) ∧
      ∃ d0 d c, NewDES = .ok d0 ∧ d0.SetKey mainKey = .ok d ∧
        d.EncryptBlock mainPlaintext = .ok c ∧ c.length = 8 ∧
        d.DecryptBlock c = .ok mainPlaintext :=
  ⟨⟨rfl, rfl, by decide⟩,
    C2_des_decrypt_inverts_encrypt mainKey mainPlaintext rfl rfl (by decide)⟩

/-- Claim C3 (the code at the known-answer input). After `SetKey` on key
`13 34 57 79 9B BC DF F1`, `EncryptBlock` of `01 23 45 67 89 AB CD EF` returns
`67 AE AA 46 2C 3C E3 4B`, which is not the published DES ciphertext
`85 E8 13 54 0F 0A B4 05`. -/
theorem C3_known_answer_not_reproduced :
    ∃ d0 d, NewDES = .ok d0 ∧ d0.SetKey mainKey = .ok d ∧
      d.EncryptBlock mainPlaintext = .ok [0x67, 0xAE, 0xAA, 0x46, 0x2C, 0x3C, 0xE3, 0x4B] ∧
      d.EncryptBlock mainPlaintext ≠ .ok [0x85, 0xE8, 0x13, 0x54, 0x0F, 0x0A, 0xB4, 0x05] :=
  ⟨_, _, NewDES_eq, DES_SetKey_mainKey, main_ciphertext, by rw [main_ciphertext]; decide⟩

section Padding

open CryptoContext

theorem xorBlocks_eq_xorBytes (a b : List Nat) : xorBlocks a b = xorBytes a b := rfl

theorem index_last_append_replicate (d : List Nat) (n v : Nat) (hn : 0 < n) :
    index (d ++ List.replicate n v) ((d ++ List.replicate n v).length - 1) = .ok v := by
  apply index_of_getElem?
  rw [List.getElem?_append_right (by simp; omega)]
  simp only [List.length_append, List.length_replicate, List.getElem?_replicate]
  have : d.length + n - 1 - d.length < n := by omega
  simp [this]

/-- The checking loop of `removePKCS7Padding` on indices in range: it succeeds when all
the inspected bytes equal `byte(paddingLength)` and reports bad padding data otherwise. -/
theorem pkcs7CheckLoop_spec (data : List Nat) (pl : Nat) :
    ∀ (n i : Nat), 1 ≤ i → i + n ≤ data.length + 1 →
      (pkcs7CheckLoop data pl n i = .ok () ∧
        ∀ j, i ≤ j → j < i + n → data.getD (data.length - j) 0 = pl % 256) ∨
      (pkcs7CheckLoop data pl n i = .error Err.badPaddingData ∧
        ∃ j, i ≤ j ∧ j < i + n ∧ data.getD (data.length - j) 0 ≠ pl % 256) := by
  intro n
  induction n with
  | zero =>
      intro i _ _
      left
      exact ⟨rfl, fun j h1 h2 => by omega⟩
  | succ n ih =>
      intro i hi hlen
      have h1 : ¬ (data.length < i) := by omega
      have h2 : data.length - i < data.length := by omega
      have hget : data.getD (data.length - i) 0 = data.get ⟨data.length - i, h2⟩ := by
        simp [List.getD_eq_getElem?_getD, List.getElem?_eq_getElem h2]
      simp only [pkcs7CheckLoop, h1, if_false, index_eq_ok _ _ h2, bind_ok_eq]
      by_cases hb : data.get ⟨data.length - i, h2⟩ = pl % 256
      · simp only [hb, ne_eq, not_true_eq_false, if_false]
        rcases ih (i + 1) (by omega) (by omega) with ⟨hok, hall⟩ | ⟨herr, j, hj1, hj2, hj3⟩
        · left
          refine ⟨hok, fun j hj1 hj2 => ?_⟩
          by_cases hji : j = i
          · rw [hji, hget, hb]
          · exact hall j (by omega) (by omega)
        · right
          exact ⟨herr, j, by omega, by omega, hj3⟩
      · right
        simp only [ne_eq, hb, not_false_eq_true, if_true]
        exact ⟨trivial, i, le_refl _, by omega, by rw [hget]; exact hb⟩

/-- The four outcomes of `removePKCS7Padding`, with `N` the last byte of the buffer. -/
theorem removePKCS7Padding_cases (data : List Nat)
    (hlast : data.getD (data.length - 1) 0 < 256) :
    (data = [] → removePKCS7Padding data = .error Err.emptyData) ∧
    (data ≠ [] → (data.getD (data.length - 1) 0 = 0 ∨
        data.length < data.getD (data.length - 1) 0) →
      removePKCS7Padding data = .error Err.badPaddingLength) ∧
    (data ≠ [] → data.getD (data.length - 1) 0 ≠ 0 →
        data.getD (data.length - 1) 0 ≤ data.length →
        (∃ j, 1 ≤ j ∧ j ≤ data.getD (data.length - 1) 0 ∧
          data.getD (data.length - j) 0 ≠ data.getD (data.length - 1) 0) →
      removePKCS7Padding data = .error Err.badPaddingData) ∧
    (data ≠ [] → data.getD (data.length - 1) 0 ≠ 0 →
        data.getD (data.length - 1) 0 ≤ data.length →
        (∀ j, 1 ≤ j → j ≤ data.getD (data.length - 1) 0 →
          data.getD (data.length - j) 0 = data.getD (data.length - 1) 0) →
      removePKCS7Padding data
        = .ok (data.take (data.length - data.getD (data.length - 1) 0))) := by
  by_cases he : data = []
  · subst he
    refine ⟨fun _ => rfl, fun h => absurd rfl h, fun h => absurd rfl h, fun h => absurd rfl h⟩
  · have hpos : 0 < data.length := List.length_pos.mpr he
    have hne : ¬ (data.length = 0) := by omega
    have h2 : data.length - 1 < data.length := by omega
    have hget : data.getD (data.length - 1) 0 = data.get ⟨data.length - 1, h2⟩ := by
      simp [List.getD_eq_getElem?_getD, List.getElem?_eq_getElem h2]
    have hN : data.get ⟨data.length - 1, h2⟩ < 256 := by rw [← hget]; exact hlast
    have hmod : data.get ⟨data.length - 1, h2⟩ % 256 = data.get ⟨data.length - 1, h2⟩ :=
      Nat.mod_eq_of_lt hN
    rw [hget]
    refine ⟨fun h => absurd h he, fun _ hbad => ?_, fun _ h0 hle hex => ?_,
      fun _ h0 hle hall => ?_⟩
    · have hc : data.get ⟨data.length - 1, h2⟩ > data.length ∨
          data.get ⟨data.length - 1, h2⟩ = 0 := by
        rcases hbad with h | h
        · exact Or.inr h
        · exact Or.inl h
      simp only [removePKCS7Padding, hne, if_false, index_eq_ok _ _ h2, bind_ok_eq, hc, if_true]
    · have hc : ¬ (data.get ⟨data.length - 1, h2⟩ > data.length ∨
          data.get ⟨data.length - 1, h2⟩ = 0) := by
        intro h; rcases h with h | h
        · omega
        · exact h0 h
      simp only [removePKCS7Padding, hne, if_false, index_eq_ok _ _ h2, bind_ok_eq, hc]
      rcases pkcs7CheckLoop_spec data (data.get ⟨data.length - 1, h2⟩)
        (data.get ⟨data.length - 1, h2⟩) 1 (le_refl _) (by omega) with ⟨_, hall⟩ | ⟨herr, _⟩
      · obtain ⟨j, hj1, hj2, hj3⟩ := hex
        exact absurd (by rw [hall j hj1 (by omega), hmod]) hj3
      · rw [herr]; rfl
    · have hc : ¬ (data.get ⟨data.length - 1, h2⟩ > data.length ∨
          data.get ⟨data.length - 1, h2⟩ = 0) := by
        intro h; rcases h with h | h
        · omega
        · exact h0 h
      simp only [removePKCS7Padding, hne, if_false, index_eq_ok _ _ h2, bind_ok_eq, hc]
      rcases pkcs7CheckLoop_spec data (data.get ⟨data.length - 1, h2⟩)
        (data.get ⟨data.length - 1, h2⟩) 1 (le_refl _) (by omega) with
        ⟨hok, _⟩ | ⟨_, j, hj1, hj2, hj3⟩
      · rw [hok]; rfl
      · exact absurd (by rw [hall j hj1 (by omega), hmod]) hj3

theorem getD_append_replicate (d : List Nat) (n v j : Nat) (h1 : 1 ≤ j) (h2 : j ≤ n) :
    (d ++ List.replicate n v).getD ((d ++ List.replicate n v).length - j) 0 = v := by
  rw [List.getD_eq_getElem?_getD, List.getElem?_append_right (by simp; omega)]
  simp only [List.length_append, List.length_replicate, List.getElem?_replicate]
  have : d.length + n - j - d.length < n := by omega
  simp [this]

/-- Removing PKCS7 padding of `n` bytes, `1 ≤ n ≤ 255`, gives the data back. -/
theorem removePKCS7Padding_apply (d : List Nat) (n : Nat) (h1 : 1 ≤ n) (h2 : n ≤ 255) :
    removePKCS7Padding (applyPKCS7Padding d n) = .ok d := by
  have hmod : n % 256 = n := Nat.mod_eq_of_lt (by omega)
  simp only [applyPKCS7Padding, hmod]
  have hlen : (d ++ List.replicate n n).length = d.length + n := by simp
  have hne : ¬ ((d ++ List.replicate n n).length = 0) := by omega
  have hc : ¬ (n > (d ++ List.replicate n n).length ∨ n = 0) := by
    rw [hlen]; omega
  simp only [removePKCS7Padding, hne, if_false, index_last_append_replicate d n n h1,
    bind_ok_eq, hc]
  rcases pkcs7CheckLoop_spec (d ++ List.replicate n n) n n 1 (le_refl _)
    (by rw [hlen]; omega) with ⟨hok, _⟩ | ⟨_, j, hj1, hj2, hj3⟩
  · rw [hok, bind_ok_eq, hlen]
    simp
  · rw [getD_append_replicate d n n j hj1 (by omega), hmod] at hj3
    exact absurd rfl hj3

end Padding

section PaddingClaims

open CryptoContext

theorem lastByte_eq (data : List Nat) : lastByte data = data.getD (data.length - 1) 0 := rfl

theorem applyPadding_eq (rnd : RandSource) (ctx : CryptoContext) (data k : List Nat)
    (ks : List (List Nat)) (hk : ctx.roundKeys = k :: ks) (hpos : 0 < k.length) :
    ctx.applyPadding rnd data =
      match ctx.padding with
      | .Zeros => .ok (applyZerosPadding data (k.length - data.length % k.length))
      | .ANSIX923 =>
          applyANSIX923Padding data (k.length - data.length % k.length) k.length
      | .PKCS7 => .ok (applyPKCS7Padding data (k.length - data.length % k.length))
      | .ISO10126 => applyISO10126Padding rnd data (k.length - data.length % k.length)
      | .invalid => .error Err.unsupportedPadding := by
  have hb : ctx.blockSize = .ok k.length := by
    simp [CryptoContext.blockSize, hk, index, bind_ok_eq, pure_eq_ok]
  have hlt : data.length % k.length < k.length := Nat.mod_lt _ hpos
  have h0 : ¬ (k.length = 0) := by omega
  have h1 : ¬ (k.length - data.length % k.length = 0) := by omega
  simp only [CryptoContext.applyPadding, hb, bind_ok_eq, h0, if_false, h1]

theorem applyANSIX923Padding_eq (data : List Nat) (n bs : Nat) (hn : 0 < n) :
    applyANSIX923Padding data n bs = .ok (data ++ (List.replicate (n - 1) 0 ++ [n % 256])) := by
  have h0 : ¬ (n = 0) := by omega
  simp only [applyANSIX923Padding, h0, if_false, makeBytes]
  congr 2
  obtain ⟨m, rfl⟩ : ∃ m, n = m + 1 := ⟨n - 1, by omega⟩
  simp only [Nat.add_sub_cancel]
  rw [List.replicate_succ', List.set_append_right _ _ (by simp)]
  simp

theorem applyISO10126Padding_eq (rnd : RandSource) (f : Nat → Nat) (hf : rnd 0 = .ok f)
    (data : List Nat) (bs : Nat) (hbs : 0 < bs) :
    applyISO10126Padding rnd data bs = .ok (data ++
      ((List.range (bs - data.length % bs - 1)).map (fun j => f j % 256)
        ++ [(bs - data.length % bs) % 256])) := by
  have h0 : ¬ (bs = 0) := by omega
  have hlt : data.length % bs < bs := Nat.mod_lt _ hbs
  have h1 : ¬ (bs - data.length % bs = 0) := by omega
  simp only [applyISO10126Padding, h0, if_false, h1, randRead, hf, bind_ok_eq, pure_eq_ok,
    makeBytes, copyBytes]
  congr 2
  obtain ⟨m, hm⟩ : ∃ m, bs - data.length % bs = m + 1 := ⟨bs - data.length % bs - 1, by omega⟩
  rw [hm]
  simp only [Nat.add_sub_cancel, List.length_replicate, List.length_map, List.length_range]
  rw [List.take_of_length_le (by simp), List.drop_replicate]
  have : m + 1 - m = 1 := by omega
  rw [this, List.set_append_right _ _ (by simp)]
  simp

/-- Claim C5. For each of the four padding modes and every plaintext whose length is a
multiple of the engine's block size `len(roundKeys[0]) ≥ 1` (the empty plaintext
included), `applyPadding` returns a buffer that starts with the plaintext and is exactly
one block longer (for ISO10126: whatever random bytes the source yields). -/
theorem C5_padding_adds_full_block (rnd : RandSource) (f : Nat → Nat)
    (ctx : CryptoContext) (data k : List Nat) (ks : List (List Nat))
    (hk : ctx.roundKeys = k :: ks) (hpos : 0 < k.length)
    (hmul : data.length % k.length = 0)
    (hpad : ctx.padding ∈ [PaddingMode.Zeros, PaddingMode.ANSIX923, PaddingMode.PKCS7,
      PaddingMode.ISO10126])
    (hrnd : rnd 0 = .ok f) :
    ∃ out, ctx.applyPadding rnd data = .ok out ∧ data <+: out ∧
      out.length = data.length + k.length := by
  rw [applyPadding_eq rnd ctx data k ks hk hpos, hmul, Nat.sub_zero]
  simp only [List.mem_cons, List.mem_singleton, List.not_mem_nil, or_false] at hpad
  rcases hpad with h | h | h | h <;> rw [h]
  · exact ⟨_, rfl, List.prefix_append _ _, by simp [applyZerosPadding]⟩
  · refine ⟨_, applyANSIX923Padding_eq data k.length k.length hpos,
      List.prefix_append _ _, ?_⟩
    simp; omega
  · exact ⟨_, rfl, List.prefix_append _ _, by simp [applyPKCS7Padding]⟩
  · refine ⟨_, applyISO10126Padding_eq rnd f hrnd data k.length hpos,
      List.prefix_append _ _, ?_⟩
    simp [hmul]; omega

/-- Witness for C5: block size 4, a 4-byte plaintext, ISO10126. -/
theorem C5_padding_adds_full_block_witness :
    ((testContext 4 .ECB .ISO10126).roundKeys
        = [0, 0, 0, 0] :: [[0, 0, 0, 0], [0, 0, 0, 0]] ∧
      0 < [0, 0, 0, 0].length ∧ [1, 2, 3, 4].length % [0, 0, 0, 0].length = 0) ∧
    ∃ out, (testContext 4 .ECB .ISO10126).applyPadding testRand [1, 2, 3, 4] = .ok out ∧
      [1, 2, 3, 4] <+: out ∧ out.length = [1, 2, 3, 4].length + [0, 0, 0, 0].length :=
  ⟨⟨rfl, by decide, by decide⟩,
    C5_padding_adds_full_block testRand (fun j => 0xA0 + j) (testContext 4 .ECB .ISO10126)
      [1, 2, 3, 4] [0, 0, 0, 0] [[0, 0, 0, 0], [0, 0, 0, 0]] rfl (by decide) (by decide)
      (by decide) rfl⟩

/-- Claim C6 (the code at a failing input). With block size 8 and a 5-byte plaintext,
`applyPadding` under ISO10126 appends one byte `01`, whatever the random source yields:
not `N = 8 - 5 = 3` bytes ending in `03`, and the padded length 6 is not a multiple of
8, so that `Encrypt` in ECB mode fails. -/
theorem C6_iso10126_appends_one_byte (f : Nat → Nat) :
    (testContext 8 .ECB .ISO10126).applyPadding (fun _ => .ok f) [1, 2, 3, 4, 5]
        = .ok [1, 2, 3, 4, 5, 1] ∧
      [1, 2, 3, 4, 5, 1].length % 8 ≠ 0 ∧
      CryptoContext.Encrypt (fun _ => .ok f) (testContext 8 .ECB .ISO10126) [1, 2, 3, 4, 5]
        = .error Err.notBlockMultiple := by
  have h : (testContext 8 .ECB .ISO10126).applyPadding (fun _ => .ok f) [1, 2, 3, 4, 5]
      = .ok [1, 2, 3, 4, 5, 1] := rfl
  refine ⟨h, by decide, ?_⟩
  simp only [CryptoContext.Encrypt, h, bind_ok_eq]
  rfl

/-- Claim C7 (amended). On a byte buffer, `removePKCS7Padding` returns an error exactly
when the buffer is empty, or its last byte `N` is 0, or `N` exceeds the buffer length, or
one of the last `N` bytes differs from `N`, and never panics; otherwise it returns the
buffer without its last `N` bytes. Changing any padding byte but the last one of a
validly padded buffer makes removal fail. -/
theorem C7_removePKCS7Padding_outcomes (data : List Nat) (hbytes : ∀ b ∈ data, b < 256) :
    ((∃ e, removePKCS7Padding data = .error e) ↔
      (data = [] ∨ lastByte data = 0 ∨ data.length < lastByte data ∨
        ∃ j, 1 ≤ j ∧ j ≤ lastByte data ∧ data.getD (data.length - j) 0 ≠ lastByte data)) ∧
    removePKCS7Padding data ≠ .error Err.panic ∧
    (¬ (data = [] ∨ lastByte data = 0 ∨ data.length < lastByte data ∨
        ∃ j, 1 ≤ j ∧ j ≤ lastByte data ∧ data.getD (data.length - j) 0 ≠ lastByte data) →
      removePKCS7Padding data = .ok (data.take (data.length - lastByte data))) ∧
    (∀ d n j x, data = applyPKCS7Padding d n → 1 ≤ n → n ≤ 255 → 2 ≤ j → j ≤ n → x ≠ n →
      removePKCS7Padding (data.set (data.length - j) x) = .error Err.badPaddingData) := by
  have hlast : data.getD (data.length - 1) 0 < 256 := by
    by_cases he : data = []
    · subst he; decide
    · have h2 : data.length - 1 < data.length := by
        have := List.length_pos.mpr he; omega
      rw [List.getD_eq_getElem _ _ h2]
      exact hbytes _ (List.getElem_mem _)
  obtain ⟨c1, c2, c3, c4⟩ := removePKCS7Padding_cases data hlast
  simp only [lastByte_eq]
  have hsucc : ¬ (data = [] ∨ data.getD (data.length - 1) 0 = 0 ∨
      data.length < data.getD (data.length - 1) 0 ∨
      ∃ j, 1 ≤ j ∧ j ≤ data.getD (data.length - 1) 0 ∧
        data.getD (data.length - j) 0 ≠ data.getD (data.length - 1) 0) →
      removePKCS7Padding data
        = .ok (data.take (data.length - data.getD (data.length - 1) 0)) := by
    intro hn
    simp only [not_or, not_exists, not_and, not_lt, ne_eq, not_not] at hn
    obtain ⟨hne, h0, hle, hall⟩ := hn
    exact c4 hne h0 hle hall
  have hcases : (data = [] ∨ data.getD (data.length - 1) 0 = 0 ∨
      data.length < data.getD (data.length - 1) 0 ∨
      ∃ j, 1 ≤ j ∧ j ≤ data.getD (data.length - 1) 0 ∧
        data.getD (data.length - j) 0 ≠ data.getD (data.length - 1) 0) →
      removePKCS7Padding data = .error Err.emptyData ∨
      removePKCS7Padding data = .error Err.badPaddingLength ∨
      removePKCS7Padding data = .error Err.badPaddingData := by
    intro h
    by_cases he : data = []
    · exact Or.inl (c1 he)
    · by_cases hb : data.getD (data.length - 1) 0 = 0 ∨
          data.length < data.getD (data.length - 1) 0
      · exact Or.inr (Or.inl (c2 he hb))
      · simp only [not_or, not_lt] at hb
        rcases h with h | h | h | h
        · exact absurd h he
        · exact absurd h hb.1
        · omega
        · exact Or.inr (Or.inr (c3 he hb.1 hb.2 h))
  refine ⟨⟨?_, ?_⟩, ?_, hsucc, ?_⟩
  · rintro ⟨e, he⟩
    by_contra hn
    rw [hsucc hn] at he
    cases he
  · intro h
    rcases hcases h with h | h | h <;> exact ⟨_, h⟩
  · intro hp
    by_cases h : (data = [] ∨ data.getD (data.length - 1) 0 = 0 ∨
      data.length < data.getD (data.length - 1) 0 ∨
      ∃ j, 1 ≤ j ∧ j ≤ data.getD (data.length - 1) 0 ∧
        data.getD (data.length - j) 0 ≠ data.getD (data.length - 1) 0)
    · rcases hcases h with h | h | h <;> rw [h] at hp <;> cases hp
    · rw [hsucc h] at hp; cases hp
  · intro d n j x hd h1 h255 hj2 hjn hx
    subst hd
    have hmod : n % 256 = n := Nat.mod_eq_of_lt (by omega)
    simp only [applyPKCS7Padding, hmod]
    have hlen : (d ++ List.replicate n n).length = d.length + n := by simp
    have hlen2 : ((d ++ List.replicate n n).set (d.length + n - j) x).length
        = d.length + n := by simp
    have hl : ((d ++ List.replicate n n).set (d.length + n - j) x).getD
        (d.length + n - 1) 0 = n := by
      rw [List.getD_eq_getElem?_getD, List.getElem?_set_ne (by omega),
        ← List.getD_eq_getElem?_getD]
      have := getD_append_replicate d n n 1 (le_refl _) h1
      rw [hlen] at this
      exact this
    have hchg : ((d ++ List.replicate n n).set (d.length + n - j) x).getD
        (d.length + n - j) 0 = x := by
      rw [List.getD_eq_getElem?_getD, List.getElem?_set_self (by rw [hlen]; omega)]
      rfl
    obtain ⟨_, _, k3, _⟩ := removePKCS7Padding_cases
      ((d ++ List.replicate n n).set (d.length + n - j) x)
      (by rw [hlen2, hl]; omega)
    rw [hlen]
    rw [hlen2, hl] at k3
    apply k3
    · intro h
      have : ((d ++ List.replicate n n).set (d.length + n - j) x).length = 0 := by rw [h]; rfl
      omega
    · omega
    · omega
    · exact ⟨j, by omega, hjn, by rw [hchg]; exact hx⟩

/-- Witness for C7: the padded buffer `05 02 02`. -/
theorem C7_removePKCS7Padding_outcomes_witness :
    (∀ b ∈ [5, 2, 2], b < 256) ∧ removePKCS7Padding [5, 2, 2] = .ok [5] ∧
      removePKCS7Padding (([5, 2, 2] : List Nat).set 1 7) = .error Err.badPaddingData :=
  ⟨by decide,
    (C7_removePKCS7Padding_outcomes [5, 2, 2] (by decide)).2.2.1 (by
      rintro (h | h | h | ⟨j, _, h2, h3⟩)
      · cases h
      · exact absurd h (by decide)
      · exact absurd h (by decide)
      · have hj : j ≤ 2 := h2
        interval_cases j <;> exact h3 rfl),
    (C7_removePKCS7Padding_outcomes [5, 2, 2] (by decide)).2.2.2 [5] 2 2 7 rfl
      (by decide) (by decide) (by decide) (by decide) (by decide)⟩

/-- Counterexample to C7 as stated: `05 02 02` is validly padded (`N = 2`); changing its
last padding byte to `01` gives `05 02 01`, which `removePKCS7Padding` accepts,
returning `05 02`. -/
theorem C7_changed_padding_byte_accepted :
    applyPKCS7Padding [5] 2 = [5, 2, 2] ∧
      (applyPKCS7Padding [5] 2).set 2 1 = [5, 2, 1] ∧
      removePKCS7Padding ((applyPKCS7Padding [5] 2).set 2 1) = .ok [5, 2] := by
  decide

/-- Claim C8. For every buffer `d` and every `N` with `1 ≤ N ≤ 255`,
`applyPKCS7Padding d N` is `d` followed by `N` bytes each equal to `N`, and
`removePKCS7Padding` of that result succeeds and returns `d`. -/
theorem C8_pkcs7_reversible (d : List Nat) (N : Nat) (h1 : 1 ≤ N) (h2 : N ≤ 255) :
    applyPKCS7Padding d N = d ++ List.replicate N N ∧
      removePKCS7Padding (applyPKCS7Padding d N) = .ok d := by
  refine ⟨?_, removePKCS7Padding_apply d N h1 h2⟩
  simp only [applyPKCS7Padding, Nat.mod_eq_of_lt (show N < 256 by omega)]

/-- Witness for C8: `d = 01 02 03`, `N = 5`. -/
theorem C8_pkcs7_reversible_witness :
    (1 ≤ 5 ∧ 5 ≤ 255) ∧ applyPKCS7Padding [1, 2, 3] 5 = [1, 2, 3] ++ List.replicate 5 5 ∧
      removePKCS7Padding (applyPKCS7Padding [1, 2, 3] 5) = .ok [1, 2, 3] :=
  ⟨by decide, C8_pkcs7_reversible [1, 2, 3] 5 (by decide) (by decide)⟩

/-- Claim C9. For every context in RandomDelta mode (any padding mode, valid or not, any
IV, any round keys) and every input, `Decrypt` returns the error of `decryptRandomDelta`
and no data: the result does not depend on the input, and padding removal, which would
report other errors, is not reached. -/
theorem C9_randomDelta_decrypt_fails (ctx : CryptoContext) (data : List Nat) :
    CryptoContext.Decrypt { ctx with mode := CipherMode.RandomDelta } data
      = .error Err.randomDeltaDecrypt := rfl

end PaddingClaims

section ChainLoop

theorem copyBytes_length (dst src : List Nat) : (copyBytes dst src).length = dst.length := by
  simp only [copyBytes, List.length_append, List.length_take, List.length_drop]
  omega

/-- With a positive block size the fuel `len(data)` is enough: more fuel changes
nothing. -/
theorem chainLoop_fuel {σ : Type} (bs : Nat) (hbs : 0 < bs)
    (step : List Nat → σ → Except Err (List Nat × σ)) :
    ∀ (f1 f2 : Nat) (data : List Nat) (s : σ), data.length ≤ f1 → data.length ≤ f2 →
      chainLoop bs step f1 data s = chainLoop bs step f2 data s := by
  intro f1
  induction f1 with
  | zero =>
      intro f2 data s h1 _
      have : data = [] := List.length_eq_zero.mp (by omega)
      subst this
      cases f2 <;> rfl
  | succ f1 ih =>
      intro f2 data s h1 h2
      cases data with
      | nil => cases f2 <;> rfl
      | cons b rest =>
          cases f2 with
          | zero => simp at h2
          | succ f2 =>
              simp only [chainLoop]
              have hd : ((b :: rest).drop bs).length ≤ f1 := by
                simp only [List.length_drop, List.length_cons] at h1 ⊢; omega
              have hd2 : ((b :: rest).drop bs).length ≤ f2 := by
                simp only [List.length_drop, List.length_cons] at h2 ⊢; omega
              congr 1
              funext x
              obtain ⟨out, s1⟩ := x
              simp only
              rw [ih f2 _ s1 hd hd2]

/-- One iteration of a mode loop on non-empty data. -/
theorem chainLoop_unfold {σ : Type} (bs : Nat) (hbs : 0 < bs)
    (step : List Nat → σ → Except Err (List Nat × σ)) (fuel : Nat) (data : List Nat) (s : σ)
    (hne : data ≠ []) (hf : data.length ≤ fuel) :
    chainLoop bs step fuel data s = (do
      let (out, s1) ← step (data.take bs) s
      let tail ← chainLoop bs step (data.drop bs).length (data.drop bs) s1
      pure (copyBytes (makeBytes (data.take bs).length) out ++ tail)) := by
  cases data with
  | nil => exact absurd rfl hne
  | cons b rest =>
      cases fuel with
      | zero => simp at hf
      | succ fuel =>
          simp only [chainLoop]
          congr 1
          funext x
          obtain ⟨out, s1⟩ := x
          simp only
          rw [chainLoop_fuel bs hbs step fuel _ _ s1 (by
            simp only [List.length_drop, List.length_cons] at hf ⊢; omega) (le_refl _)]

theorem chainLoop_nil {σ : Type} (bs : Nat)
    (step : List Nat → σ → Except Err (List Nat × σ)) (fuel : Nat) (s : σ) :
    chainLoop bs step fuel [] s = .ok [] := by
  cases fuel <;> rfl

/-- A decryption loop undoes an encryption loop when every decryption step undoes the
encryption step on the same chunk and the chaining states stay related. With `al` the
data is block-aligned and the steps only see full blocks. -/
theorem chainLoop_roundtrip {σ τ : Type} (bs : Nat) (hbs : 0 < bs) (al : Prop)
    (enc : List Nat → σ → Except Err (List Nat × σ))
    (dec : List Nat → τ → Except Err (List Nat × τ)) (Rel : σ → τ → Prop)
    (hstep : ∀ chunk s t, Rel s t → 0 < chunk.length → chunk.length ≤ bs →
      (al → chunk.length = bs) →
      ∃ out s1 t1, enc chunk s = .ok (out, s1) ∧ out.length = chunk.length ∧
        dec out t = .ok (chunk, t1) ∧ Rel s1 t1) :
    ∀ (n : Nat) (data : List Nat) (s : σ) (t : τ), data.length ≤ n →
      (al → data.length % bs = 0) → Rel s t →
      ∃ c, chainLoop bs enc data.length data s = .ok c ∧ c.length = data.length ∧
        chainLoop bs dec c.length c t = .ok data := by
  intro n
  induction n with
  | zero =>
      intro data s t hn _ _
      have : data = [] := List.length_eq_zero.mp (by omega)
      subst this
      exact ⟨[], rfl, rfl, rfl⟩
  | succ n ih =>
      intro data s t hn hal hrel
      by_cases hne : data = []
      · subst hne
        exact ⟨[], rfl, rfl, rfl⟩
      · have hpos : 0 < data.length := List.length_pos.mpr hne
        have htl : (data.take bs).length = min bs data.length := List.length_take _ _
        have hfull : al → (data.take bs).length = bs := by
          intro h
          have hm := hal h
          have : bs ≤ data.length := Nat.le_of_dvd hpos (Nat.dvd_of_mod_eq_zero hm)
          rw [htl]; omega
        obtain ⟨out, s1, t1, henc, hol, hdec, hrel1⟩ :=
          hstep (data.take bs) s t hrel (by rw [htl]; omega) (by rw [htl]; omega) hfull
        have hdl : (data.drop bs).length = data.length - bs := List.length_drop _ _
        obtain ⟨c, hc, hcl, hcd⟩ := ih (data.drop bs) s1 t1 (by rw [hdl]; omega)
          (fun h => by
            have hm := hal h
            have hle : bs ≤ data.length := Nat.le_of_dvd hpos (Nat.dvd_of_mod_eq_zero hm)
            rw [hdl]
            have := Nat.sub_mod_eq_zero_of_mod_eq (m := data.length) (n := bs) (k := bs)
              (by rw [hm, Nat.mod_self])
            exact this) hrel1
        have hfit : copyBytes (makeBytes (data.take bs).length) out = out :=
          copyBytes_same_length _ _ (by rw [makeBytes_length, hol])
        have hres : chainLoop bs enc data.length data s = .ok (out ++ c) := by
          rw [chainLoop_unfold bs hbs enc _ data s hne (le_refl _), henc, bind_ok_eq]
          simp only
          rw [hc, bind_ok_eq, pure_eq_ok, hfit]
        have hlen : (out ++ c).length = data.length := by
          rw [List.length_append, hol, hcl, htl, hdl]; omega
        refine ⟨out ++ c, hres, hlen, ?_⟩
        have hone : out ++ c ≠ [] := by
          intro h
          have : (out ++ c).length = 0 := by rw [h]; rfl
          omega
        have htake : (out ++ c).take bs = out := by
          by_cases hb : bs ≤ data.length
          · have : out.length = bs := by rw [hol, htl]; omega
            rw [← this, List.take_left']
            rfl
          · have hc0 : c = [] := List.length_eq_zero.mp (by rw [hcl, hdl]; omega)
            rw [hc0, List.append_nil, List.take_of_length_le (by rw [hol, htl]; omega)]
        have hdrop : (out ++ c).drop bs = c := by
          by_cases hb : bs ≤ data.length
          · have : out.length = bs := by rw [hol, htl]; omega
            rw [← this, List.drop_left']
            rfl
          · have hc0 : c = [] := List.length_eq_zero.mp (by rw [hcl, hdl]; omega)
            rw [hc0, List.append_nil, List.drop_of_length_le (by rw [hol, htl]; omega)]
        rw [chainLoop_unfold bs hbs dec _ (out ++ c) t hone (le_refl _), htake, hdrop, hdec,
          bind_ok_eq]
        simp only
        rw [hcd, bind_ok_eq, pure_eq_ok, hol,
          copyBytes_same_length _ _ (by rw [makeBytes_length]), List.take_append_drop]

end ChainLoop

section Modes

open CryptoContext

theorem InverseOn.encryptsOn {tr : CipherTransformation} {rks : List (List Nat)} {bs : Nat}
    (h : InverseOn tr rks bs) : EncryptsOn tr rks bs := by
  intro key hkey x hx
  obtain ⟨y, h1, h2, _⟩ := h key hkey x hx
  exact ⟨y, h1, h2⟩

theorem encryptChain_ok (tr : CipherTransformation) (bs : Nat) :
    ∀ (ks : List (List Nat)) (x : List Nat),
      (∀ key ∈ ks, ∀ x : List Nat, x.length = bs →
        ∃ y, tr.EncryptBlock x key = .ok y ∧ y.length = bs) →
      x.length = bs → ∃ y, encryptChain tr ks x = .ok y ∧ y.length = bs
  | [], x, _, hx => ⟨x, rfl, hx⟩
  | k :: ks, x, h, hx => by
      obtain ⟨x1, h1, h2⟩ := h k (List.mem_cons_self _ _) x hx
      obtain ⟨y, h3, h4⟩ := encryptChain_ok tr bs ks x1
        (fun key hk => h key (List.mem_cons_of_mem _ hk)) h2
      exact ⟨y, by simp only [encryptChain, h1, bind_ok_eq, h3], h4⟩

/-- Applying `DecryptBlock` under the round keys in reverse order undoes applying
`EncryptBlock` under the round keys in order. -/
theorem encryptChain_decryptChain (tr : CipherTransformation) (rks : List (List Nat))
    (bs : Nat) (hinv : InverseOn tr rks bs) :
    ∀ (suf pre : List (List Nat)) (x : List Nat), rks = pre ++ suf → x.length = bs →
      ∃ y, encryptChain tr suf x = .ok y ∧ y.length = bs ∧
        decryptChain tr rks rks.length y = decryptChain tr rks pre.length x := by
  intro suf
  induction suf with
  | nil =>
      intro pre x hr hx
      refine ⟨x, rfl, hx, ?_⟩
      rw [hr]; simp
  | cons k suf ih =>
      intro pre x hr hx
      have hmem : k ∈ rks := by rw [hr]; simp
      obtain ⟨x1, h1, h2, h3⟩ := hinv k hmem x hx
      obtain ⟨y, h4, h5, h6⟩ := ih (pre ++ [k]) x1 (by rw [hr]; simp) h2
      refine ⟨y, by simp only [encryptChain, h1, bind_ok_eq, h4], h5, ?_⟩
      rw [h6]
      have hidx : index rks pre.length = .ok k := by
        apply index_of_getElem?
        rw [hr, List.getElem?_append_right (le_refl _)]; simp
      simp only [List.length_append, List.length_singleton, decryptChain, hidx, bind_ok_eq, h3]

theorem encryptBlock_eq (ctx : CryptoContext) (x : List Nat) :
    ctx.encryptBlock x = encryptChain ctx.transform ctx.roundKeys x := by
  simp only [CryptoContext.encryptBlock,
    copyBytes_same_length _ _ (makeBytes_length x.length)]

theorem decryptBlock_eq (ctx : CryptoContext) (x : List Nat) :
    ctx.decryptBlock x = decryptChain ctx.transform ctx.roundKeys ctx.roundKeys.length x := by
  simp only [CryptoContext.decryptBlock,
    copyBytes_same_length _ _ (makeBytes_length x.length)]

theorem encryptBlock_ok (ctx : CryptoContext) (bs : Nat)
    (h : EncryptsOn ctx.transform ctx.roundKeys bs) (x : List Nat) (hx : x.length = bs) :
    ∃ y, ctx.encryptBlock x = .ok y ∧ y.length = bs := by
  rw [encryptBlock_eq]
  exact encryptChain_ok ctx.transform bs ctx.roundKeys x h hx

theorem encryptBlock_decryptBlock (ctx : CryptoContext) (bs : Nat)
    (h : InverseOn ctx.transform ctx.roundKeys bs) (x : List Nat) (hx : x.length = bs) :
    ∃ y, ctx.encryptBlock x = .ok y ∧ y.length = bs ∧ ctx.decryptBlock y = .ok x := by
  rw [encryptBlock_eq]
  obtain ⟨y, h1, h2, h3⟩ :=
    encryptChain_decryptChain ctx.transform ctx.roundKeys bs h ctx.roundKeys [] x rfl hx
  refine ⟨y, h1, h2, ?_⟩
  rw [decryptBlock_eq, h3]
  rfl

theorem blockSize_eq (ctx : CryptoContext) (k : List Nat) (ks : List (List Nat))
    (hk : ctx.roundKeys = k :: ks) : ctx.blockSize = .ok k.length := by
  simp [CryptoContext.blockSize, hk, index, bind_ok_eq, pure_eq_ok]

theorem checkAligned_ok (data : List Nat) (bs : Nat) (hbs : 0 < bs)
    (h : data.length % bs = 0) : checkAligned data bs = .ok () := by
  have h0 : ¬ (bs = 0) := by omega
  simp [checkAligned, h0, h]

theorem checkedIV_ok (ctx : CryptoContext) (iv : List Nat) (bs : Nat)
    (hiv : ctx.iv = some iv) (hl : iv.length = bs) : ctx.checkedIV bs = .ok iv := by
  simp [CryptoContext.checkedIV, hiv, hl]

theorem fullBlock_ok (chunk : List Nat) (bs : Nat) (h : chunk.length = bs) :
    fullBlock chunk bs = .ok chunk := by
  simp [fullBlock, h]

theorem xorBlocks_length (a b : List Nat) :
    (xorBlocks a b).length = min a.length b.length := xorBytes_length a b

theorem xorBlocks_cancel (a b : List Nat) (h : a.length ≤ b.length) :
    xorBlocks (xorBlocks a b) b = a := xorBytes_cancel a b h

/-- ECB on block-aligned data: decryption undoes encryption. -/
theorem ecb_roundtrip (ctx : CryptoContext) (k : List Nat) (ks : List (List Nat))
    (hk : ctx.roundKeys = k :: ks) (hpos : 0 < k.length)
    (hinv : InverseOn ctx.transform ctx.roundKeys k.length) (q : List Nat)
    (hq : q.length % k.length = 0) :
    ∃ c, ctx.encryptECB q = .ok c ∧ c.length = q.length ∧ ctx.decryptECB c = .ok q := by
  obtain ⟨c, h1, h2, h3⟩ := chainLoop_roundtrip k.length hpos True
    (ctx.ecbEncryptStep k.length) (ctx.ecbDecryptStep k.length) (fun _ _ => True)
    (by
      intro chunk s t _ _ _ hfull
      obtain ⟨y, e1, e2, e3⟩ := encryptChain_decryptChain ctx.transform ctx.roundKeys
        k.length hinv ctx.roundKeys [] chunk rfl (hfull trivial)
      refine ⟨y, (), (), ?_, by rw [e2, hfull trivial], ?_, trivial⟩
      · simp only [CryptoContext.ecbEncryptStep, fullBlock_ok _ _ (hfull trivial), bind_ok_eq,
          e1, pure_eq_ok]
      · simp only [CryptoContext.ecbDecryptStep, fullBlock_ok _ _ e2, bind_ok_eq, e3]
        rfl)
    q.length q () () (le_refl _) (fun _ => hq) trivial
  refine ⟨c, ?_, h2, ?_⟩
  · simp only [CryptoContext.encryptECB, blockSize_eq ctx k ks hk, bind_ok_eq,
      checkAligned_ok q _ hpos hq, h1]
  · simp only [CryptoContext.decryptECB, blockSize_eq ctx k ks hk, bind_ok_eq,
      checkAligned_ok c _ hpos (by rw [h2]; exact hq), h3]

/-- CBC on block-aligned data: decryption undoes encryption. -/
theorem cbc_roundtrip (ctx : CryptoContext) (k : List Nat) (ks : List (List Nat))
    (iv : List Nat) (hk : ctx.roundKeys = k :: ks) (hpos : 0 < k.length)
    (hiv : ctx.iv = some iv) (hivl : iv.length = k.length)
    (hinv : InverseOn ctx.transform ctx.roundKeys k.length) (q : List Nat)
    (hq : q.length % k.length = 0) :
    ∃ c, ctx.encryptCBC q = .ok c ∧ c.length = q.length ∧ ctx.decryptCBC c = .ok q := by
  obtain ⟨c, h1, h2, h3⟩ := chainLoop_roundtrip k.length hpos True
    (ctx.cbcEncryptStep k.length) (ctx.cbcDecryptStep k.length)
    (fun s t => s = t ∧ s.length = k.length)
    (by
      intro chunk s t hrel _ _ hfull
      obtain ⟨hst, hsl⟩ := hrel
      subst hst
      have hcl := hfull trivial
      have hxl : (xorBlocks chunk s).length = k.length := by
        rw [xorBlocks_length, hcl, hsl]; simp
      obtain ⟨y, e1, e2, e3⟩ := encryptBlock_decryptBlock ctx k.length hinv _ hxl
      refine ⟨y, y, y, ?_, by rw [e2, hcl], ?_, ⟨rfl, e2⟩⟩
      · simp only [CryptoContext.cbcEncryptStep, fullBlock_ok _ _ hcl, bind_ok_eq, e1,
          pure_eq_ok]
      · simp only [CryptoContext.cbcDecryptStep, fullBlock_ok _ _ e2, bind_ok_eq, e3,
          pure_eq_ok, xorBlocks_cancel chunk s (by omega)])
    q.length q iv iv (le_refl _) (fun _ => hq) ⟨rfl, hivl⟩
  refine ⟨c, ?_, h2, ?_⟩
  · simp only [CryptoContext.encryptCBC, blockSize_eq ctx k ks hk, bind_ok_eq,
      checkAligned_ok q _ hpos hq, checkedIV_ok ctx iv _ hiv hivl, h1]
  · simp only [CryptoContext.decryptCBC, blockSize_eq ctx k ks hk, bind_ok_eq,
      checkAligned_ok c _ hpos (by rw [h2]; exact hq), checkedIV_ok ctx iv _ hiv hivl, h3]

/-- PCBC on block-aligned data: decryption undoes encryption. -/
theorem pcbc_roundtrip (ctx : CryptoContext) (k : List Nat) (ks : List (List Nat))
    (iv : List Nat) (hk : ctx.roundKeys = k :: ks) (hpos : 0 < k.length)
    (hiv : ctx.iv = some iv) (hivl : iv.length = k.length)
    (hinv : InverseOn ctx.transform ctx.roundKeys k.length) (q : List Nat)
    (hq : q.length % k.length = 0) :
    ∃ c, ctx.encryptPCBC q = .ok c ∧ c.length = q.length ∧ ctx.decryptPCBC c = .ok q := by
  obtain ⟨c, h1, h2, h3⟩ := chainLoop_roundtrip k.length hpos True
    (ctx.pcbcEncryptStep k.length) (ctx.pcbcDecryptStep k.length)
    (fun s t => s = t ∧ s.1.length = k.length ∧ s.2.length = k.length)
    (by
      intro chunk s t hrel _ _ hfull
      obtain ⟨hst, hs1, hs2⟩ := hrel
      subst hst
      have hcl := hfull trivial
      have hml : (xorBlocks s.1 s.2).length = k.length := by
        rw [xorBlocks_length, hs1, hs2]; simp
      have hxl : (xorBlocks chunk (xorBlocks s.1 s.2)).length = k.length := by
        rw [xorBlocks_length, hcl, hml]; simp
      obtain ⟨y, e1, e2, e3⟩ := encryptBlock_decryptBlock ctx k.length hinv _ hxl
      refine ⟨y, (chunk, y), (chunk, y), ?_, by rw [e2, hcl], ?_, ⟨rfl, hcl, e2⟩⟩
      · simp only [CryptoContext.pcbcEncryptStep, fullBlock_ok _ _ hcl, bind_ok_eq, e1,
          pure_eq_ok]
      · simp only [CryptoContext.pcbcDecryptStep, fullBlock_ok _ _ e2, bind_ok_eq, e3,
          pure_eq_ok, xorBlocks_cancel chunk (xorBlocks s.1 s.2) (by omega)])
    q.length q (iv, iv) (iv, iv) (le_refl _) (fun _ => hq) ⟨rfl, hivl, hivl⟩
  refine ⟨c, ?_, h2, ?_⟩
  · simp only [CryptoContext.encryptPCBC, blockSize_eq ctx k ks hk, bind_ok_eq,
      checkAligned_ok q _ hpos hq, checkedIV_ok ctx iv _ hiv hivl, h1]
  · simp only [CryptoContext.decryptPCBC, blockSize_eq ctx k ks hk, bind_ok_eq,
      checkAligned_ok c _ hpos (by rw [h2]; exact hq), checkedIV_ok ctx iv _ hiv hivl, h3]

theorem slicePrefix_ok (s : List Nat) (n : Nat) (h : n ≤ s.length) :
    slicePrefix s n = .ok (s.take n) := by
  simp [slicePrefix, h]

theorem shiftStream_ok (stream block : List Nat) (n bs : Nat) (hs : stream.length = bs)
    (hb : block.length = n) (hn : n ≤ bs) :
    shiftStream stream block n bs = .ok (stream.drop n ++ block) ∧
      (stream.drop n ++ block).length = bs := by
  have hl : (stream.drop n ++ block).length = bs := by
    rw [List.length_append, List.length_drop, hs, hb]; omega
  have h1 : n ≤ stream.length := by omega
  have h2 : ¬ ((stream.drop n ++ block).length > bs) := by omega
  refine ⟨?_, hl⟩
  simp only [CryptoContext.shiftStream, sliceSuffix, h1, if_true, bind_ok_eq, h2, if_false]

/-- CFB on data of any length, with a transformation that only has to encrypt:
decryption undoes encryption. -/
theorem cfb_roundtrip (ctx : CryptoContext) (k : List Nat) (ks : List (List Nat))
    (iv : List Nat) (hk : ctx.roundKeys = k :: ks) (hpos : 0 < k.length)
    (hiv : ctx.iv = some iv) (hivl : iv.length = k.length)
    (henc : EncryptsOn ctx.transform ctx.roundKeys k.length) (q : List Nat) :
    ∃ c, ctx.encryptCFB q = .ok c ∧ c.length = q.length ∧ ctx.decryptCFB c = .ok q := by
  obtain ⟨c, h1, h2, h3⟩ := chainLoop_roundtrip k.length hpos False
    (ctx.cfbEncryptStep k.length) (ctx.cfbDecryptStep k.length)
    (fun s t => s = t ∧ s.length = k.length)
    (by
      intro chunk s t hrel _ hle _
      obtain ⟨hst, hsl⟩ := hrel
      subst hst
      obtain ⟨es, e1, e2⟩ := encryptBlock_ok ctx k.length henc s hsl
      have hks : (es.take chunk.length).length = chunk.length := by
        rw [List.length_take, e2]; omega
      have hcl : (xorBlocks chunk (es.take chunk.length)).length = chunk.length := by
        rw [xorBlocks_length, hks]; simp
      obtain ⟨sh, shl⟩ := shiftStream_ok s (xorBlocks chunk (es.take chunk.length))
        chunk.length k.length hsl hcl hle
      refine ⟨_, _, _, ?_, hcl, ?_, ⟨rfl, shl⟩⟩
      · simp only [CryptoContext.cfbEncryptStep, e1, bind_ok_eq,
          slicePrefix_ok es chunk.length (by omega), sh, pure_eq_ok]
      · simp only [CryptoContext.cfbDecryptStep, e1, bind_ok_eq, hcl,
          slicePrefix_ok es chunk.length (by omega), sh, pure_eq_ok,
          xorBlocks_cancel chunk (es.take chunk.length) (by omega)])
    q.length q iv iv (le_refl _) (fun h => absurd h id) ⟨rfl, hivl⟩
  refine ⟨c, ?_, h2, ?_⟩
  · simp only [CryptoContext.encryptCFB, blockSize_eq ctx k ks hk, bind_ok_eq,
      checkedIV_ok ctx iv _ hiv hivl, h1]
  · simp only [CryptoContext.decryptCFB, blockSize_eq ctx k ks hk, bind_ok_eq,
      checkedIV_ok ctx iv _ hiv hivl, h3]

/-- OFB on data of any length: processing twice gives the data back. -/
theorem ofb_roundtrip (ctx : CryptoContext) (k : List Nat) (ks : List (List Nat))
    (iv : List Nat) (hk : ctx.roundKeys = k :: ks) (hpos : 0 < k.length)
    (hiv : ctx.iv = some iv) (hivl : iv.length = k.length)
    (henc : EncryptsOn ctx.transform ctx.roundKeys k.length) (q : List Nat) :
    ∃ c, ctx.processOFB q = .ok c ∧ c.length = q.length ∧ ctx.processOFB c = .ok q := by
  obtain ⟨c, h1, h2, h3⟩ := chainLoop_roundtrip k.length hpos False
    ctx.ofbStep ctx.ofbStep (fun s t => s = t ∧ s.length = k.length)
    (by
      intro chunk s t hrel _ hle _
      obtain ⟨hst, hsl⟩ := hrel
      subst hst
      obtain ⟨es, e1, e2⟩ := encryptBlock_ok ctx k.length henc s hsl
      have hks : (es.take chunk.length).length = chunk.length := by
        rw [List.length_take, e2]; omega
      have hcl : (xorBlocks chunk (es.take chunk.length)).length = chunk.length := by
        rw [xorBlocks_length, hks]; simp
      refine ⟨_, _, _, ?_, hcl, ?_, ⟨rfl, e2⟩⟩
      · simp only [CryptoContext.ofbStep, e1, bind_ok_eq,
          slicePrefix_ok es chunk.length (by omega), pure_eq_ok]
      · simp only [CryptoContext.ofbStep, e1, bind_ok_eq, hcl,
          slicePrefix_ok es chunk.length (by omega), pure_eq_ok,
          xorBlocks_cancel chunk (es.take chunk.length) (by omega)])
    q.length q iv iv (le_refl _) (fun h => absurd h id) ⟨rfl, hivl⟩
  refine ⟨c, ?_, h2, ?_⟩
  · simp only [CryptoContext.processOFB, blockSize_eq ctx k ks hk, bind_ok_eq,
      checkedIV_ok ctx iv _ hiv hivl, h1]
  · simp only [CryptoContext.processOFB, blockSize_eq ctx k ks hk, bind_ok_eq,
      checkedIV_ok ctx iv _ hiv hivl, h3]

theorem incrementCounterLoop_length : ∀ (i : Nat) (c : List Nat),
    (incrementCounterLoop i c).length = c.length
  | 0, _ => rfl
  | i + 1, c => by
      simp only [incrementCounterLoop]
      split_ifs
      · simp
      · rw [incrementCounterLoop_length i]; simp

theorem incrementCounter_length (c : List Nat) : (incrementCounter c).length = c.length :=
  incrementCounterLoop_length _ _

/-- CTR on data of any length: processing twice gives the data back. -/
theorem ctr_roundtrip (ctx : CryptoContext) (k : List Nat) (ks : List (List Nat))
    (iv : List Nat) (hk : ctx.roundKeys = k :: ks) (hpos : 0 < k.length)
    (hiv : ctx.iv = some iv) (hivl : iv.length = k.length)
    (henc : EncryptsOn ctx.transform ctx.roundKeys k.length) (q : List Nat) :
    ∃ c, ctx.processCTR q = .ok c ∧ c.length = q.length ∧ ctx.processCTR c = .ok q := by
  obtain ⟨c, h1, h2, h3⟩ := chainLoop_roundtrip k.length hpos False
    ctx.ctrStep ctx.ctrStep (fun s t => s = t ∧ s.length = k.length)
    (by
      intro chunk s t hrel _ hle _
      obtain ⟨hst, hsl⟩ := hrel
      subst hst
      obtain ⟨es, e1, e2⟩ := encryptBlock_ok ctx k.length henc s hsl
      have hks : (es.take chunk.length).length = chunk.length := by
        rw [List.length_take, e2]; omega
      have hcl : (xorBlocks chunk (es.take chunk.length)).length = chunk.length := by
        rw [xorBlocks_length, hks]; simp
      refine ⟨_, _, _, ?_, hcl, ?_, ⟨rfl, by rw [incrementCounter_length, hsl]⟩⟩
      · simp only [CryptoContext.ctrStep, e1, bind_ok_eq,
          slicePrefix_ok es chunk.length (by omega), pure_eq_ok]
      · simp only [CryptoContext.ctrStep, e1, bind_ok_eq, hcl,
          slicePrefix_ok es chunk.length (by omega), pure_eq_ok,
          xorBlocks_cancel chunk (es.take chunk.length) (by omega)])
    q.length q iv iv (le_refl _) (fun h => absurd h id) ⟨rfl, hivl⟩
  have hcp : copyBytes (makeBytes k.length) iv = iv :=
    copyBytes_same_length _ _ (by rw [makeBytes_length, hivl])
  refine ⟨c, ?_, h2, ?_⟩
  · simp only [CryptoContext.processCTR, blockSize_eq ctx k ks hk, bind_ok_eq,
      checkedIV_ok ctx iv _ hiv hivl, hcp, h1]
  · simp only [CryptoContext.processCTR, blockSize_eq ctx k ks hk, bind_ok_eq,
      checkedIV_ok ctx iv _ hiv hivl, hcp, h3]

end Modes

section EngineRoundTrip

open CryptoContext

theorem removeZerosPadding_apply (d : List Nat) :
    ∀ n : Nat, removeZerosPadding (applyZerosPadding d n) = removeZerosPadding d
  | 0 => by simp [applyZerosPadding]
  | n + 1 => by
      have ih := removeZerosPadding_apply d n
      simp only [applyZerosPadding, removeZerosPadding] at ih ⊢
      rw [List.replicate_succ', ← List.append_assoc, List.rdropWhile_concat]
      simpa using ih

theorem removeZerosPadding_self (d : List Nat) (h : d.getLast? ≠ some 0) :
    removeZerosPadding d = d := by
  simp only [removeZerosPadding]
  rw [List.rdropWhile_eq_self_iff]
  intro hne
  simp only [beq_iff_eq]
  intro h0
  apply h
  rw [List.getLast?_eq_getLast _ hne, h0]

theorem padded_length_aligned (n bs : Nat) (hbs : 0 < bs) :
    (n + (bs - n % bs)) % bs = 0 := by
  have hlt : n % bs < bs := Nat.mod_lt _ hbs
  have h1 : n + (bs - n % bs) = bs * (n / bs + 1) := by
    have := Nat.div_add_mod n bs
    rw [Nat.mul_add, Nat.mul_one]
    omega
  rw [h1, Nat.mul_mod_right]

theorem removeANSIX923Padding_apply (d : List Nat) (pad : List Nat) (n : Nat) (h1 : 1 ≤ n)
    (hp : pad.length + 1 = n) (h255 : n ≤ 255) :
    removeANSIX923Padding (d ++ (pad ++ [n % 256])) = .ok d := by
  have hmod : n % 256 = n := Nat.mod_eq_of_lt (by omega)
  have hlen : (d ++ (pad ++ [n])).length = d.length + n := by
    simp only [List.length_append, List.length_singleton]; omega
  have hne : ¬ ((d ++ (pad ++ [n])).length = 0) := by omega
  have hidx : index (d ++ (pad ++ [n])) ((d ++ (pad ++ [n])).length - 1) = .ok n := by
    apply index_of_getElem?
    rw [← List.append_assoc, List.getElem?_append_right (by simp)]
    simp
  have hgt : ¬ (n > (d ++ (pad ++ [n])).length) := by omega
  rw [hmod]
  simp only [removeANSIX923Padding]
  rw [if_neg hne, hidx, bind_ok_eq, if_neg hgt, hlen]
  simp

/-- Padding then unpadding under Zeros (data not ending in a zero byte), ANSI X9.23 or
PKCS7, with a block size of 1 to 255 bytes: the padded buffer is block-aligned and
unpadding returns the data. -/
theorem padding_roundtrip (rnd : RandSource) (ctx : CryptoContext) (k : List Nat)
    (ks : List (List Nat)) (p : List Nat) (hk : ctx.roundKeys = k :: ks)
    (h1 : 1 ≤ k.length) (h255 : k.length ≤ 255)
    (hpad : ctx.padding = .ANSIX923 ∨ ctx.padding = .PKCS7 ∨
      (ctx.padding = .Zeros ∧ p.getLast? ≠ some 0)) :
    ∃ q, ctx.applyPadding rnd p = .ok q ∧ q.length % k.length = 0 ∧
      ctx.removePadding q = .ok p := by
  have hlt : p.length % k.length < k.length := Nat.mod_lt _ h1
  have hal := padded_length_aligned p.length k.length h1
  rw [applyPadding_eq rnd ctx p k ks hk h1]
  rcases hpad with h | h | ⟨h, hz⟩
  · rw [h]
    refine ⟨_, applyANSIX923Padding_eq p _ k.length (by omega), ?_, ?_⟩
    · rw [← hal]; congr 1; simp; omega
    · simp only [CryptoContext.removePadding, h]
      exact removeANSIX923Padding_apply p _ _ (by omega) (by simp; omega) (by omega)
  · rw [h]
    refine ⟨_, rfl, ?_, ?_⟩
    · rw [← hal]; simp [applyPKCS7Padding]
    · simp only [CryptoContext.removePadding, h]
      exact removePKCS7Padding_apply p _ (by omega) (by omega)
  · rw [h]
    refine ⟨_, rfl, ?_, ?_⟩
    · rw [← hal]; simp [applyZerosPadding]
    · simp only [CryptoContext.removePadding, h]
      rw [removeZerosPadding_apply, removeZerosPadding_self p hz]

theorem reverse_inverseOn (rks : List (List Nat)) (bs : Nat) :
    InverseOn reverseTransformation rks bs := by
  intro key _ x hx
  exact ⟨x.reverse, rfl, by simp [hx], by simp [reverseTransformation]⟩

/-- Claim C4 (amended). For every context with a block size `len(roundKeys[0])` of 1 to
255 bytes whose round transformation's `DecryptBlock(., k)` is a length-preserving inverse
of `EncryptBlock(., k)` on block-sized inputs for each round key, with an IV of block
length, for every mode in ECB, CBC, PCBC, CFB, OFB, CTR, for padding ANSI X9.23 or PKCS7
and every plaintext, and for padding Zeros and every plaintext that does not end in a
zero byte: `Encrypt p` succeeds and `Decrypt (Encrypt p)` returns `p`. -/
theorem C4_engine_roundtrip (rnd : RandSource) (ctx : CryptoContext) (k : List Nat)
    (ks : List (List Nat)) (iv p : List Nat) (hk : ctx.roundKeys = k :: ks)
    (h1 : 1 ≤ k.length) (h255 : k.length ≤ 255)
    (hiv : ctx.iv = some iv) (hivl : iv.length = k.length)
    (hinv : InverseOn ctx.transform ctx.roundKeys k.length)
    (hmode : ctx.mode ∈ [CipherMode.ECB, CipherMode.CBC, CipherMode.PCBC, CipherMode.CFB,
      CipherMode.OFB, CipherMode.CTR])
    (hpad : ctx.padding = .ANSIX923 ∨ ctx.padding = .PKCS7 ∨
      (ctx.padding = .Zeros ∧ p.getLast? ≠ some 0)) :
    ∃ c, CryptoContext.Encrypt rnd ctx p = .ok c ∧ CryptoContext.Decrypt ctx c = .ok p := by
  obtain ⟨q, hq, hal, hrm⟩ := padding_roundtrip rnd ctx k ks p hk h1 h255 hpad
  have henc := hinv.encryptsOn
  simp only [List.mem_cons, List.mem_singleton, List.not_mem_nil, or_false] at hmode
  rcases hmode with h | h | h | h | h | h
  · obtain ⟨c, e1, _, e3⟩ := ecb_roundtrip ctx k ks hk h1 hinv q hal
    refine ⟨c, ?_, ?_⟩
    · simp only [CryptoContext.Encrypt, hq, bind_ok_eq, h]
      exact e1
    · simp only [CryptoContext.Decrypt, h, e3, bind_ok_eq, hrm, pure_eq_ok]
  · obtain ⟨c, e1, _, e3⟩ := cbc_roundtrip ctx k ks iv hk h1 hiv hivl hinv q hal
    refine ⟨c, ?_, ?_⟩
    · simp only [CryptoContext.Encrypt, hq, bind_ok_eq, h]
      exact e1
    · simp only [CryptoContext.Decrypt, h, e3, bind_ok_eq, hrm, pure_eq_ok]
  · obtain ⟨c, e1, _, e3⟩ := pcbc_roundtrip ctx k ks iv hk h1 hiv hivl hinv q hal
    refine ⟨c, ?_, ?_⟩
    · simp only [CryptoContext.Encrypt, hq, bind_ok_eq, h]
      exact e1
    · simp only [CryptoContext.Decrypt, h, e3, bind_ok_eq, hrm, pure_eq_ok]
  · obtain ⟨c, e1, _, e3⟩ := cfb_roundtrip ctx k ks iv hk h1 hiv hivl henc q
    refine ⟨c, ?_, ?_⟩
    · simp only [CryptoContext.Encrypt, hq, bind_ok_eq, h]
      exact e1
    · simp only [CryptoContext.Decrypt, h, e3, bind_ok_eq, hrm, pure_eq_ok]
  · obtain ⟨c, e1, _, e3⟩ := ofb_roundtrip ctx k ks iv hk h1 hiv hivl henc q
    refine ⟨c, ?_, ?_⟩
    · simp only [CryptoContext.Encrypt, hq, bind_ok_eq, h]
      exact e1
    · simp only [CryptoContext.Decrypt, h, CryptoContext.decryptOFB, e3, bind_ok_eq, hrm,
        pure_eq_ok]
  · obtain ⟨c, e1, _, e3⟩ := ctr_roundtrip ctx k ks iv hk h1 hiv hivl henc q
    refine ⟨c, ?_, ?_⟩
    · simp only [CryptoContext.Encrypt, hq, bind_ok_eq, h]
      exact e1
    · simp only [CryptoContext.Decrypt, h, CryptoContext.decryptCTR, e3, bind_ok_eq, hrm,
        pure_eq_ok]

/-- Witness for C4: block size 4, CBC, PKCS7, a 5-byte plaintext. -/
theorem C4_engine_roundtrip_witness :
    ((testContext 4 .CBC .PKCS7).roundKeys = [0, 0, 0, 0] :: [[0, 0, 0, 0], [0, 0, 0, 0]] ∧
      (testContext 4 .CBC .PKCS7).iv = some [0, 1, 2, 3] ∧
      InverseOn (testContext 4 .CBC .PKCS7).transform (testContext 4 .CBC .PKCS7).roundKeys
        [0, 0, 0, 0].length) ∧
    ∃ c, CryptoContext.Encrypt testRand (testContext 4 .CBC .PKCS7) [1, 2, 3, 4, 5] = .ok c ∧
      CryptoContext.Decrypt (testContext 4 .CBC .PKCS7) c = .ok [1, 2, 3, 4, 5] :=
  ⟨⟨rfl, rfl, reverse_inverseOn _ _⟩,
    C4_engine_roundtrip testRand (testContext 4 .CBC .PKCS7) [0, 0, 0, 0]
      [[0, 0, 0, 0], [0, 0, 0, 0]] [0, 1, 2, 3] [1, 2, 3, 4, 5] rfl (by decide) (by decide)
      rfl rfl (reverse_inverseOn _ _) (by decide) (Or.inr (Or.inl rfl))⟩

set_option maxRecDepth 100000 in
/-- Counterexample to C4 as stated, on contexts whose transformation (block reversal) is
a length-preserving inverse pair and whose IV has block length. Zeros padding: the
plaintext `01 00` comes back as `01`. Block size 256, PKCS7: the empty plaintext encrypts
but `Decrypt` fails, the length byte being `byte(256) = 0`. ISO10126, block size 8: a
5-byte plaintext does not even encrypt (see C6). -/
theorem C4_roundtrip_fails :
    (∃ c, CryptoContext.Encrypt testRand (testContext 4 .CBC .Zeros) [1, 0] = .ok c ∧
      CryptoContext.Decrypt (testContext 4 .CBC .Zeros) c = .ok [1]) ∧
    (∃ c, CryptoContext.Encrypt testRand (testContext 256 .ECB .PKCS7) [] = .ok c ∧
      CryptoContext.Decrypt (testContext 256 .ECB .PKCS7) c = .error Err.badPaddingLength) ∧
    CryptoContext.Encrypt testRand (testContext 8 .ECB .ISO10126) [1, 2, 3, 4, 5]
      = .error Err.notBlockMultiple := by
  refine ⟨⟨[3, 2, 1, 1], by decide, by decide⟩, ⟨List.replicate 256 0, ?_, ?_⟩, by decide⟩
  · decide!
  · decide!

end EngineRoundTrip

section ECB

open CryptoContext

/-- One iteration of a mode loop on a buffer that starts with a full block. -/
theorem chainLoop_append_block {σ : Type} (bs : Nat) (hbs : 0 < bs)
    (step : List Nat → σ → Except Err (List Nat × σ)) (a rest y : List Nat) (s s1 : σ)
    (ha : a.length = bs) (hstep : step a s = .ok (y, s1)) :
    chainLoop bs step (a ++ rest).length (a ++ rest) s = (do
      let tail ← chainLoop bs step rest.length rest s1
      pure (copyBytes (makeBytes bs) y ++ tail)) := by
  have hne : a ++ rest ≠ [] := by
    intro h
    have : (a ++ rest).length = 0 := by rw [h]; rfl
    rw [List.length_append] at this
    omega
  have htake : (a ++ rest).take bs = a := by rw [← ha, List.take_left']; rfl
  have hdrop : (a ++ rest).drop bs = rest := by rw [← ha, List.drop_left']; rfl
  rw [chainLoop_unfold bs hbs step _ _ s hne (le_refl _), htake, hdrop, hstep, bind_ok_eq, ha]

theorem blockAt_length (data : List Nat) (bs i : Nat) (h : (i + 1) * bs ≤ data.length) :
    (blockAt data bs i).length = bs := by
  simp only [blockAt, List.length_take, List.length_drop]
  have : (i + 1) * bs = i * bs + bs := by ring
  omega

theorem blockAt_zero_append (a rest : List Nat) (bs : Nat) (ha : a.length = bs) :
    blockAt (a ++ rest) bs 0 = a := by
  simp only [blockAt, Nat.zero_mul, List.drop_zero]
  rw [← ha, List.take_left']; rfl

theorem blockAt_succ_append (a rest : List Nat) (bs i : Nat) (ha : a.length = bs) :
    blockAt (a ++ rest) bs (i + 1) = blockAt rest bs i := by
  simp only [blockAt]
  have : (i + 1) * bs = a.length + i * bs := by rw [ha]; ring
  rw [this, List.drop_append]

/-- A loop without chaining state works block by block: block `i` of the result is what
`copy` leaves in a zeroed slot of `bs` bytes, given the output of the body on block `i`
of the data. -/
theorem chainLoop_blocks (bs : Nat) (hbs : 0 < bs)
    (step : List Nat → Unit → Except Err (List Nat × Unit)) :
    ∀ (m : Nat) (data : List Nat), data.length = m * bs →
      (∀ i, i < m → ∃ y, step (blockAt data bs i) () = .ok (y, ())) →
      ∃ out, chainLoop bs step data.length data () = .ok out ∧ out.length = data.length ∧
        ∀ i, i < m → ∃ y, step (blockAt data bs i) () = .ok (y, ()) ∧
          blockAt out bs i = copyBytes (makeBytes bs) y := by
  intro m
  induction m with
  | zero =>
      intro data hlen _
      have : data = [] := List.length_eq_zero.mp (by simpa using hlen)
      subst this
      exact ⟨[], rfl, rfl, fun i hi => absurd hi (Nat.not_lt_zero _)⟩
  | succ m ih =>
      intro data hlen hall
      have hsplit : data = data.take bs ++ data.drop bs := (List.take_append_drop _ _).symm
      have hmb : (m + 1) * bs = m * bs + bs := by ring
      have hta : (data.take bs).length = bs := by rw [List.length_take]; omega
      have hdl : (data.drop bs).length = m * bs := by rw [List.length_drop]; omega
      obtain ⟨y0, hy0⟩ := hall 0 (Nat.succ_pos _)
      have hb0 : blockAt data bs 0 = data.take bs := by
        rw [hsplit, blockAt_zero_append _ _ _ hta, ← hsplit]
      rw [hb0] at hy0
      obtain ⟨tail, htail, htl, hblocks⟩ := ih (data.drop bs) hdl (fun i hi => by
        have := hall (i + 1) (by omega)
        rw [hsplit, blockAt_succ_append _ _ _ _ hta] at this
        exact this)
      have hfl : (copyBytes (makeBytes bs) y0).length = bs := by
        rw [copyBytes_length, makeBytes_length]
      refine ⟨copyBytes (makeBytes bs) y0 ++ tail, ?_, ?_, ?_⟩
      · rw [hsplit, chainLoop_append_block bs hbs step _ _ y0 () () hta hy0, htail]
        rfl
      · rw [List.length_append, hfl, htl, hlen, hdl]; omega
      · intro i hi
        cases i with
        | zero =>
            refine ⟨y0, by rw [hb0]; exact hy0, ?_⟩
            rw [blockAt_zero_append _ _ _ hfl]
        | succ i =>
            obtain ⟨y, hy1, hy2⟩ := hblocks i (by omega)
            refine ⟨y, ?_, ?_⟩
            · rw [hsplit, blockAt_succ_append _ _ _ _ hta]; exact hy1
            · rw [blockAt_succ_append _ _ _ _ hfl]; exact hy2

theorem ecbEncryptStep_eq (ctx : CryptoContext) (bs : Nat) (block : List Nat)
    (h : block.length = bs) :
    ctx.ecbEncryptStep bs block () =
      (encryptChain ctx.transform ctx.roundKeys block).map (fun y => (y, ())) := by
  simp only [CryptoContext.ecbEncryptStep, fullBlock_ok _ _ h, bind_ok_eq]
  cases encryptChain ctx.transform ctx.roundKeys block <;> rfl

theorem ecbDecryptStep_eq (ctx : CryptoContext) (bs : Nat) (block : List Nat)
    (h : block.length = bs) :
    ctx.ecbDecryptStep bs block () =
      (decryptChain ctx.transform ctx.roundKeys ctx.roundKeys.length block).map
        (fun y => (y, ())) := by
  simp only [CryptoContext.ecbDecryptStep, fullBlock_ok _ _ h, bind_ok_eq]
  cases decryptChain ctx.transform ctx.roundKeys ctx.roundKeys.length block <;> rfl

theorem aligned_blocks (n bs : Nat) (hbs : 0 < bs) (h : n % bs = 0) :
    n = (n / bs) * bs ∧ ∀ i, i * bs < n ↔ i < n / bs := by
  have h1 : n = (n / bs) * bs := by
    have := Nat.div_add_mod n bs
    rw [h, Nat.add_zero, Nat.mul_comm] at this
    exact this.symm
  refine ⟨h1, fun i => ⟨fun hi => ?_, fun hi => ?_⟩⟩
  · rw [h1] at hi
    exact Nat.lt_of_mul_lt_mul_right hi
  · rw [h1]
    exact Nat.mul_lt_mul_of_pos_right hi hbs

/-- ECB with any loop body given as a function `g` of the block alone. -/
theorem ecb_blocks (bs : Nat) (hbs : 0 < bs)
    (step : List Nat → Unit → Except Err (List Nat × Unit))
    (g : List Nat → Except Err (List Nat))
    (hg : ∀ block, block.length = bs → step block () = (g block).map (fun y => (y, ())))
    (data : List Nat) (hal : data.length % bs = 0)
    (hall : ∀ i, i * bs < data.length → ∃ y, g (blockAt data bs i) = .ok y) :
    ∃ out, chainLoop bs step data.length data () = .ok out ∧ out.length = data.length ∧
      ∀ i, i * bs < data.length → ∃ y, g (blockAt data bs i) = .ok y ∧
        blockAt out bs i = copyBytes (makeBytes bs) y ∧
        (y.length = bs → blockAt out bs i = y) := by
  obtain ⟨hlen, hiff⟩ := aligned_blocks data.length bs hbs hal
  have hbl : ∀ i, i < data.length / bs → (blockAt data bs i).length = bs := by
    intro i hi
    apply blockAt_length
    have : (i + 1) * bs ≤ (data.length / bs) * bs := Nat.mul_le_mul_right _ hi
    omega
  obtain ⟨out, h1, h2, h3⟩ := chainLoop_blocks bs hbs step (data.length / bs) data hlen
    (fun i hi => by
      obtain ⟨y, hy⟩ := hall i ((hiff i).mpr hi)
      exact ⟨y, by rw [hg _ (hbl i hi), hy]; rfl⟩)
  refine ⟨out, h1, h2, fun i hi => ?_⟩
  have hi2 := (hiff i).mp hi
  obtain ⟨y, hy1, hy2⟩ := h3 i hi2
  obtain ⟨y1, hy3⟩ := hall i hi
  rw [hg _ (hbl i hi2), hy3] at hy1
  have hyy : y1 = y := by
    simp only [Except.map, Except.ok.injEq, Prod.mk.injEq, and_true] at hy1
    exact hy1
  subst hyy
  exact ⟨y1, hy3, hy2, fun hl => by
    rw [hy2, copyBytes_same_length _ _ (by rw [makeBytes_length, hl])]⟩

/-- ECB on a single block. -/
theorem encryptECB_block (ctx : CryptoContext) (k : List Nat) (ks : List (List Nat))
    (hk : ctx.roundKeys = k :: ks) (hpos : 0 < k.length) (a ya : List Nat)
    (ha : a.length = k.length)
    (hya : encryptChain ctx.transform ctx.roundKeys a = .ok ya) :
    ctx.encryptECB a = .ok (copyBytes (makeBytes k.length) ya) := by
  have sa : ctx.ecbEncryptStep k.length a () = .ok (ya, ()) := by
    rw [ecbEncryptStep_eq ctx _ a ha, hya]; rfl
  have la := chainLoop_append_block k.length hpos (ctx.ecbEncryptStep k.length) a [] ya
    () () ha sa
  simp only [List.append_nil] at la
  simp only [CryptoContext.encryptECB, blockSize_eq ctx k ks hk, bind_ok_eq,
    checkAligned_ok a _ hpos (by rw [ha, Nat.mod_self]), la]
  simp [chainLoop, bind_ok_eq, pure_eq_ok]

/-- Claim C10 (amended). In a context with block size `bs = len(roundKeys[0]) ≥ 1`: for
every two block-sized buffers `a`, `b` on which the round transformation succeeds under
the round keys in order, `encryptECB (a ++ b) = encryptECB a ++ encryptECB b`; and for
block-aligned data on whose blocks the transformation succeeds, block `i` of
`encryptECB data` is what `copy` leaves in a zeroed `bs`-byte slot given the result `y`
of applying the round transformation under each round key in order to block `i` of the
data alone: its first `bs` bytes, or `y` followed by zeros, and `y` itself when `y` has
`bs` bytes. Likewise `decryptECB` with the round keys in reverse order. -/
theorem C10_ecb_block_independence (ctx : CryptoContext) (k : List Nat)
    (ks : List (List Nat)) (hk : ctx.roundKeys = k :: ks) (hpos : 0 < k.length) :
    (∀ a b ya yb, a.length = k.length → b.length = k.length →
      encryptChain ctx.transform ctx.roundKeys a = .ok ya →
      encryptChain ctx.transform ctx.roundKeys b = .ok yb →
      ∃ ea eb, ctx.encryptECB a = .ok ea ∧ ctx.encryptECB b = .ok eb ∧
        ctx.encryptECB (a ++ b) = .ok (ea ++ eb)) ∧
    (∀ data, data.length % k.length = 0 →
      (∀ i, i * k.length < data.length →
        ∃ y, encryptChain ctx.transform ctx.roundKeys (blockAt data k.length i) = .ok y) →
      ∃ out, ctx.encryptECB data = .ok out ∧ out.length = data.length ∧
        ∀ i, i * k.length < data.length →
          ∃ y, encryptChain ctx.transform ctx.roundKeys (blockAt data k.length i) = .ok y ∧
            blockAt out k.length i = copyBytes (makeBytes k.length) y ∧
            (y.length = k.length → blockAt out k.length i = y)) ∧
    (∀ data, data.length % k.length = 0 →
      (∀ i, i * k.length < data.length →
        ∃ y, decryptChain ctx.transform ctx.roundKeys ctx.roundKeys.length
          (blockAt data k.length i) = .ok y) →
      ∃ out, ctx.decryptECB data = .ok out ∧ out.length = data.length ∧
        ∀ i, i * k.length < data.length →
          ∃ y, decryptChain ctx.transform ctx.roundKeys ctx.roundKeys.length
              (blockAt data k.length i) = .ok y ∧
            blockAt out k.length i = copyBytes (makeBytes k.length) y ∧
            (y.length = k.length → blockAt out k.length i = y)) := by
  have hbs := blockSize_eq ctx k ks hk
  refine ⟨?_, ?_, ?_⟩
  · intro a b ya yb ha hb hya hyb
    have sa : ctx.ecbEncryptStep k.length a () = .ok (ya, ()) := by
      rw [ecbEncryptStep_eq ctx _ a ha, hya]; rfl
    have sb : ctx.ecbEncryptStep k.length b () = .ok (yb, ()) := by
      rw [ecbEncryptStep_eq ctx _ b hb, hyb]; rfl
    have la : chainLoop k.length (ctx.ecbEncryptStep k.length) a.length a ()
        = .ok (copyBytes (makeBytes k.length) ya) := by
      have := chainLoop_append_block k.length hpos (ctx.ecbEncryptStep k.length) a [] ya
        () () ha sa
      simp only [List.append_nil] at this
      rw [this]
      simp [chainLoop, bind_ok_eq, pure_eq_ok]
    have lb : chainLoop k.length (ctx.ecbEncryptStep k.length) b.length b ()
        = .ok (copyBytes (makeBytes k.length) yb) := by
      have := chainLoop_append_block k.length hpos (ctx.ecbEncryptStep k.length) b [] yb
        () () hb sb
      simp only [List.append_nil] at this
      rw [this]
      simp [chainLoop, bind_ok_eq, pure_eq_ok]
    have lab : chainLoop k.length (ctx.ecbEncryptStep k.length) (a ++ b).length (a ++ b) ()
        = .ok (copyBytes (makeBytes k.length) ya ++ copyBytes (makeBytes k.length) yb) := by
      rw [chainLoop_append_block k.length hpos (ctx.ecbEncryptStep k.length) a b ya
        () () ha sa, lb]
      rfl
    refine ⟨copyBytes (makeBytes k.length) ya, copyBytes (makeBytes k.length) yb, ?_, ?_, ?_⟩
    · simp only [CryptoContext.encryptECB, hbs, bind_ok_eq,
        checkAligned_ok a _ hpos (by rw [ha, Nat.mod_self])]
      exact la
    · simp only [CryptoContext.encryptECB, hbs, bind_ok_eq,
        checkAligned_ok b _ hpos (by rw [hb, Nat.mod_self])]
      exact lb
    · simp only [CryptoContext.encryptECB, hbs, bind_ok_eq,
        checkAligned_ok (a ++ b) _ hpos (by
          rw [List.length_append, ha, hb, ← Nat.two_mul, Nat.mul_mod_left])]
      exact lab
  · intro data hal hall
    obtain ⟨out, h1, h2, h3⟩ := ecb_blocks k.length hpos (ctx.ecbEncryptStep k.length)
      (encryptChain ctx.transform ctx.roundKeys) (ecbEncryptStep_eq ctx k.length) data hal hall
    refine ⟨out, ?_, h2, h3⟩
    simp only [CryptoContext.encryptECB, hbs, bind_ok_eq, checkAligned_ok data _ hpos hal]
    exact h1
  · intro data hal hall
    obtain ⟨out, h1, h2, h3⟩ := ecb_blocks k.length hpos (ctx.ecbDecryptStep k.length)
      (decryptChain ctx.transform ctx.roundKeys ctx.roundKeys.length)
      (ecbDecryptStep_eq ctx k.length) data hal hall
    refine ⟨out, ?_, h2, h3⟩
    simp only [CryptoContext.decryptECB, hbs, bind_ok_eq, checkAligned_ok data _ hpos hal]
    exact h1

/-- Witness for C10: block size 4, the blocks `01 02 03 04` and `05 06 07 08`. -/
theorem C10_ecb_block_independence_witness :
    ((testContext 4 .ECB .PKCS7).roundKeys = [0, 0, 0, 0] :: [[0, 0, 0, 0], [0, 0, 0, 0]] ∧
      0 < [0, 0, 0, 0].length) ∧
    ∃ ea eb, (testContext 4 .ECB .PKCS7).encryptECB [1, 2, 3, 4] = .ok ea ∧
      (testContext 4 .ECB .PKCS7).encryptECB [5, 6, 7, 8] = .ok eb ∧
      (testContext 4 .ECB .PKCS7).encryptECB ([1, 2, 3, 4] ++ [5, 6, 7, 8]) = .ok (ea ++ eb) :=
  ⟨⟨rfl, by decide⟩,
    (C10_ecb_block_independence (testContext 4 .ECB .PKCS7) [0, 0, 0, 0]
      [[0, 0, 0, 0], [0, 0, 0, 0]] rfl (by decide)).1 [1, 2, 3, 4] [5, 6, 7, 8]
      [4, 3, 2, 1] [8, 7, 6, 5] rfl rfl rfl rfl⟩

theorem NewCryptoContext_desEngine :
    NewCryptoContext mainKey .ECB .PKCS7 none desCipherTransformation (some desKeyExpander)
      = .ok desEngine := by
  have hke : desKeyExpander.ExpandKey mainKey = .ok mainRoundKeys := expandKey_mainKey
  simp only [NewCryptoContext, CryptoContext.SetKey, hke, bind_ok_eq]
  rfl

set_option maxRecDepth 100000 in
theorem desEngine_chain :
    encryptChain desEngine.transform desEngine.roundKeys [1, 2, 3, 4, 5, 6]
      = .ok [184, 107, 79, 54] := by
  decide!

/-- Counterexample to C10 as stated: the engine built by `NewCryptoContext` from the
repository's own `DESKeyExpander` and `DESCipherTransformation` has block size 6; on the
block `01 02 03 04 05 06` the round transformation applied under each round key in order
succeeds with the 4 bytes `B8 6B 4F 36`, but block 0 of `encryptECB` is
`B8 6B 4F 36 00 00`. -/
theorem C10_block_differs_from_transformation_result :
    NewCryptoContext mainKey .ECB .PKCS7 none desCipherTransformation (some desKeyExpander)
      = .ok desEngine ∧
    desEngine.blockSize = .ok 6 ∧
    encryptChain desEngine.transform desEngine.roundKeys [1, 2, 3, 4, 5, 6]
      = .ok [184, 107, 79, 54] ∧
    desEngine.encryptECB [1, 2, 3, 4, 5, 6] = .ok [184, 107, 79, 54, 0, 0] ∧
    blockAt [184, 107, 79, 54, 0, 0] 6 0 ≠ [184, 107, 79, 54] :=
  ⟨NewCryptoContext_desEngine, rfl, desEngine_chain,
    encryptECB_block desEngine [26, 2, 239, 252, 113, 114] _ rfl (by decide)
      [1, 2, 3, 4, 5, 6] [184, 107, 79, 54] rfl desEngine_chain,
    by decide⟩

end ECB

section Counter

theorem beValue_concat (pre : List Nat) (b : Nat) :
    beValue (pre ++ [b]) = beValue pre * 256 + b := by
  simp [beValue, List.foldl_append]

theorem beValue_lt : ∀ (c : List Nat), (∀ b ∈ c, b < 256) → beValue c < 256 ^ c.length := by
  intro c
  induction c using List.reverseRecOn with
  | nil => intro _; simp [beValue]
  | append_singleton pre b ih =>
      intro h
      have h1 := ih (fun x hx => h x (List.mem_append_left _ hx))
      have h2 : b < 256 := h b (by simp)
      rw [beValue_concat, List.length_append, List.length_singleton, Nat.pow_succ]
      have : beValue pre * 256 + b < 256 ^ pre.length * 256 := by
        have h3 : beValue pre + 1 ≤ 256 ^ pre.length := h1
        calc beValue pre * 256 + b < (beValue pre + 1) * 256 := by omega
          _ ≤ 256 ^ pre.length * 256 := Nat.mul_le_mul_right _ h3
      exact this

theorem incrementCounterLoop_step (pre suf : List Nat) (b : Nat) :
    incrementCounterLoop (pre.length + 1) (pre ++ b :: suf) =
      if (b + 1) % 256 ≠ 0 then pre ++ ((b + 1) % 256) :: suf
      else incrementCounterLoop pre.length (pre ++ 0 :: suf) := by
  have hget : (pre ++ b :: suf).getD pre.length 0 = b := by
    rw [List.getD_eq_getElem?_getD, List.getElem?_append_right (le_refl _)]
    simp
  have hset : ∀ v, (pre ++ b :: suf).set pre.length v = pre ++ v :: suf := by
    intro v
    rw [List.set_append_right _ _ (le_refl _)]
    simp
  simp only [incrementCounterLoop, hget, hset]
  by_cases h : (b + 1) % 256 = 0
  · simp [h]
  · simp [h]

/-- The loop of `incrementCounter` leaves the bytes after its starting index alone. -/
theorem incrementCounterLoop_append : ∀ (pre suf : List Nat),
    incrementCounterLoop pre.length (pre ++ suf)
      = incrementCounterLoop pre.length pre ++ suf := by
  intro pre
  induction pre using List.reverseRecOn with
  | nil => intro suf; rfl
  | append_singleton pre b ih =>
      intro suf
      have e1 : (pre ++ [b] ++ suf) = pre ++ b :: suf := by simp
      have e2 : (pre ++ [b]) = pre ++ b :: [] := rfl
      rw [List.length_append, List.length_singleton, e1, incrementCounterLoop_step,
        incrementCounterLoop_step pre [] b]
      by_cases h : (b + 1) % 256 = 0
      · simp only [h, ne_eq, not_true_eq_false, if_false]
        rw [ih (0 :: suf), ih [0]]
        simp
      · simp [h]

theorem incrementCounter_concat (pre : List Nat) (b : Nat) :
    incrementCounter (pre ++ [b]) =
      if (b + 1) % 256 ≠ 0 then pre ++ [(b + 1) % 256] else incrementCounter pre ++ [0] := by
  simp only [incrementCounter, List.length_append, List.length_singleton]
  rw [incrementCounterLoop_step pre [] b, incrementCounterLoop_append pre [0]]

theorem incrementCounter_bound : ∀ (c : List Nat), (∀ b ∈ c, b < 256) →
    ∀ b ∈ incrementCounter c, b < 256 := by
  intro c
  induction c using List.reverseRecOn with
  | nil => intro _ b hb; simp [incrementCounter, incrementCounterLoop] at hb
  | append_singleton pre x ih =>
      intro h b hb
      rw [incrementCounter_concat] at hb
      split_ifs at hb with h1
      · rcases List.mem_append.mp hb with hb | hb
        · exact h b (List.mem_append_left _ hb)
        · simp only [List.mem_singleton] at hb
          rw [hb]; exact Nat.mod_lt _ (by decide)
      · rcases List.mem_append.mp hb with hb | hb
        · exact ih (fun y hy => h y (List.mem_append_left _ hy)) b hb
        · simp only [List.mem_singleton] at hb; omega

/-- `incrementCounter` adds one to the big-endian value, modulo `256 ^ len`. -/
theorem incrementCounter_value : ∀ (c : List Nat), (∀ b ∈ c, b < 256) →
    beValue (incrementCounter c) = (beValue c + 1) % 256 ^ c.length := by
  intro c
  induction c using List.reverseRecOn with
  | nil => intro _; simp [incrementCounter, incrementCounterLoop, beValue]
  | append_singleton pre x ih =>
      intro h
      have hpre : ∀ b ∈ pre, b < 256 := fun y hy => h y (List.mem_append_left _ hy)
      have hx : x < 256 := h x (by simp)
      have hlt := beValue_lt pre hpre
      rw [incrementCounter_concat, List.length_append, List.length_singleton, Nat.pow_succ,
        beValue_concat]
      by_cases h1 : (x + 1) % 256 = 0
      · have hx255 : x = 255 := by omega
        simp only [h1, ne_eq, not_true_eq_false, if_false]
        rw [beValue_concat, ih hpre, hx255]
        have : beValue pre * 256 + 255 + 1 = (beValue pre + 1) * 256 := by ring
        rw [this, Nat.mul_mod_mul_right]
        omega
      · have hx1 : (x + 1) % 256 = x + 1 := Nat.mod_eq_of_lt (by omega)
        simp only [h1, ne_eq, not_false_eq_true, if_true]
        rw [beValue_concat, hx1]
        have hlt2 : beValue pre * 256 + x + 1 < 256 ^ pre.length * 256 := by
          have h3 : beValue pre + 1 ≤ 256 ^ pre.length := hlt
          have h4 : beValue pre * 256 + x + 1 < (beValue pre + 1) * 256 := by omega
          exact lt_of_lt_of_le h4 (Nat.mul_le_mul_right _ h3)
        rw [Nat.mod_eq_of_lt hlt2]
        omega

theorem incrementCounter_all_ff : ∀ n : Nat,
    incrementCounter (List.replicate n 255) = List.replicate n 0
  | 0 => rfl
  | n + 1 => by
      rw [List.replicate_succ', incrementCounter_concat, incrementCounter_all_ff n]
      simp [List.replicate_succ']

/-- Claim C11. On an `n`-byte counter, `incrementCounter` keeps the length and adds 1 to
the counter read as a big-endian unsigned integer, modulo `2 ^ (8 n)`: a last byte other
than `FF` is incremented in place, a last byte `FF` becomes `00` and the carry goes to
the bytes before it, and an all-`FF` counter becomes all-zero (the function has no
error result). -/
theorem C11_incrementCounter_big_endian (c : List Nat) (h : ∀ b ∈ c, b < 256) :
    (incrementCounter c).length = c.length ∧
    (∀ b ∈ incrementCounter c, b < 256) ∧
    beValue (incrementCounter c) = (beValue c + 1) % 2 ^ (8 * c.length) ∧
    (∀ pre b, c = pre ++ [b] → b ≠ 255 → incrementCounter c = pre ++ [b + 1]) ∧
    (∀ pre, c = pre ++ [255] → incrementCounter c = incrementCounter pre ++ [0]) ∧
    (c = List.replicate c.length 255 → incrementCounter c = List.replicate c.length 0) := by
  refine ⟨incrementCounter_length c, incrementCounter_bound c h, ?_, ?_, ?_, ?_⟩
  · rw [incrementCounter_value c h, Nat.pow_mul]
  · intro pre b hc hb
    have hb256 : b < 256 := h b (by rw [hc]; simp)
    have h1 : (b + 1) % 256 = b + 1 := Nat.mod_eq_of_lt (by omega)
    rw [hc, incrementCounter_concat, h1]
    simp
  · intro pre hc
    rw [hc, incrementCounter_concat]
    simp
  · intro hc
    rw [hc, incrementCounter_all_ff]
    simp

/-- Witness for C11: the counter `12 FF FF` becomes `13 00 00`. -/
theorem C11_incrementCounter_big_endian_witness :
    (∀ b ∈ [0x12, 0xFF, 0xFF], b < 256) ∧
      incrementCounter [0x12, 0xFF, 0xFF] = [0x13, 0x00, 0x00] ∧
      beValue (incrementCounter [0x12, 0xFF, 0xFF])
        = (beValue [0x12, 0xFF, 0xFF] + 1) % 2 ^ (8 * [0x12, 0xFF, 0xFF].length) :=
  ⟨by decide, by decide,
    (C11_incrementCounter_big_endian [0x12, 0xFF, 0xFF] (by decide)).2.2.1⟩

end Counter

section StreamClaims

open CryptoContext

/-- Claim C13. `encryptOFB` and `decryptOFB` are the same function, and so are
`encryptCTR` and `decryptCTR`; with a block size `len(roundKeys[0]) ≥ 1`, an IV of block
length and a transformation that encrypts block-sized inputs to block-sized outputs, for
every input `d` of any length `processOFB (processOFB d) = d` and
`processCTR (processCTR d) = d`. -/
theorem C13_ofb_ctr_self_inverse (ctx : CryptoContext) (k : List Nat)
    (ks : List (List Nat)) (iv d : List Nat) (hk : ctx.roundKeys = k :: ks)
    (hpos : 0 < k.length) (hiv : ctx.iv = some iv) (hivl : iv.length = k.length)
    (henc : EncryptsOn ctx.transform ctx.roundKeys k.length) :
    CryptoContext.encryptOFB = CryptoContext.decryptOFB ∧
    CryptoContext.encryptCTR = CryptoContext.decryptCTR ∧
    (∃ c, ctx.processOFB d = .ok c ∧ c.length = d.length ∧ ctx.processOFB c = .ok d) ∧
    (∃ c, ctx.processCTR d = .ok c ∧ c.length = d.length ∧ ctx.processCTR c = .ok d) :=
  ⟨rfl, rfl, ofb_roundtrip ctx k ks iv hk hpos hiv hivl henc d,
    ctr_roundtrip ctx k ks iv hk hpos hiv hivl henc d⟩

/-- Witness for C13: block size 4, a 6-byte input. -/
theorem C13_ofb_ctr_self_inverse_witness :
    ((testContext 4 .OFB .PKCS7).roundKeys = [0, 0, 0, 0] :: [[0, 0, 0, 0], [0, 0, 0, 0]] ∧
      (testContext 4 .OFB .PKCS7).iv = some [0, 1, 2, 3]) ∧
    CryptoContext.encryptOFB = CryptoContext.decryptOFB ∧
    CryptoContext.encryptCTR = CryptoContext.decryptCTR ∧
    (∃ c, (testContext 4 .OFB .PKCS7).processOFB [1, 2, 3, 4, 5, 6] = .ok c ∧
      c.length = [1, 2, 3, 4, 5, 6].length ∧
      (testContext 4 .OFB .PKCS7).processOFB c = .ok [1, 2, 3, 4, 5, 6]) ∧
    (∃ c, (testContext 4 .OFB .PKCS7).processCTR [1, 2, 3, 4, 5, 6] = .ok c ∧
      c.length = [1, 2, 3, 4, 5, 6].length ∧
      (testContext 4 .OFB .PKCS7).processCTR c = .ok [1, 2, 3, 4, 5, 6]) :=
  ⟨⟨rfl, rfl⟩,
    C13_ofb_ctr_self_inverse (testContext 4 .OFB .PKCS7) [0, 0, 0, 0]
      [[0, 0, 0, 0], [0, 0, 0, 0]] [0, 1, 2, 3] [1, 2, 3, 4, 5, 6] rfl (by decide) rfl rfl
      (reverse_inverseOn _ _).encryptsOn⟩

/-- Claim C14. `ExpandKey` returns an error exactly when the key is not 8 bytes long; for
every 8-byte key it succeeds and returns exactly 16 round keys, each exactly 6 bytes
long. -/
theorem C14_expandKey_outcomes (key : List Nat) :
    ((∃ e, DESKeyExpander.ExpandKey key = .error e) ↔ key.length ≠ 8) ∧
    (key.length ≠ 8 → DESKeyExpander.ExpandKey key = .error Err.desKeyLength) ∧
    (key.length = 8 → ∃ rks, DESKeyExpander.ExpandKey key = .ok rks ∧ rks.length = 16 ∧
      ∀ rk ∈ rks, rk.length = 6) := by
  have herr : key.length ≠ 8 → DESKeyExpander.ExpandKey key = .error Err.desKeyLength := by
    intro h
    simp only [DESKeyExpander.ExpandKey, h, ne_eq, not_false_eq_true, if_true]
  have hok : key.length = 8 → ∃ rks, DESKeyExpander.ExpandKey key = .ok rks ∧
      rks.length = 16 ∧ ∀ rk ∈ rks, rk.length = 6 := by
    intro h
    obtain ⟨rks, h1, h2, h3⟩ := ExpandKey_spec key h
    exact ⟨rks, h1, h2, fun rk hrk => (h3 rk hrk).1⟩
  refine ⟨⟨?_, fun h => ⟨_, herr h⟩⟩, herr, hok⟩
  rintro ⟨e, he⟩ h8
  obtain ⟨rks, h1, _⟩ := hok h8
  rw [h1] at he
  cases he

end StreamClaims

section BlockSizeChecks

open FeistelCipher

/-- The decryption rounds succeed when the round function succeeds with half-block
results on half-block inputs for the round keys. -/
theorem decryptRounds_ok (fc : FeistelCipher) (half : Nat)
    (hF : ∀ x k, x.length = half → k ∈ fc.roundKeys →
      ∃ y, fc.cipherFunc.EncryptBlock x k = .ok y ∧ y.length = half) :
    ∀ (n : Nat) (left right : List Nat), n ≤ fc.roundKeys.length →
      left.length = half → right.length = half →
      ∃ l r, decryptRounds fc n left right = .ok (l, r) ∧ l.length = half ∧
        r.length = half := by
  intro n
  induction n with
  | zero => intro left right _ hl hr; exact ⟨left, right, rfl, hl, hr⟩
  | succ n ih =>
      intro left right hn hl hr
      have hi : n < fc.roundKeys.length := by omega
      obtain ⟨y, hy, hyl⟩ := hF left (fc.roundKeys.get ⟨n, hi⟩) hl (List.get_mem _ _ _)
      obtain ⟨l, r, h1, h2, h3⟩ := ih (xorBytes right y) left (by omega)
        (by rw [xorBytes_length, hr, hyl]; simp) hl
      refine ⟨l, r, ?_, h2, h3⟩
      simp only [decryptRounds, index_eq_ok _ _ hi, bind_ok_eq, hy]
      exact h1

/-- After `SetKey`, the DES block cipher is keyed with 16 round keys of 6 bytes. -/
theorem DES_SetKey_ok (key : List Nat) (d0 d : DES) (h0 : NewDES = .ok d0)
    (h : d0.SetKey key = .ok d) :
    ∃ rks, d.feistelCipher = { desFeistel with roundKeys := rks } ∧ rks.length = 16 ∧
      key.length = 8 ∧ ∀ k ∈ rks, k.length = 6 := by
  have hd0 : d0 = { feistelCipher := desFeistel } := by
    rw [NewDES_eq] at h0
    simp only [Except.ok.injEq] at h0
    exact h0.symm
  subst hd0
  simp only [DES.SetKey] at h
  cases hs : desFeistel.SetKey key with
  | error e => rw [hs] at h; simp [bind_error_eq] at h
  | ok fc =>
      rw [hs, bind_ok_eq] at h
      simp only [pure_eq_ok, Except.ok.injEq] at h
      obtain ⟨rks, h1, h2, h3⟩ := SetKey_ok desFeistel fc key hs
      have h8 : key.length = 8 := by
        by_contra hne
        have h1b : DESKeyExpander.ExpandKey key = .ok rks := h1
        simp only [DESKeyExpander.ExpandKey, hne, ne_eq, not_false_eq_true, if_true] at h1b
        cases h1b
      obtain ⟨rks2, e1, e2, e3⟩ := ExpandKey_spec key h8
      have h1b : DESKeyExpander.ExpandKey key = .ok rks := h1
      rw [e1] at h1b
      simp only [Except.ok.injEq] at h1b
      subst h1b
      refine ⟨rks2, ?_, e2, h8, fun k hk => (e3 k hk).1⟩
      rw [← h, h3]

/-- Decryption with the keyed DES block cipher succeeds on every 8-byte input. -/
theorem des_decrypt_ok (rks : List (List Nat)) (hlen : rks.length = 16)
    (hall : ∀ k ∈ rks, k.length = 6) (x : List Nat) (hx : x.length = 8) :
    ∃ p, (DES.mk { desFeistel with roundKeys := rks }).DecryptBlock x = .ok p ∧
      p.length = 8 := by
  obtain ⟨x1, hx1, hx1l, _, _⟩ := permuteBits_spec x initialPermutation
    (by rw [hx]; exact initialPermutation_range)
  have hx1l8 : x1.length = 8 := by rw [hx1l]; rfl
  have hF : ∀ y k, y.length = 4 →
      k ∈ ({ desFeistel with roundKeys := rks } : FeistelCipher).roundKeys →
      ∃ z, ({ desFeistel with roundKeys := rks } : FeistelCipher).cipherFunc.EncryptBlock y k
        = .ok z ∧ z.length = 4 := by
    intro y k hy hk
    exact desRound_spec y k hy (by rw [hall k hk])
  obtain ⟨l, r, h1, h2, h3⟩ := decryptRounds_ok { desFeistel with roundKeys := rks } 4 hF 16
    (x1.take 4) (x1.drop 4) (by show 16 ≤ rks.length; omega) (by simp [hx1l8])
    (by simp [hx1l8])
  obtain ⟨p, hp, hpl, _, _⟩ := permuteBits_spec (l ++ r) finalPermutation
    (by rw [List.length_append, h2, h3]; exact finalPermutation_range)
  refine ⟨p, ?_, by rw [hpl]; rfl⟩
  have hne : ¬ (x.length ≠ 8) := by simp [hx]
  have hfd : ({ desFeistel with roundKeys := rks } : FeistelCipher).DecryptBlock x1
      = .ok (l ++ r) := by
    have hb : ¬ ((x1.length : Int) ≠
        ({ desFeistel with roundKeys := rks } : FeistelCipher).blockSize) := by
      rw [hx1l8]; simp [desFeistel]
    simp only [FeistelCipher.DecryptBlock, hb, if_false]
    have hhalf : (Int.tdiv ({ desFeistel with roundKeys := rks } : FeistelCipher).blockSize
        2).toNat = 4 := rfl
    have hnr : ({ desFeistel with roundKeys := rks } : FeistelCipher).numRounds.toNat = 16 :=
      rfl
    rw [hhalf, hnr, copyBytes_same_length _ _ (by simp [makeBytes, hx1l8]),
      copyBytes_same_length _ _ (by simp [makeBytes, hx1l8]), h1]
    rfl
  simp only [DES.DecryptBlock, hne, if_false, hx1, bind_ok_eq, hfd, hp, pure_eq_ok]

/-- Encryption with the keyed DES block cipher succeeds on every 8-byte input. -/
theorem des_encrypt_ok (rks : List (List Nat)) (hlen : rks.length = 16)
    (hall : ∀ k ∈ rks, k.length = 6) (x : List Nat) (hx : x.length = 8) :
    ∃ c, (DES.mk { desFeistel with roundKeys := rks }).EncryptBlock x = .ok c ∧
      c.length = 8 := by
  obtain ⟨x1, hx1, hx1l, _, _⟩ := permuteBits_spec x initialPermutation
    (by rw [hx]; exact initialPermutation_range)
  have hx1l8 : x1.length = 8 := by rw [hx1l]; rfl
  obtain ⟨z, hz, hzl, _⟩ := feistel_roundtrip_core { desFeistel with roundKeys := rks } x1
    (by show (rks.length : Int) = 16; rw [hlen]; rfl)
    (by show (x1.length : Int) = 8; rw [hx1l8]; rfl) rfl
    (by
      rw [hx1l8]
      exact roundsSucceed_des rks _ _ (fun k hk => by rw [hall k hk])
        (by simp [hx1l8]) (by simp [hx1l8]))
  obtain ⟨c, hc, hcl, _, _⟩ := permuteBits_spec z finalPermutation
    (by rw [hzl, hx1l8]; exact finalPermutation_range)
  refine ⟨c, ?_, by rw [hcl]; rfl⟩
  have hne : ¬ (x.length ≠ 8) := by simp [hx]
  simp only [DES.EncryptBlock, hne, if_false, hx1, bind_ok_eq, hz, hc, pure_eq_ok]

/-- Claim C17. `DES.EncryptBlock` and `DES.DecryptBlock` return an error for every input
whose length is not 8 bytes, and `FeistelCipher.EncryptBlock` and `DecryptBlock` return
an error for every input whose length differs from the configured block size; once
`SetKey` has succeeded on the cipher built by `NewDES` (which needs an 8-byte key),
`DES.EncryptBlock` and `DES.DecryptBlock` succeed on every 8-byte input and return 8
bytes, without a panic. -/
theorem C17_block_size_rejection :
    (∀ (d : DES) (x : List Nat), x.length ≠ 8 →
      d.EncryptBlock x = .error Err.desBlockLength ∧
      d.DecryptBlock x = .error Err.desBlockLength) ∧
    (∀ (fc : FeistelCipher) (x : List Nat), (x.length : Int) ≠ fc.blockSize →
      fc.EncryptBlock x = .error Err.wrongBlockSize ∧
      fc.DecryptBlock x = .error Err.wrongBlockSize) ∧
    (∀ (key : List Nat) (d0 d : DES), NewDES = .ok d0 → d0.SetKey key = .ok d →
      key.length = 8 ∧
      ∀ x : List Nat, x.length = 8 →
        (∃ c, d.EncryptBlock x = .ok c ∧ c.length = 8) ∧
        (∃ p, d.DecryptBlock x = .ok p ∧ p.length = 8)) := by
  refine ⟨?_, ?_, ?_⟩
  · intro d x hx
    simp only [DES.EncryptBlock, DES.DecryptBlock, hx, ne_eq, not_false_eq_true, if_true,
      and_self]
  · intro fc x hx
    simp only [FeistelCipher.EncryptBlock, FeistelCipher.DecryptBlock, hx, ne_eq,
      not_false_eq_true, if_true, and_self]
  · intro key d0 d h0 h
    obtain ⟨rks, hd, hlen, h8, hall⟩ := DES_SetKey_ok key d0 d h0 h
    have hdd : d = DES.mk { desFeistel with roundKeys := rks } := by
      cases d
      simp only at hd
      rw [hd]
    refine ⟨h8, fun x hx => ?_⟩
    rw [hdd]
    exact ⟨des_encrypt_ok rks hlen hall x hx, des_decrypt_ok rks hlen hall x hx⟩

end BlockSizeChecks

section CBC

open CryptoContext

theorem cbcEncryptStep_ok (ctx : CryptoContext) (bs : Nat)
    (henc : EncryptsOn ctx.transform ctx.roundKeys bs) (a prev : List Nat)
    (ha : a.length = bs) (hp : prev.length = bs) :
    ∃ y, ctx.encryptBlock (xorBlocks a prev) = .ok y ∧ y.length = bs ∧
      ctx.cbcEncryptStep bs a prev = .ok (y, y) := by
  obtain ⟨y, h1, h2⟩ := encryptBlock_ok ctx bs henc (xorBlocks a prev)
    (by rw [xorBlocks_length, ha, hp]; simp)
  refine ⟨y, h1, h2, ?_⟩
  simp only [CryptoContext.cbcEncryptStep, fullBlock_ok _ _ ha, bind_ok_eq, h1, pure_eq_ok]

/-- The loop of `encryptCBC` on `m` blocks: block `i` of the result is the encryption of
block `i` of the data XORed with the previous result block (the initial `prevBlock` for
`i = 0`). -/
theorem cbc_encrypt_blocks (ctx : CryptoContext) (bs : Nat) (hbs : 0 < bs)
    (henc : EncryptsOn ctx.transform ctx.roundKeys bs) :
    ∀ (m : Nat) (data prev : List Nat), data.length = m * bs → prev.length = bs →
      ∃ c, chainLoop bs (ctx.cbcEncryptStep bs) data.length data prev = .ok c ∧
        c.length = data.length ∧
        ∀ i, i < m → ctx.encryptBlock (xorBlocks (blockAt data bs i)
          (if i = 0 then prev else blockAt c bs (i - 1))) = .ok (blockAt c bs i) := by
  intro m
  induction m with
  | zero =>
      intro data prev hlen _
      have : data = [] := List.length_eq_zero.mp (by simpa using hlen)
      subst this
      exact ⟨[], rfl, rfl, fun i hi => absurd hi (Nat.not_lt_zero _)⟩
  | succ m ih =>
      intro data prev hlen hp
      have hsplit : data = data.take bs ++ data.drop bs := (List.take_append_drop _ _).symm
      have hmb : (m + 1) * bs = m * bs + bs := by ring
      have hta : (data.take bs).length = bs := by rw [List.length_take]; omega
      have hdl : (data.drop bs).length = m * bs := by rw [List.length_drop]; omega
      obtain ⟨y, hy, hyl, hstep⟩ := cbcEncryptStep_ok ctx bs henc (data.take bs) prev hta hp
      obtain ⟨tail, htail, htl, hblocks⟩ := ih (data.drop bs) y hdl hyl
      have hfit : copyBytes (makeBytes bs) y = y :=
        copyBytes_same_length _ _ (by rw [makeBytes_length, hyl])
      refine ⟨y ++ tail, ?_, ?_, ?_⟩
      · rw [hsplit, chainLoop_append_block bs hbs _ _ _ y prev y hta hstep, htail, hfit]
        rfl
      · rw [List.length_append, hyl, htl, hlen, hdl]; omega
      · intro i hi
        cases i with
        | zero =>
            rw [blockAt_zero_append _ _ _ hyl]
            have hb0 : blockAt data bs 0 = data.take bs := by
              rw [hsplit, blockAt_zero_append _ _ _ hta, ← hsplit]
            rw [hb0, if_pos rfl]
            exact hy
        | succ i =>
            have h1 := hblocks i (by omega)
            have hbd : blockAt data bs (i + 1) = blockAt (data.drop bs) bs i := by
              rw [hsplit, blockAt_succ_append _ _ _ _ hta, ← hsplit]
            rw [blockAt_succ_append _ _ _ _ hyl, hbd, if_neg (Nat.succ_ne_zero i),
              Nat.add_sub_cancel]
            cases i with
            | zero =>
                rw [blockAt_zero_append _ _ _ hyl]
                rw [if_pos rfl] at h1
                exact h1
            | succ j =>
                rw [blockAt_succ_append _ _ _ _ hyl]
                rw [if_neg (Nat.succ_ne_zero j), Nat.add_sub_cancel] at h1
                exact h1

/-- Claim C20. For block-aligned `P`, an IV of block length and a round transformation
whose `DecryptBlock(., k)` is a length-preserving inverse of `EncryptBlock(., k)` on
block-sized inputs for each round key (block size `len(roundKeys[0]) ≥ 1`): `encryptCBC P`
succeeds with `C` of the same length, `C_i = E(P_i XOR C_(i-1))` with `C_(-1) = IV`,
`D(C_i) = P_i XOR C_(i-1)`, and `decryptCBC C = P`, where `E` and `D` are the engine's
`encryptBlock` and `decryptBlock`. -/
theorem C20_cbc_chaining (ctx : CryptoContext) (k : List Nat) (ks : List (List Nat))
    (iv P : List Nat) (hk : ctx.roundKeys = k :: ks) (hpos : 0 < k.length)
    (hiv : ctx.iv = some iv) (hivl : iv.length = k.length)
    (hinv : InverseOn ctx.transform ctx.roundKeys k.length)
    (hP : P.length % k.length = 0) :
    ∃ C, ctx.encryptCBC P = .ok C ∧ C.length = P.length ∧
      (∀ i, i * k.length < P.length →
        ctx.encryptBlock (xorBlocks (blockAt P k.length i)
          (if i = 0 then iv else blockAt C k.length (i - 1))) = .ok (blockAt C k.length i) ∧
        ctx.decryptBlock (blockAt C k.length i) = .ok (xorBlocks (blockAt P k.length i)
          (if i = 0 then iv else blockAt C k.length (i - 1)))) ∧
      ctx.decryptCBC C = .ok P := by
  obtain ⟨hlen, hiff⟩ := aligned_blocks P.length k.length hpos hP
  obtain ⟨C, h1, h2, h3⟩ := cbc_encrypt_blocks ctx k.length hpos hinv.encryptsOn
    (P.length / k.length) P iv hlen hivl
  have henc : ctx.encryptCBC P = .ok C := by
    simp only [CryptoContext.encryptCBC, blockSize_eq ctx k ks hk, bind_ok_eq,
      checkAligned_ok P _ hpos hP, checkedIV_ok ctx iv _ hiv hivl, h1]
  obtain ⟨C2, e1, _, e3⟩ := cbc_roundtrip ctx k ks iv hk hpos hiv hivl hinv P hP
  have hCC : C2 = C := by
    rw [henc] at e1
    simp only [Except.ok.injEq] at e1
    exact e1.symm
  subst hCC
  refine ⟨C2, henc, h2, fun i hi => ?_, e3⟩
  have hi2 := (hiff i).mp hi
  have hE := h3 i hi2
  refine ⟨hE, ?_⟩
  have hbl : (blockAt P k.length i).length = k.length := by
    apply blockAt_length
    have : (i + 1) * k.length ≤ (P.length / k.length) * k.length :=
      Nat.mul_le_mul_right _ hi2
    omega
  have hprev : (if i = 0 then iv else blockAt C2 k.length (i - 1)).length = k.length := by
    split_ifs with h0
    · exact hivl
    · apply blockAt_length
      have : (i - 1 + 1) * k.length ≤ (P.length / k.length) * k.length :=
        Nat.mul_le_mul_right _ (by omega)
      omega
  obtain ⟨y, hy1, _, hy3⟩ := encryptBlock_decryptBlock ctx k.length hinv
    (xorBlocks (blockAt P k.length i) (if i = 0 then iv else blockAt C2 k.length (i - 1)))
    (by rw [xorBlocks_length, hbl, hprev]; simp)
  rw [hE] at hy1
  simp only [Except.ok.injEq] at hy1
  rw [hy1]
  exact hy3

/-- Witness for C20: block size 4, two blocks. -/
theorem C20_cbc_chaining_witness :
    ((testContext 4 .CBC .PKCS7).roundKeys = [0, 0, 0, 0] :: [[0, 0, 0, 0], [0, 0, 0, 0]] ∧
      (testContext 4 .CBC .PKCS7).iv = some [0, 1, 2, 3] ∧
      [1, 2, 3, 4, 5, 6, 7, 8].length % [0, 0, 0, 0].length = 0) ∧
    ∃ C, (testContext 4 .CBC .PKCS7).encryptCBC [1, 2, 3, 4, 5, 6, 7, 8] = .ok C ∧
      C.length = [1, 2, 3, 4, 5, 6, 7, 8].length ∧
      (∀ i, i * [0, 0, 0, 0].length < [1, 2, 3, 4, 5, 6, 7, 8].length →
        (testContext 4 .CBC .PKCS7).encryptBlock
            (xorBlocks (blockAt [1, 2, 3, 4, 5, 6, 7, 8] [0, 0, 0, 0].length i)
              (if i = 0 then [0, 1, 2, 3] else blockAt C [0, 0, 0, 0].length (i - 1)))
          = .ok (blockAt C [0, 0, 0, 0].length i) ∧
        (testContext 4 .CBC .PKCS7).decryptBlock (blockAt C [0, 0, 0, 0].length i)
          = .ok (xorBlocks (blockAt [1, 2, 3, 4, 5, 6, 7, 8] [0, 0, 0, 0].length i)
              (if i = 0 then [0, 1, 2, 3] else blockAt C [0, 0, 0, 0].length (i - 1)))) ∧
      (testContext 4 .CBC .PKCS7).decryptCBC C = .ok [1, 2, 3, 4, 5, 6, 7, 8] :=
  ⟨⟨rfl, rfl, by decide⟩,
    C20_cbc_chaining (testContext 4 .CBC .PKCS7) [0, 0, 0, 0] [[0, 0, 0, 0], [0, 0, 0, 0]]
      [0, 1, 2, 3] [1, 2, 3, 4, 5, 6, 7, 8] rfl (by decide) rfl rfl (reverse_inverseOn _ _)
      (by decide)⟩

end CBC

section PartialBlock

open CryptoContext

theorem chainState_fuel {σ : Type} (bs : Nat) (hbs : 0 < bs)
    (step : List Nat → σ → Except Err (List Nat × σ)) :
    ∀ (f1 f2 : Nat) (data : List Nat) (s : σ), data.length ≤ f1 → data.length ≤ f2 →
      chainState bs step f1 data s = chainState bs step f2 data s := by
  intro f1
  induction f1 with
  | zero =>
      intro f2 data s h1 _
      have : data = [] := List.length_eq_zero.mp (by omega)
      subst this
      cases f2 <;> rfl
  | succ f1 ih =>
      intro f2 data s h1 h2
      cases data with
      | nil => cases f2 <;> rfl
      | cons b rest =>
          cases f2 with
          | zero => simp at h2
          | succ f2 =>
              simp only [chainState]
              have hd : ((b :: rest).drop bs).length ≤ f1 := by
                simp only [List.length_drop, List.length_cons] at h1 ⊢; omega
              have hd2 : ((b :: rest).drop bs).length ≤ f2 := by
                simp only [List.length_drop, List.length_cons] at h2 ⊢; omega
              congr 1
              funext x
              obtain ⟨out, s1⟩ := x
              simp only
              rw [ih f2 _ s1 hd hd2]

theorem chainState_append_block {σ : Type} (bs : Nat) (hbs : 0 < bs)
    (step : List Nat → σ → Except Err (List Nat × σ)) (a rest y : List Nat) (s s1 : σ)
    (ha : a.length = bs) (hstep : step a s = .ok (y, s1)) :
    chainState bs step (a ++ rest).length (a ++ rest) s
      = chainState bs step rest.length rest s1 := by
  have htake : (a ++ rest).take bs = a := by rw [← ha, List.take_left']; rfl
  have hdrop : (a ++ rest).drop bs = rest := by rw [← ha, List.drop_left']; rfl
  cases hab : a ++ rest with
  | nil =>
      have : (a ++ rest).length = 0 := by rw [hab]; rfl
      rw [List.length_append] at this
      omega
  | cons b tl =>
      have hl : (b :: tl).length = tl.length + 1 := rfl
      rw [hl]
      simp only [chainState]
      rw [← hab, htake, hdrop, hstep, bind_ok_eq]
      simp only
      exact chainState_fuel bs hbs step _ _ rest s1 (by
        have : (a ++ rest).length = tl.length + 1 := by rw [hab]; rfl
        rw [List.length_append] at this
        omega) (le_refl _)

/-- A mode loop whose body succeeds on every chunk, with as many bytes as the chunk,
succeeds with as many bytes as the data. -/
theorem chainLoop_total {σ : Type} (bs : Nat) (hbs : 0 < bs) (al : Prop)
    (step : List Nat → σ → Except Err (List Nat × σ)) (Inv : σ → Prop)
    (hstep : ∀ chunk s, Inv s → 0 < chunk.length → chunk.length ≤ bs →
      (al → chunk.length = bs) →
      ∃ out s1, step chunk s = .ok (out, s1) ∧ out.length = chunk.length ∧ Inv s1) :
    ∀ (n : Nat) (data : List Nat) (s : σ), data.length ≤ n →
      (al → data.length % bs = 0) → Inv s →
      ∃ out, chainLoop bs step data.length data s = .ok out ∧ out.length = data.length := by
  intro n
  induction n with
  | zero =>
      intro data s hn _ _
      have : data = [] := List.length_eq_zero.mp (by omega)
      subst this
      exact ⟨[], rfl, rfl⟩
  | succ n ih =>
      intro data s hn hal hinv
      by_cases hne : data = []
      · subst hne; exact ⟨[], rfl, rfl⟩
      · have hpos : 0 < data.length := List.length_pos.mpr hne
        have htl : (data.take bs).length = min bs data.length := List.length_take _ _
        have hdl : (data.drop bs).length = data.length - bs := List.length_drop _ _
        have hfull : al → (data.take bs).length = bs := by
          intro h
          have : bs ≤ data.length := Nat.le_of_dvd hpos (Nat.dvd_of_mod_eq_zero (hal h))
          rw [htl]; omega
        obtain ⟨out, s1, h1, h2, h3⟩ := hstep (data.take bs) s hinv (by rw [htl]; omega)
          (by rw [htl]; omega) hfull
        obtain ⟨tail, h4, h5⟩ := ih (data.drop bs) s1 (by rw [hdl]; omega)
          (fun h => by
            rw [hdl]
            exact Nat.sub_mod_eq_zero_of_mod_eq (by rw [hal h, Nat.mod_self])) h3
        refine ⟨out ++ tail, ?_, by rw [List.length_append, h2, h5, htl, hdl]; omega⟩
        rw [chainLoop_unfold bs hbs step _ data s hne (le_refl _), h1, bind_ok_eq]
        simp only
        rw [h4, bind_ok_eq, pure_eq_ok, copyBytes_same_length _ _ (by rw [makeBytes_length, h2])]

/-- A mode loop on full blocks followed by a last chunk: the output is the output on the
full blocks followed by the output of the body on the last chunk, run in the state
reached after the full blocks. -/
theorem chainLoop_full_then_last {σ : Type} (bs : Nat) (hbs : 0 < bs)
    (step : List Nat → σ → Except Err (List Nat × σ)) (Inv : σ → Prop)
    (hstep : ∀ chunk s, Inv s → 0 < chunk.length → chunk.length ≤ bs →
      ∃ out s1, step chunk s = .ok (out, s1) ∧ out.length = chunk.length ∧ Inv s1) :
    ∀ (m : Nat) (full last : List Nat) (s : σ), full.length = m * bs →
      0 < last.length → last.length ≤ bs → Inv s →
      ∃ outFull s1 o s2, chainLoop bs step full.length full s = .ok outFull ∧
        chainState bs step full.length full s = .ok s1 ∧ Inv s1 ∧
        step last s1 = .ok (o, s2) ∧ o.length = last.length ∧
        chainLoop bs step (full ++ last).length (full ++ last) s = .ok (outFull ++ o) := by
  intro m
  induction m with
  | zero =>
      intro full last s hlen hl0 hl hinv
      have : full = [] := List.length_eq_zero.mp (by simpa using hlen)
      subst this
      obtain ⟨o, s2, h1, h2, _⟩ := hstep last s hinv hl0 hl
      refine ⟨[], s, o, s2, rfl, rfl, hinv, h1, h2, ?_⟩
      have hne : last ≠ [] := List.length_pos.mp hl0
      simp only [List.nil_append]
      rw [chainLoop_unfold bs hbs step _ last s hne (le_refl _),
        List.take_of_length_le hl, List.drop_of_length_le hl, h1, bind_ok_eq]
      simp only [List.length_nil]
      rw [chainLoop_nil, bind_ok_eq, pure_eq_ok,
        copyBytes_same_length _ _ (by rw [makeBytes_length, h2])]
      simp
  | succ m ih =>
      intro full last s hlen hl0 hl hinv
      have hsplit : full = full.take bs ++ full.drop bs := (List.take_append_drop _ _).symm
      have hmb : (m + 1) * bs = m * bs + bs := by ring
      have hta : (full.take bs).length = bs := by rw [List.length_take]; omega
      have hdl : (full.drop bs).length = m * bs := by rw [List.length_drop]; omega
      obtain ⟨y, s1, h1, h2, h3⟩ := hstep (full.take bs) s hinv (by omega) (by omega)
      have hfit : copyBytes (makeBytes bs) y = y :=
        copyBytes_same_length _ _ (by rw [makeBytes_length, h2, hta])
      obtain ⟨outFull, sf, o, s2, e1, e2, e3, e4, e5, e6⟩ :=
        ih (full.drop bs) last s1 hdl hl0 hl h3
      refine ⟨y ++ outFull, sf, o, s2, ?_, ?_, e3, e4, e5, ?_⟩
      · rw [hsplit, chainLoop_append_block bs hbs step _ _ y s s1 hta h1, e1, hfit]
        rfl
      · rw [hsplit, chainState_append_block bs hbs step _ _ y s s1 hta h1, e2]
      · have e7 : full ++ last = full.take bs ++ (full.drop bs ++ last) := by
          rw [← List.append_assoc, ← hsplit]
        rw [e7, chainLoop_append_block bs hbs step _ _ y s s1 hta h1, e6, hfit]
        simp [bind_ok_eq, pure_eq_ok]

/-- A streaming loop whose body XORs the chunk with the start of the keystream block
`encBlock state` handles a partial final block. -/
theorem stream_last_chunk (bs : Nat) (hbs : 0 < bs)
    (step : List Nat → List Nat → Except Err (List Nat × List Nat))
    (encBlock : List Nat → Except Err (List Nat))
    (hstep : ∀ chunk s, s.length = bs → 0 < chunk.length → chunk.length ≤ bs →
      ∃ ks s1, encBlock s = .ok ks ∧ ks.length = bs ∧
        step chunk s = .ok (xorBlocks chunk (ks.take chunk.length), s1) ∧ s1.length = bs)
    (iv : List Nat) (hiv : iv.length = bs) :
    StreamsPartialBlock (fun data => chainLoop bs step data.length data iv) encBlock
      (fun full => chainState bs step full.length full iv) bs := by
  have hstep2 : ∀ chunk s, s.length = bs → 0 < chunk.length → chunk.length ≤ bs →
      ∃ out s1, step chunk s = .ok (out, s1) ∧ out.length = chunk.length ∧ s1.length = bs := by
    intro chunk s hs h0 hle
    obtain ⟨ks, s1, _, h2, h3, h4⟩ := hstep chunk s hs h0 hle
    refine ⟨_, s1, h3, ?_, h4⟩
    rw [xorBlocks_length, List.length_take, h2]; omega
  refine ⟨fun data => chainLoop_total bs hbs False step (fun s => s.length = bs)
    (fun chunk s h1 h2 h3 _ => hstep2 chunk s h1 h2 h3)
    data.length data iv (le_refl _) (fun h => absurd h id) hiv, ?_⟩
  intro full last hal hl0 hl
  obtain ⟨hlen, _⟩ := aligned_blocks full.length bs hbs hal
  obtain ⟨outFull, s1, o, s2, e1, e2, e3, e4, _, e6⟩ :=
    chainLoop_full_then_last bs hbs step (fun s => s.length = bs) hstep2
      (full.length / bs) full last iv hlen hl0 (by omega) hiv
  obtain ⟨ks, s3, k1, k2, k3, _⟩ := hstep last s1 e3 hl0 (by omega)
  rw [e4] at k3
  simp only [Except.ok.injEq, Prod.mk.injEq] at k3
  refine ⟨outFull, s1, ks, e1, e2, k1, k2, ?_⟩
  simp only
  rw [e6, k3.1]

theorem cfbEncryptStep_stream (ctx : CryptoContext) (bs : Nat)
    (henc : EncryptsOn ctx.transform ctx.roundKeys bs) (chunk s : List Nat)
    (hs : s.length = bs) (_h0 : 0 < chunk.length) (hle : chunk.length ≤ bs) :
    ∃ ks s1, ctx.encryptBlock s = .ok ks ∧ ks.length = bs ∧
      ctx.cfbEncryptStep bs chunk s = .ok (xorBlocks chunk (ks.take chunk.length), s1) ∧
      s1.length = bs := by
  obtain ⟨es, e1, e2⟩ := encryptBlock_ok ctx bs henc s hs
  have hcl : (xorBlocks chunk (es.take chunk.length)).length = chunk.length := by
    rw [xorBlocks_length, List.length_take, e2]; omega
  obtain ⟨sh, shl⟩ := shiftStream_ok s (xorBlocks chunk (es.take chunk.length))
    chunk.length bs hs hcl hle
  refine ⟨es, _, e1, e2, ?_, shl⟩
  simp only [CryptoContext.cfbEncryptStep, e1, bind_ok_eq,
    slicePrefix_ok es chunk.length (by omega), sh, pure_eq_ok]

theorem cfbDecryptStep_stream (ctx : CryptoContext) (bs : Nat)
    (henc : EncryptsOn ctx.transform ctx.roundKeys bs) (chunk s : List Nat)
    (hs : s.length = bs) (_h0 : 0 < chunk.length) (hle : chunk.length ≤ bs) :
    ∃ ks s1, ctx.encryptBlock s = .ok ks ∧ ks.length = bs ∧
      ctx.cfbDecryptStep bs chunk s = .ok (xorBlocks chunk (ks.take chunk.length), s1) ∧
      s1.length = bs := by
  obtain ⟨es, e1, e2⟩ := encryptBlock_ok ctx bs henc s hs
  obtain ⟨sh, shl⟩ := shiftStream_ok s chunk chunk.length bs hs rfl hle
  refine ⟨es, _, e1, e2, ?_, shl⟩
  simp only [CryptoContext.cfbDecryptStep, e1, bind_ok_eq,
    slicePrefix_ok es chunk.length (by omega), sh, pure_eq_ok]

theorem ofbStep_stream (ctx : CryptoContext) (bs : Nat)
    (henc : EncryptsOn ctx.transform ctx.roundKeys bs) (chunk s : List Nat)
    (hs : s.length = bs) (_h0 : 0 < chunk.length) (hle : chunk.length ≤ bs) :
    ∃ ks s1, ctx.encryptBlock s = .ok ks ∧ ks.length = bs ∧
      ctx.ofbStep chunk s = .ok (xorBlocks chunk (ks.take chunk.length), s1) ∧
      s1.length = bs := by
  obtain ⟨es, e1, e2⟩ := encryptBlock_ok ctx bs henc s hs
  refine ⟨es, es, e1, e2, ?_, e2⟩
  simp only [CryptoContext.ofbStep, e1, bind_ok_eq,
    slicePrefix_ok es chunk.length (by omega), pure_eq_ok]

theorem ctrStep_stream (ctx : CryptoContext) (bs : Nat)
    (henc : EncryptsOn ctx.transform ctx.roundKeys bs) (chunk s : List Nat)
    (hs : s.length = bs) (_h0 : 0 < chunk.length) (hle : chunk.length ≤ bs) :
    ∃ ks s1, ctx.encryptBlock s = .ok ks ∧ ks.length = bs ∧
      ctx.ctrStep chunk s = .ok (xorBlocks chunk (ks.take chunk.length), s1) ∧
      s1.length = bs := by
  obtain ⟨es, e1, e2⟩ := encryptBlock_ok ctx bs henc s hs
  refine ⟨es, incrementCounter s, e1, e2, ?_, by rw [incrementCounter_length, hs]⟩
  simp only [CryptoContext.ctrStep, e1, bind_ok_eq,
    slicePrefix_ok es chunk.length (by omega), pure_eq_ok]

/-- Claim C12. With a block size `bs = len(roundKeys[0]) ≥ 1`, an IV of block length and
a transformation that encrypts block-sized inputs to block-sized outputs, `encryptCFB`,
`decryptCFB`, `processOFB` and `processCTR` succeed on every input, of any length `n`,
and return exactly `n` bytes; when the input is full blocks followed by a last chunk of
`L < bs` bytes, the last `L` output bytes are that chunk XORed with the first `L` bytes of
the keystream block, the encryption of the chaining state reached after the full blocks
(no slice is taken out of range: every run ends without a panic). -/
theorem C12_partial_final_block (ctx : CryptoContext) (k : List Nat)
    (ks : List (List Nat)) (iv : List Nat) (hk : ctx.roundKeys = k :: ks)
    (hpos : 0 < k.length) (hiv : ctx.iv = some iv) (hivl : iv.length = k.length)
    (henc : EncryptsOn ctx.transform ctx.roundKeys k.length) :
    StreamsPartialBlock ctx.encryptCFB ctx.encryptBlock
      (fun full => chainState k.length (ctx.cfbEncryptStep k.length) full.length full iv)
      k.length ∧
    StreamsPartialBlock ctx.decryptCFB ctx.encryptBlock
      (fun full => chainState k.length (ctx.cfbDecryptStep k.length) full.length full iv)
      k.length ∧
    StreamsPartialBlock ctx.processOFB ctx.encryptBlock
      (fun full => chainState k.length ctx.ofbStep full.length full iv) k.length ∧
    StreamsPartialBlock ctx.processCTR ctx.encryptBlock
      (fun full => chainState k.length ctx.ctrStep full.length full iv) k.length := by
  have hb := blockSize_eq ctx k ks hk
  have hc := checkedIV_ok ctx iv _ hiv hivl
  have hcp : copyBytes (makeBytes k.length) iv = iv :=
    copyBytes_same_length _ _ (by rw [makeBytes_length, hivl])
  have m1 : ctx.encryptCFB
      = fun data => chainLoop k.length (ctx.cfbEncryptStep k.length) data.length data iv := by
    funext data
    simp only [CryptoContext.encryptCFB, hb, bind_ok_eq, hc]
  have m2 : ctx.decryptCFB
      = fun data => chainLoop k.length (ctx.cfbDecryptStep k.length) data.length data iv := by
    funext data
    simp only [CryptoContext.decryptCFB, hb, bind_ok_eq, hc]
  have m3 : ctx.processOFB
      = fun data => chainLoop k.length ctx.ofbStep data.length data iv := by
    funext data
    simp only [CryptoContext.processOFB, hb, bind_ok_eq, hc]
  have m4 : ctx.processCTR
      = fun data => chainLoop k.length ctx.ctrStep data.length data iv := by
    funext data
    simp only [CryptoContext.processCTR, hb, bind_ok_eq, hc, hcp]
  rw [m1, m2, m3, m4]
  exact ⟨stream_last_chunk k.length hpos _ _ (cfbEncryptStep_stream ctx k.length henc) iv hivl,
    stream_last_chunk k.length hpos _ _ (cfbDecryptStep_stream ctx k.length henc) iv hivl,
    stream_last_chunk k.length hpos _ _ (ofbStep_stream ctx k.length henc) iv hivl,
    stream_last_chunk k.length hpos _ _ (ctrStep_stream ctx k.length henc) iv hivl⟩

/-- Witness for C12: block size 4, and on the 6-byte input `01 .. 06` in CTR mode the
last two output bytes are `05 06` XORed with the first two bytes of the encryption of
the counter `IV + 1`. -/
theorem C12_partial_final_block_witness :
    ((testContext 4 .CTR .PKCS7).roundKeys = [0, 0, 0, 0] :: [[0, 0, 0, 0], [0, 0, 0, 0]] ∧
      (testContext 4 .CTR .PKCS7).iv = some [0, 1, 2, 3]) ∧
    ∃ outFull s ks, (testContext 4 .CTR .PKCS7).processCTR [1, 2, 3, 4] = .ok outFull ∧
      chainState 4 (testContext 4 .CTR .PKCS7).ctrStep 4 [1, 2, 3, 4] [0, 1, 2, 3] = .ok s ∧
      (testContext 4 .CTR .PKCS7).encryptBlock s = .ok ks ∧ ks.length = 4 ∧
      (testContext 4 .CTR .PKCS7).processCTR ([1, 2, 3, 4] ++ [5, 6])
        = .ok (outFull ++ xorBlocks [5, 6] (ks.take 2)) :=
  ⟨⟨rfl, rfl⟩,
    (C12_partial_final_block (testContext 4 .CTR .PKCS7) [0, 0, 0, 0]
      [[0, 0, 0, 0], [0, 0, 0, 0]] [0, 1, 2, 3] rfl (by decide) rfl rfl
      (reverse_inverseOn _ _).encryptsOn).2.2.2.2 [1, 2, 3, 4] [5, 6] (by decide)
      (by decide) (by decide)⟩

end PartialBlock

section IVChecks

open CryptoContext

theorem checkedIV_bad (ctx : CryptoContext) (bs : Nat)
    (hbad : ctx.iv = none ∨ ∃ iv, ctx.iv = some iv ∧ iv.length ≠ bs) :
    ctx.checkedIV bs = .error Err.invalidIV := by
  rcases hbad with h | ⟨iv, h, hl⟩
  · simp [CryptoContext.checkedIV, h]
  · simp [CryptoContext.checkedIV, h, hl]

theorem checkAligned_cases (data : List Nat) (bs : Nat) (hbs : 0 < bs) :
    checkAligned data bs = .ok () ∨ checkAligned data bs = .error Err.notBlockMultiple := by
  have h0 : ¬ (bs = 0) := by omega
  by_cases h : data.length % bs = 0
  · left; simp [checkAligned, h0, h]
  · right; simp [checkAligned, h0, h]

/-- With a missing or wrongly sized IV every chaining mode other than ECB fails, in
both directions: the streaming modes with the IV error, the block modes with the IV
error or, on unaligned data, with the alignment error. -/
theorem modes_fail_bad_iv (ctx : CryptoContext) (k : List Nat) (ks : List (List Nat))
    (hk : ctx.roundKeys = k :: ks) (hpos : 0 < k.length)
    (hbad : ctx.iv = none ∨ ∃ iv, ctx.iv = some iv ∧ iv.length ≠ k.length) (q : List Nat) :
    (ctx.encryptCBC q = .error Err.invalidIV ∨ ctx.encryptCBC q = .error Err.notBlockMultiple) ∧
    (ctx.decryptCBC q = .error Err.invalidIV ∨ ctx.decryptCBC q = .error Err.notBlockMultiple) ∧
    (ctx.encryptPCBC q = .error Err.invalidIV ∨
      ctx.encryptPCBC q = .error Err.notBlockMultiple) ∧
    (ctx.decryptPCBC q = .error Err.invalidIV ∨
      ctx.decryptPCBC q = .error Err.notBlockMultiple) ∧
    ctx.encryptCFB q = .error Err.invalidIV ∧ ctx.decryptCFB q = .error Err.invalidIV ∧
    ctx.processOFB q = .error Err.invalidIV ∧ ctx.processCTR q = .error Err.invalidIV := by
  have hb := blockSize_eq ctx k ks hk
  have hc := checkedIV_bad ctx k.length hbad
  refine ⟨?_, ?_, ?_, ?_, ?_, ?_, ?_, ?_⟩
  · rcases checkAligned_cases q k.length hpos with h | h
    · left; simp only [CryptoContext.encryptCBC, hb, bind_ok_eq, h, hc, bind_error_eq]
    · right; simp only [CryptoContext.encryptCBC, hb, bind_ok_eq, h, bind_error_eq]
  · rcases checkAligned_cases q k.length hpos with h | h
    · left; simp only [CryptoContext.decryptCBC, hb, bind_ok_eq, h, hc, bind_error_eq]
    · right; simp only [CryptoContext.decryptCBC, hb, bind_ok_eq, h, bind_error_eq]
  · rcases checkAligned_cases q k.length hpos with h | h
    · left; simp only [CryptoContext.encryptPCBC, hb, bind_ok_eq, h, hc, bind_error_eq]
    · right; simp only [CryptoContext.encryptPCBC, hb, bind_ok_eq, h, bind_error_eq]
  · rcases checkAligned_cases q k.length hpos with h | h
    · left; simp only [CryptoContext.decryptPCBC, hb, bind_ok_eq, h, hc, bind_error_eq]
    · right; simp only [CryptoContext.decryptPCBC, hb, bind_ok_eq, h, bind_error_eq]
  · simp only [CryptoContext.encryptCFB, hb, bind_ok_eq, hc, bind_error_eq]
  · simp only [CryptoContext.decryptCFB, hb, bind_ok_eq, hc, bind_error_eq]
  · simp only [CryptoContext.processOFB, hb, bind_ok_eq, hc, bind_error_eq]
  · simp only [CryptoContext.processCTR, hb, bind_ok_eq, hc, bind_error_eq]

/-- The outcomes of `applyPadding` with a positive block size: a padded buffer, the
error of an invalid padding mode, or (ISO10126 only) the error of the random source. -/
theorem applyPadding_cases (rnd : RandSource) (ctx : CryptoContext) (data k : List Nat)
    (ks : List (List Nat)) (hk : ctx.roundKeys = k :: ks) (hpos : 0 < k.length) :
    (∃ q, ctx.applyPadding rnd data = .ok q) ∨
    ctx.applyPadding rnd data = .error Err.unsupportedPadding ∨
    (∃ e, rnd 0 = .error e ∧ ctx.applyPadding rnd data = .error e) := by
  have hlt : data.length % k.length < k.length := Nat.mod_lt _ hpos
  rw [applyPadding_eq rnd ctx data k ks hk hpos]
  cases hp : ctx.padding with
  | Zeros => exact Or.inl ⟨_, rfl⟩
  | ANSIX923 => exact Or.inl ⟨_, applyANSIX923Padding_eq data _ k.length (by omega)⟩
  | PKCS7 => exact Or.inl ⟨_, rfl⟩
  | ISO10126 =>
      cases hr : rnd 0 with
      | ok f => exact Or.inl ⟨_, applyISO10126Padding_eq rnd f hr data _ (by omega)⟩
      | error e =>
          refine Or.inr (Or.inr ⟨e, rfl, ?_⟩)
          have h0 : ¬ (k.length - data.length % k.length = 0) := by omega
          simp only [applyISO10126Padding, h0, if_false, randRead, hr, bind_error_eq]
  | invalid => exact Or.inr (Or.inl rfl)

/-- ECB encryption of block-aligned data succeeds when the transformation encrypts
block-sized inputs to block-sized outputs. -/
theorem encryptECB_ok (ctx : CryptoContext) (k : List Nat) (ks : List (List Nat))
    (hk : ctx.roundKeys = k :: ks) (hpos : 0 < k.length)
    (henc : EncryptsOn ctx.transform ctx.roundKeys k.length) (q : List Nat)
    (hq : q.length % k.length = 0) :
    ∃ c, ctx.encryptECB q = .ok c ∧ c.length = q.length := by
  obtain ⟨c, h1, h2⟩ := chainLoop_total k.length hpos True (ctx.ecbEncryptStep k.length)
    (fun _ => True)
    (by
      intro chunk s _ _ _ hfull
      obtain ⟨y, e1, e2⟩ := encryptChain_ok ctx.transform k.length ctx.roundKeys chunk henc
        (hfull trivial)
      refine ⟨y, (), ?_, by rw [e2, hfull trivial], trivial⟩
      simp only [CryptoContext.ecbEncryptStep, fullBlock_ok _ _ (hfull trivial), bind_ok_eq,
        e1, pure_eq_ok])
    q.length q () (le_refl _) (fun _ => hq) trivial
  refine ⟨c, ?_, h2⟩
  simp only [CryptoContext.encryptECB, blockSize_eq ctx k ks hk, bind_ok_eq,
    checkAligned_ok q _ hpos hq, h1]

/-- RandomDelta encryption of block-aligned data succeeds when the random source and
the transformation do. -/
theorem encryptRandomDelta_ok (rnd : RandSource) (ctx : CryptoContext) (k : List Nat)
    (ks : List (List Nat)) (hk : ctx.roundKeys = k :: ks) (hpos : 0 < k.length)
    (henc : EncryptsOn ctx.transform ctx.roundKeys k.length)
    (hrnd : ∀ call, ∃ g, rnd call = .ok g) (q : List Nat) (hq : q.length % k.length = 0) :
    ∃ c, ctx.encryptRandomDelta rnd q = .ok c ∧ c.length = q.length := by
  obtain ⟨c, h1, h2⟩ := chainLoop_total k.length hpos True
    (CryptoContext.randomDeltaStep rnd ctx k.length) (fun _ => True)
    (by
      intro chunk call _ _ _ hfull
      have hcl := hfull trivial
      obtain ⟨g, hg⟩ := hrnd call
      have hdl : ((List.range k.length).map (fun j => g j % 256)).length = k.length := by simp
      obtain ⟨y, e1, e2⟩ := encryptBlock_ok ctx k.length henc
        (xorBlocks chunk (((List.range k.length).map (fun j => g j % 256)).take chunk.length))
        (by rw [xorBlocks_length, List.length_take, hdl, hcl]; simp)
      refine ⟨y, call + 1, ?_, by rw [e2, hcl], trivial⟩
      simp only [CryptoContext.randomDeltaStep, randRead, hg, bind_ok_eq, pure_eq_ok,
        slicePrefix_ok _ chunk.length (by rw [hdl, hcl]), e1])
    q.length q 1 (le_refl _) (fun _ => hq) trivial
  refine ⟨c, ?_, h2⟩
  simp only [CryptoContext.encryptRandomDelta, blockSize_eq ctx k ks hk, bind_ok_eq, h1]

/-- Claim C16. In a context with block size `len(roundKeys[0]) ≥ 1`: for every chaining
mode in CBC, PCBC, CFB, OFB, CTR, every padding mode (valid or not) and every input,
`Decrypt` and `Encrypt` return an error, not a panic of their own, whenever the IV is
absent or its length differs from the block size; for ECB and RandomDelta the result of
`Encrypt` does not depend on the IV, and with an absent IV `Encrypt` succeeds (padding
Zeros, ANSI X9.23 or PKCS7, a transformation that encrypts block-sized inputs to
block-sized outputs, a random source that does not fail). -/
theorem C16_iv_validation (rnd : RandSource) (ctx : CryptoContext) (k : List Nat)
    (ks : List (List Nat)) (hk : ctx.roundKeys = k :: ks) (hpos : 0 < k.length) :
    (∀ data : List Nat,
      ctx.mode ∈ [CipherMode.CBC, CipherMode.PCBC, CipherMode.CFB, CipherMode.OFB,
        CipherMode.CTR] →
      (ctx.iv = none ∨ ∃ iv, ctx.iv = some iv ∧ iv.length ≠ k.length) →
      (ctx.Decrypt data = .error Err.invalidIV ∨
        ctx.Decrypt data = .error Err.notBlockMultiple) ∧
      (CryptoContext.Encrypt rnd ctx data = .error Err.invalidIV ∨
        CryptoContext.Encrypt rnd ctx data = .error Err.notBlockMultiple ∨
        CryptoContext.Encrypt rnd ctx data = .error Err.unsupportedPadding ∨
        ∃ e, rnd 0 = .error e ∧ CryptoContext.Encrypt rnd ctx data = .error e)) ∧
    (∀ (data : List Nat) (iv1 iv2 : Option (List Nat)),
      ctx.mode ∈ [CipherMode.ECB, CipherMode.RandomDelta] →
      CryptoContext.Encrypt rnd { ctx with iv := iv1 } data
        = CryptoContext.Encrypt rnd { ctx with iv := iv2 } data) ∧
    (∀ data : List Nat, ctx.mode ∈ [CipherMode.ECB, CipherMode.RandomDelta] →
      ctx.iv = none →
      ctx.padding ∈ [PaddingMode.Zeros, PaddingMode.ANSIX923, PaddingMode.PKCS7] →
      EncryptsOn ctx.transform ctx.roundKeys k.length →
      (∀ call, ∃ g, rnd call = .ok g) →
      ∃ c, CryptoContext.Encrypt rnd ctx data = .ok c) := by
  refine ⟨?_, ?_, ?_⟩
  · intro data hmode hbad
    simp only [List.mem_cons, List.mem_singleton, List.not_mem_nil, or_false] at hmode
    refine ⟨?_, ?_⟩
    · obtain ⟨_, d1, _, d2, _, d3, d4, d5⟩ := modes_fail_bad_iv ctx k ks hk hpos hbad data
      rcases hmode with h | h | h | h | h
      · rcases d1 with e | e
        · left; simp only [CryptoContext.Decrypt, h, e, bind_error_eq]
        · right; simp only [CryptoContext.Decrypt, h, e, bind_error_eq]
      · rcases d2 with e | e
        · left; simp only [CryptoContext.Decrypt, h, e, bind_error_eq]
        · right; simp only [CryptoContext.Decrypt, h, e, bind_error_eq]
      · left; simp only [CryptoContext.Decrypt, h, d3, bind_error_eq]
      · left; simp only [CryptoContext.Decrypt, h, CryptoContext.decryptOFB, d4, bind_error_eq]
      · left; simp only [CryptoContext.Decrypt, h, CryptoContext.decryptCTR, d5, bind_error_eq]
    · rcases applyPadding_cases rnd ctx data k ks hk hpos with ⟨q, hq⟩ | hq | ⟨e, he, hq⟩
      · obtain ⟨e1, _, e2, _, e3, _, e4, e5⟩ := modes_fail_bad_iv ctx k ks hk hpos hbad q
        rcases hmode with h | h | h | h | h
        · rcases e1 with e | e
          · left; simp only [CryptoContext.Encrypt, hq, bind_ok_eq, h, e]
          · right; left; simp only [CryptoContext.Encrypt, hq, bind_ok_eq, h, e]
        · rcases e2 with e | e
          · left; simp only [CryptoContext.Encrypt, hq, bind_ok_eq, h, e]
          · right; left; simp only [CryptoContext.Encrypt, hq, bind_ok_eq, h, e]
        · left; simp only [CryptoContext.Encrypt, hq, bind_ok_eq, h, e3]
        · left; simp only [CryptoContext.Encrypt, hq, bind_ok_eq, h,
            CryptoContext.encryptOFB, e4]
        · left; simp only [CryptoContext.Encrypt, hq, bind_ok_eq, h,
            CryptoContext.encryptCTR, e5]
      · right; right; left
        simp only [CryptoContext.Encrypt, hq, bind_error_eq]
      · right; right; right
        exact ⟨e, he, by simp only [CryptoContext.Encrypt, hq, bind_error_eq]⟩
  · intro data iv1 iv2 hmode
    obtain ⟨key, rks, mode, pad, iv, tr, ex⟩ := ctx
    simp only [List.mem_cons, List.mem_singleton, List.not_mem_nil, or_false] at hmode
    rcases hmode with h | h <;> subst h <;> rfl
  · intro data hmode _ hpad henc hrnd
    simp only [List.mem_cons, List.mem_singleton, List.not_mem_nil, or_false] at hmode hpad
    have hlt : data.length % k.length < k.length := Nat.mod_lt _ hpos
    have hal := padded_length_aligned data.length k.length hpos
    have hq : ∃ q, ctx.applyPadding rnd data = .ok q ∧ q.length % k.length = 0 := by
      rw [applyPadding_eq rnd ctx data k ks hk hpos]
      rcases hpad with h | h | h <;> rw [h]
      · exact ⟨_, rfl, by rw [← hal]; simp [applyZerosPadding]⟩
      · refine ⟨_, applyANSIX923Padding_eq data _ k.length (by omega), ?_⟩
        rw [← hal]; congr 1; simp; omega
      · exact ⟨_, rfl, by rw [← hal]; simp [applyPKCS7Padding]⟩
    obtain ⟨q, hq1, hq2⟩ := hq
    rcases hmode with h | h
    · obtain ⟨c, hc, _⟩ := encryptECB_ok ctx k ks hk hpos henc q hq2
      exact ⟨c, by simp only [CryptoContext.Encrypt, hq1, bind_ok_eq, h, hc]⟩
    · obtain ⟨c, hc, _⟩ := encryptRandomDelta_ok rnd ctx k ks hk hpos henc hrnd q hq2
      exact ⟨c, by simp only [CryptoContext.Encrypt, hq1, bind_ok_eq, h, hc]⟩

/-- Witness for C16: block size 4; CBC without an IV fails in both directions, ECB
without an IV encrypts. -/
theorem C16_iv_validation_witness :
    ({ testContext 4 .CBC .PKCS7 with iv := none }.roundKeys
        = [0, 0, 0, 0] :: [[0, 0, 0, 0], [0, 0, 0, 0]] ∧ 0 < [0, 0, 0, 0].length) ∧
    (({ testContext 4 .CBC .PKCS7 with iv := none } : CryptoContext).Decrypt [1, 2, 3, 4]
        = .error Err.invalidIV ∨
      ({ testContext 4 .CBC .PKCS7 with iv := none } : CryptoContext).Decrypt [1, 2, 3, 4]
        = .error Err.notBlockMultiple) ∧
    ∃ c, CryptoContext.Encrypt testRand { testContext 4 .ECB .PKCS7 with iv := none }
      [1, 2, 3, 4, 5] = .ok c :=
  ⟨⟨rfl, by decide⟩,
    ((C16_iv_validation testRand { testContext 4 .CBC .PKCS7 with iv := none } [0, 0, 0, 0]
      [[0, 0, 0, 0], [0, 0, 0, 0]] rfl (by decide)).1 [1, 2, 3, 4] (by decide)
      (Or.inl rfl)).1,
    (C16_iv_validation testRand { testContext 4 .ECB .PKCS7 with iv := none } [0, 0, 0, 0]
      [[0, 0, 0, 0], [0, 0, 0, 0]] rfl (by decide)).2.2 [1, 2, 3, 4, 5] (by decide) rfl
      (by decide) (reverse_inverseOn _ _).encryptsOn (fun _ => ⟨_, rfl⟩)⟩

end IVChecks

section SpecKeySchedule

/-- Claim C15. For the key 13 34 57 79 9B BC DF F1 the key schedule the specification
describes (28-bit halves) has the first round key 1B 02 EF FC 70 72, and `ExpandKey`
returns round keys with the first one 1A 02 EF FC 71 72: the two differ. -/
theorem C15_key_schedule_differs :
    (specKeySchedule mainKey).length = 16 ∧
    (specKeySchedule mainKey).head? = some [0x1B, 0x02, 0xEF, 0xFC, 0x70, 0x72] ∧
    ∃ rks, DESKeyExpander.ExpandKey mainKey = .ok rks ∧
      rks.head? = some [0x1A, 0x02, 0xEF, 0xFC, 0x71, 0x72] ∧
      rks ≠ specKeySchedule mainKey :=
  ⟨by decide, by decide, mainRoundKeys, expandKey_mainKey, rfl, by decide⟩

end SpecKeySchedule

section FileProcessing

set_option maxRecDepth 1000000 in
/-- The chunks of a file of 1024 bytes 01 followed by one byte 02, read with a buffer
of 1024 bytes. -/
theorem readChunks_example :
    readChunks 1024 (List.replicate 1024 1 ++ [2]).length (List.replicate 1024 1 ++ [2])
      = [List.replicate 1024 1, [2]] := by
  decide!

set_option maxRecDepth 1000000 in
theorem encrypt_first_chunk :
    CryptoContext.Encrypt testRand (testContext 1 .ECB .PKCS7) (List.replicate 1024 1)
      = .ok (List.replicate 1025 1) := by
  decide!

theorem encrypt_second_chunk :
    CryptoContext.Encrypt testRand (testContext 1 .ECB .PKCS7) [2] = .ok [2, 1] := by
  decide

/-- The output of `processFile` on two chunks, for both completion orders. -/
theorem processFile_two_chunks (ctx : CryptoContext) (k : List Nat) (ks : List (List Nat))
    (hk : ctx.roundKeys = k :: ks) (n : Nat) (hn : k.length * 1024 = n)
    (f : List Nat → Except Err (List Nat)) (input c0 c1 y0 y1 : List Nat)
    (hc : readChunks n input.length input = [c0, c1])
    (h0 : f c0 = .ok y0) (h1 : f c1 = .ok y1) :
    ctx.processFile f input [0, 1] = .ok (y0 ++ y1) ∧
    ctx.processFile f input [1, 0] = .ok (y1 ++ y0) ∧
    inOrderOutput f (readChunks n input.length input) = .ok (y0 ++ y1) := by
  subst hn
  refine ⟨?_, ?_, ?_⟩
  · simp only [CryptoContext.processFile, blockSize_eq ctx k ks hk, bind_ok_eq, hc,
      writeCompleted, List.getD_cons_zero, List.getD_cons_succ, h0, h1, List.nil_append]
  · simp only [CryptoContext.processFile, blockSize_eq ctx k ks hk, bind_ok_eq, hc,
      writeCompleted, List.getD_cons_zero, List.getD_cons_succ, h0, h1, List.nil_append]
  · rw [hc]
    simp only [inOrderOutput, List.length_cons, List.length_nil, List.range_succ,
      List.range_zero, List.nil_append, List.cons_append, writeCompleted,
      List.getD_cons_zero, List.getD_cons_succ, h0, h1, bind_ok_eq]

/-- Claim C19. `EncryptFile` with block size 1 (chunks of 1024 bytes), ECB and PKCS7, on
a file of 1024 bytes 01 followed by one byte 02: when the worker of the first chunk
completes first the output is the first processed chunk followed by the second, and
when the worker of the second chunk completes first the output starts with the
processed second chunk, which is not the output in the order of the input chunks. -/
theorem C19_file_output_follows_completion_order :
    CryptoContext.EncryptFile testRand (testContext 1 .ECB .PKCS7)
        (List.replicate 1024 1 ++ [2]) [0, 1]
      = .ok (List.replicate 1025 1 ++ [2, 1]) ∧
    CryptoContext.EncryptFile testRand (testContext 1 .ECB .PKCS7)
        (List.replicate 1024 1 ++ [2]) [1, 0]
      = .ok ([2, 1] ++ List.replicate 1025 1) ∧
    CryptoContext.EncryptFile testRand (testContext 1 .ECB .PKCS7)
        (List.replicate 1024 1 ++ [2]) [1, 0]
      ≠ inOrderOutput (CryptoContext.Encrypt testRand (testContext 1 .ECB .PKCS7))
          (readChunks 1024 (List.replicate 1024 1 ++ [2]).length
            (List.replicate 1024 1 ++ [2])) := by
  obtain ⟨h1, h2, h3⟩ := processFile_two_chunks (testContext 1 .ECB .PKCS7) [0]
    [[0], [0]] rfl 1024 rfl (CryptoContext.Encrypt testRand (testContext 1 .ECB .PKCS7))
    (List.replicate 1024 1 ++ [2]) (List.replicate 1024 1) [2] (List.replicate 1025 1)
    [2, 1] readChunks_example encrypt_first_chunk encrypt_second_chunk
  refine ⟨h1, h2, ?_⟩
  have h4 : CryptoContext.EncryptFile testRand (testContext 1 .ECB .PKCS7)
      (List.replicate 1024 1 ++ [2]) [1, 0] = .ok ([2, 1] ++ List.replicate 1025 1) := h2
  rw [h4, h3]
  intro h
  injection h with h6
  have h7 := congrArg List.head? h6
  revert h7
  decide

end FileProcessing

section EngineBlockSize

open CryptoContext

/-- A context keyed through `DESKeyExpander` holds sixteen round keys of six bytes. -/
theorem NewCryptoContext_des (key : List Nat) (mode : CipherMode) (padding : PaddingMode)
    (iv : Option (List Nat)) (transform : CipherTransformation) (ctx : CryptoContext)
    (h : NewCryptoContext key mode padding iv transform (some desKeyExpander) = .ok ctx) :
    key.length = 8 ∧ ctx.padding = padding ∧ ctx.mode = mode ∧ ctx.iv = iv ∧
    ∃ k ks, ctx.roundKeys = k :: ks ∧ k.length = 6 ∧ ks.length = 15 := by
  by_cases h8 : key.length = 8
  · obtain ⟨rks, h1, h2, h3⟩ := ExpandKey_spec key h8
    have h1b : desKeyExpander.ExpandKey key = .ok rks := h1
    simp only [NewCryptoContext, CryptoContext.SetKey, h1b, bind_ok_eq] at h
    injection h with h
    subst h
    refine ⟨h8, rfl, rfl, rfl, ?_⟩
    cases rks with
    | nil => simp at h2
    | cons k ks =>
        exact ⟨k, ks, rfl, (h3 k (List.mem_cons_self _ _)).1, by simpa using h2⟩
  · have h1 : desKeyExpander.ExpandKey key = .error Err.desKeyLength := by
      show DESKeyExpander.ExpandKey key = _
      simp only [DESKeyExpander.ExpandKey, h8, ne_eq, not_false_eq_true, if_true]
    simp only [NewCryptoContext, CryptoContext.SetKey, h1, bind_error_eq] at h
    cases h

/-- Counterexample for C18. The context `NewCryptoContext` builds for the key of `main`
with `DESKeyExpander` has block size 6: PKCS7 pads the 8-byte plaintext
01 02 03 04 05 06 07 08 with four bytes 04 to 12 bytes, not a multiple of 8, and
ECB refuses 8 bytes of data as not block-aligned. -/
theorem C18_des_engine_block_size_is_not_eight :
    NewCryptoContext mainKey .ECB .PKCS7 none desCipherTransformation (some desKeyExpander)
      = .ok desEngine ∧
    desEngine.blockSize = .ok 6 ∧
    desEngine.applyPadding testRand [1, 2, 3, 4, 5, 6, 7, 8]
      = .ok [1, 2, 3, 4, 5, 6, 7, 8, 4, 4, 4, 4] ∧
    ¬ ([1, 2, 3, 4, 5, 6, 7, 8, 4, 4, 4, 4].length % 8 = 0) ∧
    desEngine.encryptECB [1, 2, 3, 4, 5, 6, 7, 8] = .error Err.notBlockMultiple :=
  ⟨NewCryptoContext_desEngine, by decide, by decide, by decide, by decide⟩

/-- Claim C18, amended. The block size the engine uses is the length of the first
round key. For every context `NewCryptoContext` builds with `DESKeyExpander` it is 6:
`applyPadding` with Zeros, ANSI X9.23 or PKCS7 pads every plaintext `p` to
`len(p) + (6 - len(p) mod 6)` bytes, a multiple of 6; ECB, CBC and PCBC refuse data
whose length is not a multiple of 6; and every mode loop steps through the data in
chunks of 6 bytes. -/
theorem C18_engine_block_size (key : List Nat) (mode : CipherMode) (padding : PaddingMode)
    (iv : Option (List Nat)) (transform : CipherTransformation) (ctx : CryptoContext)
    (h : NewCryptoContext key mode padding iv transform (some desKeyExpander) = .ok ctx) :
    ctx.blockSize = .ok 6 ∧
    (∀ (rnd : RandSource) (p : List Nat),
      padding ∈ [PaddingMode.Zeros, PaddingMode.ANSIX923, PaddingMode.PKCS7] →
      ∃ q, ctx.applyPadding rnd p = .ok q ∧ q.length = p.length + (6 - p.length % 6) ∧
        q.length % 6 = 0) ∧
    (∀ data : List Nat, data.length % 6 ≠ 0 →
      ctx.encryptECB data = .error Err.notBlockMultiple ∧
      ctx.decryptECB data = .error Err.notBlockMultiple ∧
      ctx.encryptCBC data = .error Err.notBlockMultiple ∧
      ctx.decryptCBC data = .error Err.notBlockMultiple ∧
      ctx.encryptPCBC data = .error Err.notBlockMultiple ∧
      ctx.decryptPCBC data = .error Err.notBlockMultiple) ∧
    (∀ (rnd : RandSource) (data : List Nat),
      (data.length % 6 = 0 →
        ctx.encryptECB data
            = chainLoop 6 (ctx.ecbEncryptStep 6) data.length data () ∧
        ctx.decryptECB data
            = chainLoop 6 (ctx.ecbDecryptStep 6) data.length data () ∧
        ctx.encryptCBC data
            = (ctx.checkedIV 6 >>= fun v =>
                chainLoop 6 (ctx.cbcEncryptStep 6) data.length data v) ∧
        ctx.decryptCBC data
            = (ctx.checkedIV 6 >>= fun v =>
                chainLoop 6 (ctx.cbcDecryptStep 6) data.length data v) ∧
        ctx.encryptPCBC data
            = (ctx.checkedIV 6 >>= fun v =>
                chainLoop 6 (ctx.pcbcEncryptStep 6) data.length data (v, v)) ∧
        ctx.decryptPCBC data
            = (ctx.checkedIV 6 >>= fun v =>
                chainLoop 6 (ctx.pcbcDecryptStep 6) data.length data (v, v))) ∧
      ctx.encryptCFB data
          = (ctx.checkedIV 6 >>= fun v =>
              chainLoop 6 (ctx.cfbEncryptStep 6) data.length data v) ∧
      ctx.decryptCFB data
          = (ctx.checkedIV 6 >>= fun v =>
              chainLoop 6 (ctx.cfbDecryptStep 6) data.length data v) ∧
      ctx.processOFB data
          = (ctx.checkedIV 6 >>= fun v => chainLoop 6 ctx.ofbStep data.length data v) ∧
      ctx.processCTR data
          = (ctx.checkedIV 6 >>= fun v =>
              chainLoop 6 ctx.ctrStep data.length data (copyBytes (makeBytes 6) v)) ∧
      ctx.encryptRandomDelta rnd data
          = chainLoop 6 (CryptoContext.randomDeltaStep rnd ctx 6) data.length data 1) := by
  obtain ⟨_, hp, _, _, k, ks, hk, hk6, _⟩ :=
    NewCryptoContext_des key mode padding iv transform ctx h
  have hb : ctx.blockSize = .ok 6 := by rw [blockSize_eq ctx k ks hk, hk6]
  refine ⟨hb, ?_, ?_, ?_⟩
  · intro rnd p hpad
    simp only [List.mem_cons, List.mem_singleton, List.not_mem_nil, or_false] at hpad
    have hlt : p.length % 6 < 6 := Nat.mod_lt _ (by decide)
    have hal := padded_length_aligned p.length 6 (by decide)
    rw [applyPadding_eq rnd ctx p k ks hk (by omega), hp, hk6]
    rcases hpad with h1 | h1 | h1 <;> rw [h1]
    · refine ⟨_, rfl, ?_, ?_⟩
      · simp [applyZerosPadding]
      · rw [← hal]; simp [applyZerosPadding]
    · refine ⟨_, applyANSIX923Padding_eq p _ 6 (by omega), ?_, ?_⟩
      · simp; omega
      · rw [← hal]; congr 1; simp; omega
    · refine ⟨_, rfl, ?_, ?_⟩
      · simp [applyPKCS7Padding]
      · rw [← hal]; simp [applyPKCS7Padding]
  · intro data hd
    have hc : checkAligned data 6 = .error Err.notBlockMultiple := by
      simp [checkAligned, hd]
    refine ⟨?_, ?_, ?_, ?_, ?_, ?_⟩
    · simp only [CryptoContext.encryptECB, hb, bind_ok_eq, hc, bind_error_eq]
    · simp only [CryptoContext.decryptECB, hb, bind_ok_eq, hc, bind_error_eq]
    · simp only [CryptoContext.encryptCBC, hb, bind_ok_eq, hc, bind_error_eq]
    · simp only [CryptoContext.decryptCBC, hb, bind_ok_eq, hc, bind_error_eq]
    · simp only [CryptoContext.encryptPCBC, hb, bind_ok_eq, hc, bind_error_eq]
    · simp only [CryptoContext.decryptPCBC, hb, bind_ok_eq, hc, bind_error_eq]
  · intro rnd data
    refine ⟨?_, ?_, ?_, ?_, ?_, ?_⟩
    · intro hd
      have hc : checkAligned data 6 = .ok () := checkAligned_ok data 6 (by decide) hd
      refine ⟨?_, ?_, ?_, ?_, ?_, ?_⟩
      · simp only [CryptoContext.encryptECB, hb, bind_ok_eq, hc]
      · simp only [CryptoContext.decryptECB, hb, bind_ok_eq, hc]
      · simp only [CryptoContext.encryptCBC, hb, bind_ok_eq, hc]
      · simp only [CryptoContext.decryptCBC, hb, bind_ok_eq, hc]
      · simp only [CryptoContext.encryptPCBC, hb, bind_ok_eq, hc]
      · simp only [CryptoContext.decryptPCBC, hb, bind_ok_eq, hc]
    · simp only [CryptoContext.encryptCFB, hb, bind_ok_eq]
    · simp only [CryptoContext.decryptCFB, hb, bind_ok_eq]
    · simp only [CryptoContext.processOFB, hb, bind_ok_eq]
    · simp only [CryptoContext.processCTR, hb, bind_ok_eq]
    · simp only [CryptoContext.encryptRandomDelta, hb, bind_ok_eq]

/-- Witness for C18: the context of the key of `main`. -/
theorem C18_engine_block_size_witness :
    NewCryptoContext mainKey .ECB .PKCS7 none desCipherTransformation (some desKeyExpander)
      = .ok desEngine ∧
    desEngine.blockSize = .ok 6 ∧
    ∃ q, desEngine.applyPadding testRand [1, 2, 3, 4, 5, 6, 7, 8] = .ok q ∧
      q.length = [1, 2, 3, 4, 5, 6, 7, 8].length + (6 - [1, 2, 3, 4, 5, 6, 7, 8].length % 6) ∧
      q.length % 6 = 0 :=
  ⟨NewCryptoContext_desEngine,
    (C18_engine_block_size mainKey .ECB .PKCS7 none desCipherTransformation desEngine
      NewCryptoContext_desEngine).1,
    (C18_engine_block_size mainKey .ECB .PKCS7 none desCipherTransformation desEngine
      NewCryptoContext_desEngine).2.1 testRand [1, 2, 3, 4, 5, 6, 7, 8] (by decide)⟩

end EngineBlockSize

section BitPermutations

/-- Claim C22. For every buffer `value` and every table whose entries lie in
`1..8*len(value)`, `permuteBits` succeeds; the result has `ceil(len(table)/8)` bytes
(all below 256); for every `i < len(table)` its bit `i` (0-based, MSB-first, read by
`getBit`) is bit `table[i]-1` of `value`; and every bit from position `len(table)` on
is 0. -/
theorem C22_permuteBits_bits (value : List Nat) (table : List Int)
    (h : ∀ p ∈ table, 1 ≤ p ∧ p ≤ 8 * (value.length : Int)) :
    ∃ res, permuteBits value table = .ok res ∧
      res.length = (table.length + 7) / 8 ∧
      (table.length ≤ 8 * res.length ∧ 8 * res.length < table.length + 8) ∧
      (∀ i, i < table.length →
        getBit res (i : Int) = getBit value (table.getD i 0 - 1) ∧
        getBit res (i : Int) = .ok (bitAt value ((table.getD i 0).toNat - 1))) ∧
      (∀ j, table.length ≤ j → bitAt res j = 0) ∧
      (∀ x ∈ res, x < 256) := by
  obtain ⟨res, hres, hl, hb, hbd⟩ := permuteBits_spec value table h
  refine ⟨res, hres, hl, by omega, ?_, ?_, hbd⟩
  · intro i hi
    have hmem : table.getD i 0 ∈ table := by
      rw [List.getD_eq_getElem _ _ hi]
      exact List.getElem_mem hi
    obtain ⟨hp1, hp2⟩ := h _ hmem
    have hcast : table.getD i 0 - 1 = (((table.getD i 0).toNat - 1 : Nat) : Int) := by omega
    have e1 : getBit res (i : Int) = .ok (bitAt res i) :=
      getBit_natCast res i (by omega)
    have e2 : getBit value (table.getD i 0 - 1)
        = .ok (bitAt value ((table.getD i 0).toNat - 1)) := by
      rw [hcast]
      exact getBit_natCast value _ (by omega)
    have e3 : bitAt res i = bitAt value ((table.getD i 0).toNat - 1) := by
      rw [hb i, if_pos hi]
    rw [e1, e2, e3]
    exact ⟨rfl, rfl⟩
  · intro j hj
    rw [hb j, if_neg (by omega)]

/-- Witness for C22: the table 16, 1, 9 on the two bytes 80 01 gives the byte C0. -/
theorem C22_permuteBits_bits_witness :
    ∃ res, permuteBits [0x80, 0x01] [16, 1, 9] = .ok res ∧
      res.length = (([16, 1, 9] : List Int).length + 7) / 8 ∧
      (([16, 1, 9] : List Int).length ≤ 8 * res.length ∧
        8 * res.length < ([16, 1, 9] : List Int).length + 8) ∧
      (∀ i, i < ([16, 1, 9] : List Int).length →
        getBit res (i : Int) = getBit [0x80, 0x01] (([16, 1, 9] : List Int).getD i 0 - 1) ∧
        getBit res (i : Int)
          = .ok (bitAt [0x80, 0x01] ((([16, 1, 9] : List Int).getD i 0).toNat - 1))) ∧
      (∀ j, ([16, 1, 9] : List Int).length ≤ j → bitAt res j = 0) ∧
      (∀ x ∈ res, x < 256) :=
  C22_permuteBits_bits [0x80, 0x01] [16, 1, 9] (by decide)

/-- Claim C23. For every 8-byte block `b`, `permuteBits` with the initial permutation
followed by `permuteBits` with the final permutation returns `b`, and so does the
final permutation followed by the initial one. -/
theorem C23_initial_final_mutually_inverse (b : List Nat) (hb : b.length = 8)
    (hbytes : ∀ x ∈ b, x < 256) :
    (permuteBits b initialPermutation >>= fun y => permuteBits y finalPermutation) = .ok b ∧
    (permuteBits b finalPermutation >>= fun y => permuteBits y initialPermutation)
      = .ok b := by
  obtain ⟨y, h1, _, _, h2⟩ := permuteBits_inverse initialPermutation finalPermutation 8
    initialPermutation_range finalPermutation_range rfl rfl final_after_initial b hb hbytes
  obtain ⟨z, h3, _, _, h4⟩ := permuteBits_inverse finalPermutation initialPermutation 8
    finalPermutation_range initialPermutation_range rfl rfl initial_after_final b hb hbytes
  refine ⟨?_, ?_⟩
  · rw [h1]; exact h2
  · rw [h3]; exact h4

/-- Witness for C23: the plaintext of `main`. -/
theorem C23_initial_final_mutually_inverse_witness :
    (permuteBits mainPlaintext initialPermutation >>= fun y => permuteBits y finalPermutation)
      = .ok mainPlaintext ∧
    (permuteBits mainPlaintext finalPermutation >>= fun y =>
      permuteBits y initialPermutation) = .ok mainPlaintext :=
  C23_initial_final_mutually_inverse mainPlaintext rfl (by decide)

end BitPermutations

section ParityBits

/-- No entry of PC-1 selects the last bit of a key byte (positions 8, 16, ..., 64). -/
theorem pc1_skips_parity : ∀ p ∈ pc1, (p.toNat - 1) % 8 ≠ 7 := by decide

/-- A bit other than the last one of its byte does not see the last bit. -/
theorem bitAt_above_last (a b : List Nat) (j : Nat) (hj : j % 8 ≠ 7)
    (h : a.getD (j / 8) 0 / 2 = b.getD (j / 8) 0 / 2) : bitAt a j = bitAt b j := by
  have hlt : j % 8 < 8 := Nat.mod_lt _ (by decide)
  obtain ⟨s, hs⟩ : ∃ s, 7 - j % 8 = s + 1 := ⟨6 - j % 8, by omega⟩
  simp only [bitAt, hs, Nat.shiftRight_succ_inside, h]

/-- Claim C24. Two 8-byte keys that agree in every bit but the least-significant bit of
each byte (the halves `b / 2` of corresponding bytes are equal) get the same result
from `ExpandKey`, which is a sequence of round keys. -/
theorem C24_parity_bits_dropped (k1 k2 : List Nat) (h1 : k1.length = 8)
    (h2 : k2.length = 8) (h : ∀ i, i < 8 → k1.getD i 0 / 2 = k2.getD i 0 / 2) :
    DESKeyExpander.ExpandKey k1 = DESKeyExpander.ExpandKey k2 ∧
    ∃ rks, DESKeyExpander.ExpandKey k1 = .ok rks ∧ DESKeyExpander.ExpandKey k2 = .ok rks := by
  obtain ⟨r1, e1, l1, b1, bd1⟩ := permuteBits_spec k1 pc1 (by rw [h1]; exact pc1_range)
  obtain ⟨r2, e2, l2, b2, bd2⟩ := permuteBits_spec k2 pc1 (by rw [h2]; exact pc1_range)
  have hr : r1 = r2 := by
    apply bytes_ext r1 r2 (by rw [l1, l2]) bd1 bd2
    intro j _
    rw [b1 j, b2 j]
    by_cases hj : j < pc1.length
    · rw [if_pos hj, if_pos hj]
      have hmem : pc1.getD j 0 ∈ pc1 := by
        rw [List.getD_eq_getElem _ _ hj]
        exact List.getElem_mem hj
      obtain ⟨hp1, hp2⟩ := pc1_range _ hmem
      exact bitAt_above_last k1 k2 _ (pc1_skips_parity _ hmem) (h _ (by omega))
    · rw [if_neg hj, if_neg hj]
  have heq : DESKeyExpander.ExpandKey k1 = DESKeyExpander.ExpandKey k2 := by
    have hn1 : ¬ (k1.length ≠ 8) := by simp [h1]
    have hn2 : ¬ (k2.length ≠ 8) := by simp [h2]
    simp only [DESKeyExpander.ExpandKey, hn1, hn2, if_false, e1, e2, bind_ok_eq, hr]
  obtain ⟨rks, hk, _⟩ := ExpandKey_spec k1 h1
  exact ⟨heq, rks, hk, heq ▸ hk⟩

/-- Witness for C24: the key of `main` and the same key with every parity bit flipped. -/
theorem C24_parity_bits_dropped_witness :
    DESKeyExpander.ExpandKey [0x12, 0x35, 0x56, 0x78, 0x9A, 0xBD, 0xDE, 0xF0]
      = DESKeyExpander.ExpandKey mainKey ∧
    ∃ rks, DESKeyExpander.ExpandKey [0x12, 0x35, 0x56, 0x78, 0x9A, 0xBD, 0xDE, 0xF0] = .ok rks ∧
      DESKeyExpander.ExpandKey mainKey = .ok rks :=
  C24_parity_bits_dropped [0x12, 0x35, 0x56, 0x78, 0x9A, 0xBD, 0xDE, 0xF0] mainKey rfl rfl
    (by decide)

end ParityBits

section ZerosPadding

theorem rdropWhile_zero_decompose (d : List Nat) :
    ∃ m, d = d.rdropWhile (fun b => b == 0) ++ List.replicate m 0 := by
  induction d using List.reverseRecOn with
  | nil => exact ⟨0, rfl⟩
  | append_singleton l a ih =>
      obtain ⟨m, hm⟩ := ih
      rw [List.rdropWhile_concat]
      by_cases ha : a = 0
      · subst ha
        refine ⟨m + 1, ?_⟩
        simp only [beq_self_eq_true, if_true]
        rw [List.replicate_succ', ← List.append_assoc, ← hm]
      · refine ⟨0, ?_⟩
        simp [ha]

theorem rdropWhile_zero_last (d : List Nat) :
    (d.rdropWhile (fun b => b == 0)).getLast? ≠ some 0 := by
  intro h
  have hne : d.rdropWhile (fun b => b == 0) ≠ [] := by
    intro h0
    rw [h0] at h
    cases h
  have h1 := List.rdropWhile_last_not (fun b => b == 0) d hne
  rw [List.getLast?_eq_getLast _ hne] at h
  injection h with h
  rw [h] at h1
  exact h1 rfl

theorem getLast?_eq_lastByte (d : List Nat) (hne : d ≠ []) : d.getLast? = some (lastByte d) := by
  rw [List.getLast?_eq_getLast _ hne, List.getLast_eq_getElem]
  have hlt : d.length - 1 < d.length := Nat.sub_lt (List.length_pos.mpr hne) (by decide)
  simp [lastByte, List.getD_eq_getElem?_getD, List.getElem?_eq_getElem hlt]

/-- Claim C25. For every buffer `d` and every `N` (in particular every `N ≥ 1`),
`removeZerosPadding(applyZerosPadding(d, N))` is `d` without its trailing zero bytes:
`d` is the result followed by zero bytes only, and the result does not end in a zero
byte; it equals `d` if and only if `d` is empty or its last byte is non-zero. Removal
is a total function, and `removePadding` in Zeros mode returns its result, never an
error. -/
theorem C25_zeros_padding_strips_trailing_zeros (d : List Nat) (n : Nat) :
    (∃ m, d = removeZerosPadding (applyZerosPadding d n) ++ List.replicate m 0) ∧
    (removeZerosPadding (applyZerosPadding d n)).getLast? ≠ some 0 ∧
    (removeZerosPadding (applyZerosPadding d n) = d ↔ (d = [] ∨ lastByte d ≠ 0)) ∧
    (∀ (ctx : CryptoContext) (x : List Nat), ctx.padding = PaddingMode.Zeros →
      ctx.removePadding x = .ok (removeZerosPadding x)) := by
  rw [removeZerosPadding_apply d n]
  refine ⟨rdropWhile_zero_decompose d, rdropWhile_zero_last d, ?_, ?_⟩
  · constructor
    · intro h
      by_cases hne : d = []
      · exact Or.inl hne
      · right
        intro h0
        have h1 := rdropWhile_zero_last d
        have h2 : d.rdropWhile (fun b => b == 0) = d := h
        rw [h2, getLast?_eq_lastByte d hne, h0] at h1
        exact h1 rfl
    · intro h
      apply removeZerosPadding_self
      rcases h with h | h
      · subst h; simp
      · intro h0
        have hne : d ≠ [] := by
          intro h1
          subst h1
          cases h0
        rw [getLast?_eq_lastByte d hne] at h0
        injection h0 with h0
        exact h h0
  · intro ctx x hp
    simp only [CryptoContext.removePadding, hp]

end ZerosPadding

section CFBEncryptOnly

open CryptoContext

/-- The chain of `EncryptBlock` calls reads only the `EncryptBlock` method. -/
theorem encryptChain_congr (t1 t2 : CipherTransformation)
    (h : t1.EncryptBlock = t2.EncryptBlock) :
    ∀ (ks : List (List Nat)) (x : List Nat), encryptChain t1 ks x = encryptChain t2 ks x
  | [], _ => rfl
  | k :: ks, x => by
      simp only [encryptChain, h]
      congr 1
      funext y
      exact encryptChain_congr t1 t2 h ks y

theorem oneWay_encryptsOn (rks : List (List Nat)) (bs : Nat) :
    EncryptsOn oneWayTransformation rks bs := by
  intro key _ x hx
  exact ⟨x.map fun _ => 0x5A, rfl, by simp [hx]⟩

/-- Claim C21. For every context with block size `len(roundKeys[0]) ≥ 1`, an IV of block
length and a transformation whose `EncryptBlock` succeeds with block-sized output on
block-sized input (nothing is assumed of `DecryptBlock`), and every input `d` of any
length: `encryptCFB d` succeeds with `len(d)` bytes and `decryptCFB` of it returns `d`.
Neither function calls `DecryptBlock`: replacing that method by any other function
changes neither result, on any input. -/
theorem C21_cfb_inverts_with_encrypt_only (ctx : CryptoContext) (k : List Nat)
    (ks : List (List Nat)) (iv : List Nat) (hk : ctx.roundKeys = k :: ks)
    (hpos : 0 < k.length) (hiv : ctx.iv = some iv) (hivl : iv.length = k.length)
    (henc : EncryptsOn ctx.transform ctx.roundKeys k.length) (d : List Nat) :
    (∃ c, ctx.encryptCFB d = .ok c ∧ c.length = d.length ∧ ctx.decryptCFB c = .ok d) ∧
    (∀ (dec : List Nat → List Nat → Except Err (List Nat)) (x : List Nat),
      ({ ctx with transform :=
          { EncryptBlock := ctx.transform.EncryptBlock, DecryptBlock := dec } }
        : CryptoContext).encryptCFB x = ctx.encryptCFB x ∧
      ({ ctx with transform :=
          { EncryptBlock := ctx.transform.EncryptBlock, DecryptBlock := dec } }
        : CryptoContext).decryptCFB x = ctx.decryptCFB x) := by
  refine ⟨cfb_roundtrip ctx k ks iv hk hpos hiv hivl henc d, ?_⟩
  intro dec x
  have hE : ∀ y, ({ ctx with transform :=
      { EncryptBlock := ctx.transform.EncryptBlock, DecryptBlock := dec } }
      : CryptoContext).encryptBlock y = ctx.encryptBlock y := by
    intro y
    simp only [CryptoContext.encryptBlock]
    exact encryptChain_congr
      { EncryptBlock := ctx.transform.EncryptBlock, DecryptBlock := dec } ctx.transform rfl _ _
  have hS1 : ∀ bs, ({ ctx with transform :=
      { EncryptBlock := ctx.transform.EncryptBlock, DecryptBlock := dec } }
      : CryptoContext).cfbEncryptStep bs = ctx.cfbEncryptStep bs := by
    intro bs
    funext chunk stream
    simp only [CryptoContext.cfbEncryptStep, hE]
  have hS2 : ∀ bs, ({ ctx with transform :=
      { EncryptBlock := ctx.transform.EncryptBlock, DecryptBlock := dec } }
      : CryptoContext).cfbDecryptStep bs = ctx.cfbDecryptStep bs := by
    intro bs
    funext chunk stream
    simp only [CryptoContext.cfbDecryptStep, hE]
  refine ⟨?_, ?_⟩
  · simp only [CryptoContext.encryptCFB, hS1]
    rfl
  · simp only [CryptoContext.decryptCFB, hS2]
    rfl

/-- Witness for C21: block size 4 and the transformation without an inverse, on six
bytes. -/
theorem C21_cfb_inverts_with_encrypt_only_witness :
    ∃ c, (oneWayContext 4 .CFB .PKCS7).encryptCFB [1, 2, 3, 4, 5, 6] = .ok c ∧
      c.length = [1, 2, 3, 4, 5, 6].length ∧
      (oneWayContext 4 .CFB .PKCS7).decryptCFB c = .ok [1, 2, 3, 4, 5, 6] :=
  (C21_cfb_inverts_with_encrypt_only (oneWayContext 4 .CFB .PKCS7) [0, 0, 0, 0]
    [[0, 0, 0, 0]] [0, 1, 2, 3] rfl (by decide) rfl rfl (oneWay_encryptsOn _ _)
    [1, 2, 3, 4, 5, 6]).1

end CFBEncryptOnly

section PCBC

open CryptoContext

theorem chainLoop_state_congr {σ : Type} (bs : Nat)
    (step : List Nat → σ → Except Err (List Nat × σ)) (s1 s2 : σ)
    (h : ∀ chunk, step chunk s1 = step chunk s2) (fuel : Nat) (data : List Nat) :
    chainLoop bs step fuel data s1 = chainLoop bs step fuel data s2 := by
  cases data with
  | nil => cases fuel <;> rfl
  | cons b rest =>
      cases fuel with
      | zero => rfl
      | succ fuel => simp only [chainLoop, h]

theorem xorBlocks_self : ∀ a : List Nat, xorBlocks a a = List.replicate a.length 0
  | [] => rfl
  | x :: a => by
      have ih := xorBlocks_self a
      simp only [xorBlocks] at ih
      simp [xorBlocks, List.replicate_succ, ih]

theorem xorBlocks_zero : ∀ (a : List Nat) (n : Nat), a.length ≤ n →
    xorBlocks a (List.replicate n 0) = a
  | [], _, _ => by simp [xorBlocks]
  | x :: a, 0, h => by simp at h
  | x :: a, n + 1, h => by
      have ih := xorBlocks_zero a n (by simpa using h)
      simp only [xorBlocks] at ih
      simp [xorBlocks, List.replicate_succ, ih]

/-- The PCBC loops started with both registers at an IV of block length are the loops
started with both registers zero. -/
theorem pcbc_start (ctx : CryptoContext) (bs : Nat) (iv : List Nat) (hiv : iv.length = bs)
    (fuel : Nat) (data : List Nat) :
    chainLoop bs (ctx.pcbcEncryptStep bs) fuel data (iv, iv)
      = chainLoop bs (ctx.pcbcEncryptStep bs) fuel data
          (List.replicate bs 0, List.replicate bs 0) ∧
    chainLoop bs (ctx.pcbcDecryptStep bs) fuel data (iv, iv)
      = chainLoop bs (ctx.pcbcDecryptStep bs) fuel data
          (List.replicate bs 0, List.replicate bs 0) := by
  have hx : xorBlocks iv iv = xorBlocks (List.replicate bs 0) (List.replicate bs 0) := by
    rw [xorBlocks_self, xorBlocks_self, hiv, List.length_replicate]
  refine ⟨chainLoop_state_congr _ _ _ _ ?_ _ _, chainLoop_state_congr _ _ _ _ ?_ _ _⟩
  · intro chunk
    simp only [CryptoContext.pcbcEncryptStep, hx]
  · intro chunk
    simp only [CryptoContext.pcbcDecryptStep, hx]

/-- PCBC with an IV of block length, written without the IV. -/
theorem pcbc_without_iv (ctx : CryptoContext) (k : List Nat) (ks : List (List Nat))
    (hk : ctx.roundKeys = k :: ks) (iv : List Nat) (hiv : ctx.iv = some iv)
    (hivl : iv.length = k.length) (data : List Nat) :
    ctx.encryptPCBC data = (do
      checkAligned data k.length
      chainLoop k.length (ctx.pcbcEncryptStep k.length) data.length data
        (List.replicate k.length 0, List.replicate k.length 0)) ∧
    ctx.decryptPCBC data = (do
      checkAligned data k.length
      chainLoop k.length (ctx.pcbcDecryptStep k.length) data.length data
        (List.replicate k.length 0, List.replicate k.length 0)) := by
  obtain ⟨h1, h2⟩ := pcbc_start ctx k.length iv hivl data.length data
  refine ⟨?_, ?_⟩
  · simp only [CryptoContext.encryptPCBC, blockSize_eq ctx k ks hk, bind_ok_eq,
      checkedIV_ok ctx iv k.length hiv hivl, h1]
  · simp only [CryptoContext.decryptPCBC, blockSize_eq ctx k ks hk, bind_ok_eq,
      checkedIV_ok ctx iv k.length hiv hivl, h2]

/-- Claim C26. For every context with block size `len(roundKeys[0]) ≥ 1` and every two
IVs of block length: `encryptPCBC` returns the same result under both IVs, and so does
`decryptPCBC`, on every input. When the transformation encrypts block-sized inputs to
block-sized outputs and the plaintext is block-aligned and not empty, the ciphertext
exists and its first block is `encryptBlock` of the first plaintext block; when
`DecryptBlock` inverts `EncryptBlock`, the ciphertext made under one IV decrypts to
the plaintext under the other. -/
theorem C26_pcbc_ignores_iv (ctx : CryptoContext) (k : List Nat) (ks : List (List Nat))
    (iv1 iv2 : List Nat) (hk : ctx.roundKeys = k :: ks) (hpos : 0 < k.length)
    (h1 : iv1.length = k.length) (h2 : iv2.length = k.length) (P : List Nat) :
    ({ ctx with iv := some iv1 } : CryptoContext).encryptPCBC P
      = ({ ctx with iv := some iv2 } : CryptoContext).encryptPCBC P ∧
    ({ ctx with iv := some iv1 } : CryptoContext).decryptPCBC P
      = ({ ctx with iv := some iv2 } : CryptoContext).decryptPCBC P ∧
    (EncryptsOn ctx.transform ctx.roundKeys k.length → P.length % k.length = 0 →
      0 < P.length →
      ∃ C, ({ ctx with iv := some iv1 } : CryptoContext).encryptPCBC P = .ok C ∧
        C.length = P.length ∧
        ctx.encryptBlock (blockAt P k.length 0) = .ok (blockAt C k.length 0)) ∧
    (InverseOn ctx.transform ctx.roundKeys k.length → P.length % k.length = 0 →
      ∃ C, ({ ctx with iv := some iv1 } : CryptoContext).encryptPCBC P = .ok C ∧
        ({ ctx with iv := some iv2 } : CryptoContext).decryptPCBC C = .ok P) := by
  obtain ⟨a1, b1⟩ := pcbc_without_iv { ctx with iv := some iv1 } k ks hk iv1 rfl h1 P
  obtain ⟨a2, b2⟩ := pcbc_without_iv { ctx with iv := some iv2 } k ks hk iv2 rfl h2 P
  have hE : ({ ctx with iv := some iv1 } : CryptoContext).encryptPCBC P
      = ({ ctx with iv := some iv2 } : CryptoContext).encryptPCBC P := by
    rw [a1, a2]; rfl
  have hD : ∀ x, ({ ctx with iv := some iv1 } : CryptoContext).decryptPCBC x
      = ({ ctx with iv := some iv2 } : CryptoContext).decryptPCBC x := by
    intro x
    rw [(pcbc_without_iv { ctx with iv := some iv1 } k ks hk iv1 rfl h1 x).2,
      (pcbc_without_iv { ctx with iv := some iv2 } k ks hk iv2 rfl h2 x).2]
    rfl
  refine ⟨hE, hD P, ?_, ?_⟩
  · intro henc hal hP
    have hne : P ≠ [] := List.length_pos.mp hP
    have hle : k.length ≤ P.length := Nat.le_of_dvd hP (Nat.dvd_of_mod_eq_zero hal)
    have htl : (P.take k.length).length = k.length := by
      rw [List.length_take]; omega
    obtain ⟨e, he1, he2⟩ := encryptBlock_ok ctx k.length henc (P.take k.length) htl
    have hstep : ctx.pcbcEncryptStep k.length (P.take k.length)
        (List.replicate k.length 0, List.replicate k.length 0)
        = .ok (e, (P.take k.length, e)) := by
      simp only [CryptoContext.pcbcEncryptStep, fullBlock_ok _ _ htl, bind_ok_eq,
        xorBlocks_self, List.length_replicate,
        xorBlocks_zero (P.take k.length) k.length (by omega), he1, pure_eq_ok]
    obtain ⟨tail, ht1, ht2⟩ := chainLoop_total k.length hpos True
      (ctx.pcbcEncryptStep k.length)
      (fun s => s.1.length = k.length ∧ s.2.length = k.length)
      (by
        intro chunk s hs _ _ hfull
        have hcl := hfull trivial
        have hml : (xorBlocks chunk (xorBlocks s.1 s.2)).length = k.length := by
          rw [xorBlocks_length, xorBlocks_length, hs.1, hs.2, hcl]; simp
        obtain ⟨y, y1, y2⟩ := encryptBlock_ok ctx k.length henc _ hml
        refine ⟨y, (chunk, y), ?_, by rw [y2, hcl], hcl, y2⟩
        simp only [CryptoContext.pcbcEncryptStep, fullBlock_ok _ _ hcl, bind_ok_eq, y1,
          pure_eq_ok])
      (P.drop k.length).length (P.drop k.length) (P.take k.length, e) (le_refl _)
      (fun _ => by
        rw [List.length_drop]
        exact Nat.sub_mod_eq_zero_of_mod_eq (by rw [hal, Nat.mod_self]))
      ⟨htl, he2⟩
    refine ⟨e ++ tail, ?_, ?_, ?_⟩
    · rw [a1]
      have hstep1 : ({ ctx with iv := some iv1 } : CryptoContext).pcbcEncryptStep k.length
          (P.take k.length) (List.replicate k.length 0, List.replicate k.length 0)
          = .ok (e, (P.take k.length, e)) := hstep
      have ht : chainLoop k.length
          (({ ctx with iv := some iv1 } : CryptoContext).pcbcEncryptStep k.length)
          (P.drop k.length).length (P.drop k.length) (P.take k.length, e) = .ok tail := ht1
      simp only [checkAligned_ok P k.length hpos hal, bind_ok_eq,
        chainLoop_unfold k.length hpos _ P.length P _ hne (le_refl _), hstep1, ht,
        pure_eq_ok, htl, copyBytes_same_length (makeBytes k.length) e (by rw [makeBytes_length, he2])]
    · rw [List.length_append, he2, ht2, List.length_drop]; omega
    · rw [blockAt_zero_append e tail k.length he2]
      have : blockAt P k.length 0 = P.take k.length := by simp [blockAt]
      rw [this, he1]
  · intro hinv hal
    obtain ⟨C, c1, _, c3⟩ := pcbc_roundtrip { ctx with iv := some iv1 } k ks iv1 hk hpos rfl
      h1 hinv P hal
    exact ⟨C, c1, by rw [← hD C]; exact c3⟩

/-- Witness for C26: block size 4, the IVs 00 01 02 03 and FF FE FD FC, eight bytes. -/
theorem C26_pcbc_ignores_iv_witness :
    ({ testContext 4 .PCBC .PKCS7 with iv := some [0, 1, 2, 3] } : CryptoContext).encryptPCBC
        [1, 2, 3, 4, 5, 6, 7, 8]
      = ({ testContext 4 .PCBC .PKCS7 with iv := some [255, 254, 253, 252] }
          : CryptoContext).encryptPCBC [1, 2, 3, 4, 5, 6, 7, 8] :=
  (C26_pcbc_ignores_iv (testContext 4 .PCBC .PKCS7) [0, 0, 0, 0]
    [[0, 0, 0, 0], [0, 0, 0, 0]] [0, 1, 2, 3] [255, 254, 253, 252] rfl (by decide) rfl rfl
    [1, 2, 3, 4, 5, 6, 7, 8]).1

end PCBC

end ISL1
